import Mathlib

/-!
# Rococo: row substrate, transaction registry and transaction manager

A shallow embedding of `memdb/row.h` and `deptran/dtxn.h`.

* A failed `verify(...)` aborts the process.  Operations that contain a `verify`
  return a `Res`: either `ok` with the returned value and the state after the
  call, or `fatal` with the state at the moment of the abort.
* `std::map` is a list of key/value entries with pairwise distinct keys
  (`StdMap.WF`); `find`, `operator[]`, assignment through `operator[]` and
  `erase` are the list functions below.
* Bytes are natural numbers; `int` is four bytes, least significant first.
-/

namespace Rococo

/-! ## Outcomes of operations guarded by `verify` -/

/-- Outcome of a call: `ok v s` returns `v` in state `s`; `fatal s` is a failed
`verify`, with `s` the state in which the process aborts. -/
inductive Res (σ : Type) (α : Type) where
  | ok (val : α) (st : σ)
  | fatal (st : σ)
  deriving DecidableEq, Repr

namespace Res

variable {σ α : Type}

/-- The value returned, when the call returned. -/
def val? : Res σ α → Option α
  | ok v _ => some v
  | fatal _ => none

/-- The state the call leaves behind (on `fatal`: the state at the abort). -/
def state : Res σ α → σ
  | ok _ s => s
  | fatal s => s

/-- Whether the call returned. -/
def isOk : Res σ α → Bool
  | ok _ _ => true
  | fatal _ => false

/-- The outcome with the returned value mapped through `f`. -/
def map {β : Type} (f : α → β) : Res σ α → Res σ β
  | ok v s => ok (f v) s
  | fatal s => fatal s

/-- The statement `verify(c)` followed by the rest `k` of a function body: the call
aborts in state `st` when `c` is false. -/
def verify (c : Bool) (st : σ) (k : Res σ α) : Res σ α :=
  if c then k else fatal st

end Res

/-! ## `std::map` -/

/-- A `std::map<κ, ν>`: its entries. -/
abbrev StdMap (κ ν : Type) := List (κ × ν)

namespace StdMap

variable {κ ν : Type} [DecidableEq κ]

/-- The call `m.find(k)`: `none` is `m.end()`, `some v` an iterator whose `second` is `v`. -/
def find : StdMap κ ν → κ → Option ν
  | [], _ => none
  | (k', v) :: rest, k => if k' = k then some v else find rest k

/-- The statement `m[k] = v`: overwrite the entry of `k`, or add one. -/
def assign : StdMap κ ν → κ → ν → StdMap κ ν
  | [], k, v => [(k, v)]
  | (k', v') :: rest, k, v =>
    if k' = k then (k, v) :: rest else (k', v') :: assign rest k v

/-- The expression `m[k]` read as a value: an absent key is first inserted with the
value-initialised `dflt`. Returns the value read and the map afterwards. -/
def subscript (m : StdMap κ ν) (k : κ) (dflt : ν) : ν × StdMap κ ν :=
  match find m k with
  | some v => (v, m)
  | none => (dflt, assign m k dflt)

/-- The call `m.erase(it)` for the iterator `it` found at key `k`. -/
def erase (m : StdMap κ ν) (k : κ) : StdMap κ ν :=
  m.filter (fun e => decide (e.1 ≠ k))

/-- The keys of the entries, in storage order. -/
def keys (m : StdMap κ ν) : List κ := m.map Prod.fst

/-- A `std::map` holds at most one entry per key. -/
def WF (m : StdMap κ ν) : Prop := (keys m).Nodup

/-- Number of entries stored under key `k`. -/
def entriesAt (m : StdMap κ ν) (k : κ) : Nat := (keys m).count k

end StdMap

/-! ## `TxnRegistry` (dtxn.h) -/

/-- The enum `defer_t`. -/
inductive defer_t where
  | DF_REAL
  | DF_NO
  | DF_FAKE
  deriving DecidableEq, Repr

/-- The struct `txn_handler_defer_pair_t`; `H` is the type of handlers (`TxnHandler`). -/
structure txn_handler_defer_pair_t (H : Type) where
  txn_handler : H
  defer : defer_t
  deriving DecidableEq, Repr

/-- The static member `TxnRegistry::all_`, the whole state of the registry. -/
abbrev TxnRegistry (H : Type) := StdMap (Int × Int) (txn_handler_defer_pair_t H)

namespace TxnRegistry

variable {H : Type}

/-- `TxnRegistry::reg(t_type, p_type, defer, txn_handler)`. -/
def reg (all_ : TxnRegistry H) (t_type p_type : Int) (defer : defer_t) (txn_handler : H) :
    Res (TxnRegistry H) Unit :=
  let func_key := (t_type, p_type)
  match StdMap.find all_ func_key with
  | some _ => Res.fatal all_
  | none => Res.ok () (StdMap.assign all_ func_key ⟨txn_handler, defer⟩)

/-- `TxnRegistry::get(t_type, p_type)`. -/
def get (all_ : TxnRegistry H) (t_type p_type : Int) :
    Res (TxnRegistry H) (txn_handler_defer_pair_t H) :=
  match StdMap.find all_ (t_type, p_type) with
  | none => Res.fatal all_
  | some p => Res.ok p all_

/-- One call of `reg` with its four arguments. -/
structure RegCall (H : Type) where
  t_type : Int
  p_type : Int
  defer : defer_t
  txn_handler : H

/-- Runs the calls in order from `all_`; `none` as soon as one of them is fatal. -/
def regAll : TxnRegistry H → List (RegCall H) → Option (TxnRegistry H)
  | all_, [] => some all_
  | all_, c :: cs =>
    match reg all_ c.t_type c.p_type c.defer c.txn_handler with
    | Res.ok _ all1 => regAll all1 cs
    | Res.fatal _ => none

end TxnRegistry

/-! ## `entry_t` (dtxn.h) -/

/-- A dependency-graph vertex `Vertex<T>`; only its payload `data_` is used here. -/
structure Vertex (T : Type) where
  data_ : T
  deriving DecidableEq, Repr

/-- The struct `entry_t`. The pointer `last_` is `none` when null and otherwise the
vertex it refers to; a `TxnInfo*` taken as `&last_->data_` is the `data_` of that vertex. -/
structure entry_t (TxnInfo : Type) where
  last_ : Option (Vertex TxnInfo) := none
  deriving DecidableEq, Repr

/-- `entry_t::ro_touch(conflict_txns)`: the entry and the vector after the call. -/
def entry_t.ro_touch {TxnInfo : Type} (e : entry_t TxnInfo) (conflict_txns : List TxnInfo) :
    entry_t TxnInfo × List TxnInfo :=
  match e.last_ with
  | some last => (e, conflict_txns ++ [last.data_])
  | none => (e, conflict_txns)

/-! ## `DTxn` and `DTxnMgr` (dtxn.h) -/

/-- The dynamic class of an object created by `DTxnMgr::create`. -/
inductive DTxnClass where
  | RCCDTxn
  | RO6DTxn
  deriving DecidableEq, Repr

/-- A `DTxn` object: the two members set by the constructor `DTxn(tid, mgr)`, and the
class it was constructed as. `mgr_` is the address of the manager. -/
structure DTxn where
  tid_ : Int
  mgr_ : Nat
  cls : DTxnClass
  deriving DecidableEq, Repr

/-- A `DTxn*`: `none` is `nullptr`, `some a` the address `a`. -/
abbrev DTxnPtr := Option Nat

/-- The free store holding `DTxn` objects: cell `a` is `some d` while the object at
address `a` is live, `none` once it is deleted. -/
abbrev Heap := List (Option DTxn)

namespace Heap

/-- The expression `new T(...)`: the address of the new object and the store with it. -/
def alloc (h : Heap) (d : DTxn) : Nat × Heap := (h.length, h ++ [some d])

/-- The expression `delete p`; deleting `nullptr` does nothing. -/
def free (h : Heap) (p : DTxnPtr) : Heap :=
  match p with
  | none => h
  | some a => h.set a none

/-- The live object at address `a`, if any. -/
def deref (h : Heap) (a : Nat) : Option DTxn := (h.get? a).join

end Heap

/-- A `DTxnMgr` together with what its member functions read and write: the static
`TxnRunner::running_mode_s`, the free store, the address `this` and the map `dtxns_`. -/
structure DTxnMgr where
  running_mode_s : Int
  heap : Heap
  this : Nat
  dtxns_ : StdMap Int DTxnPtr
  deriving DecidableEq, Repr

namespace DTxnMgr

/-- `DTxnMgr::create(tid)`. The constants `MODE_RCC` and `MODE_ROT` are defined outside
these sources and are taken as parameters. -/
def create (MODE_RCC MODE_ROT : Int) (m : DTxnMgr) (tid : Int) : Res DTxnMgr DTxnPtr :=
  let sel : Option DTxnClass :=
    if m.running_mode_s = MODE_RCC then some DTxnClass.RCCDTxn
    else if m.running_mode_s = MODE_ROT then some DTxnClass.RO6DTxn
    else none
  match sel with
  | none => Res.fatal m
  | some cls =>
    let na := Heap.alloc m.heap ⟨tid, m.this, cls⟩
    let ret : DTxnPtr := some na.1
    let rd := StdMap.subscript m.dtxns_ tid none
    let m1 : DTxnMgr := { m with heap := na.2, dtxns_ := rd.2 }
    if rd.1 = none then
      Res.ok ret { m1 with dtxns_ := StdMap.assign m1.dtxns_ tid ret }
    else Res.fatal m1

/-- `DTxnMgr::destroy(tid)`. -/
def destroy (m : DTxnMgr) (tid : Int) : Res DTxnMgr Unit :=
  match StdMap.find m.dtxns_ tid with
  | none => Res.fatal m
  | some p =>
    Res.ok () { m with heap := Heap.free m.heap p, dtxns_ := StdMap.erase m.dtxns_ tid }

/-- `DTxnMgr::get(tid)`. -/
def get (m : DTxnMgr) (tid : Int) : Res DTxnMgr DTxnPtr :=
  match StdMap.find m.dtxns_ tid with
  | none => Res.fatal m
  | some p => Res.ok p m

/-- `DTxnMgr::get_or_create(tid)`. -/
def get_or_create (MODE_RCC MODE_ROT : Int) (m : DTxnMgr) (tid : Int) :
    Res DTxnMgr DTxnPtr :=
  match StdMap.find m.dtxns_ tid with
  | none => create MODE_RCC MODE_ROT m tid
  | some p => Res.ok p m

/-- The manager that `create(tid)` leaves behind when it constructs an object of class
`cls` for a `tid` that has no entry. -/
def created (m : DTxnMgr) (tid : Int) (cls : DTxnClass) : DTxnMgr :=
  { m with
    heap := m.heap ++ [some ⟨tid, m.this, cls⟩]
    dtxns_ := StdMap.assign (StdMap.assign m.dtxns_ tid none) tid (some m.heap.length) }

end DTxnMgr

/-- A call on a `DTxnMgr`: one of its four member functions, or `TxnRunner::init(mode)`
as far as the manager sees it, a new value of the running mode. -/
inductive DTxnOp where
  | create (tid : Int)
  | get_or_create (tid : Int)
  | get (tid : Int)
  | destroy (tid : Int)
  | init (mode : Int)
  deriving DecidableEq, Repr

namespace DTxnMgr

/-- The manager after one call, or at the abort of that call. -/
def step (MODE_RCC MODE_ROT : Int) (m : DTxnMgr) : DTxnOp → Res DTxnMgr Unit
  | DTxnOp.create tid => (create MODE_RCC MODE_ROT m tid).map fun _ => ()
  | DTxnOp.get_or_create tid => (get_or_create MODE_RCC MODE_ROT m tid).map fun _ => ()
  | DTxnOp.get tid => (get m tid).map fun _ => ()
  | DTxnOp.destroy tid => destroy m tid
  | DTxnOp.init mode => Res.ok () { m with running_mode_s := mode }

/-- The manager after a sequence of calls that all complete; `none` as soon as one of
them is fatal. -/
def runAll (MODE_RCC MODE_ROT : Int) : DTxnMgr → List DTxnOp → Option DTxnMgr
  | m, [] => some m
  | m, op :: ops =>
    match step MODE_RCC MODE_ROT m op with
    | Res.ok _ m1 => runAll MODE_RCC MODE_ROT m1 ops
    | Res.fatal _ => none

/-- The invariant of the map: every entry `(tid, d)` has `d` non-null, pointing at a
live object with `tid_ == tid` and `mgr_` the manager. -/
def Inv (m : DTxnMgr) : Prop :=
  ∀ tid p, StdMap.find m.dtxns_ tid = some p →
    ∃ a d, p = some a ∧ Heap.deref m.heap a = some d ∧ d.tid_ = tid ∧ d.mgr_ = m.this

end DTxnMgr

/-! ## Values and schemas (value.h and schema.h are outside these sources) -/

/-- Modelled from the spec: the kind tag of a `Value`, "Discriminated scalar
`{I32, I64, DOUBLE, STR}`" (the enum `Value::kind` is declared in value.h). `UNKNOWN`
stands for every tag other than these four, the one that the `default:` branch of the
switches on `get_kind()` in dtxn.h catches. -/
inductive Kind where
  | I32
  | I64
  | DOUBLE
  | STR
  | UNKNOWN
  deriving DecidableEq, Repr

/-- Modelled from the spec: a `Value` (value.h). A double is kept as its 64-bit
pattern, a string as its bytes; `UNKNOWN` is a value whose kind is none of the four. -/
inductive Value where
  | I32 (v : Int)
  | I64 (v : Int)
  | DOUBLE (bits : Nat)
  | STR (s : List Nat)
  | UNKNOWN
  deriving DecidableEq, Repr

/-- Modelled from the spec: `Value::get_kind()`. -/
def Value.get_kind : Value → Kind
  | Value.I32 _ => Kind.I32
  | Value.I64 _ => Kind.I64
  | Value.DOUBLE _ => Kind.DOUBLE
  | Value.STR _ => Kind.STR
  | Value.UNKNOWN => Kind.UNKNOWN

/-- Modelled from the spec: `Schema::column_info` (schema.h), a column
"`{name, type, fixed_part?, primary_key?}`": `fixed_size_offst` is the offset of a
fixed-width column in the fixed part, `var_size_idx` the position of a string column
among the variable-size columns. -/
structure column_info where
  name : String
  type : Kind
  fixed_size_offst : Nat
  var_size_idx : Nat
  deriving DecidableEq, Repr

/-- Modelled from the spec: `Schema` (schema.h), an "ordered list of columns" with the
derived `fixed_part_size_` and `var_size_cols_` that row.h reads. -/
structure Schema where
  col_info_ : List column_info
  fixed_part_size_ : Nat
  var_size_cols_ : Nat
  deriving DecidableEq, Repr

namespace Schema

/-- Modelled from the spec: `Schema::columns_count()`. -/
def columns_count (s : Schema) : Nat := s.col_info_.length

/-- Modelled from the spec: `Schema::get_column_id(name)`, the position of the column
called `name`, or `-1`. -/
def get_column_id (s : Schema) (name : String) : Int :=
  match s.col_info_.findIdx? (fun c => decide (c.name = name)) with
  | some i => (i : Int)
  | none => -1

/-- Modelled from the spec: `Schema::get_column_info(column_id)`; `none` stands for an
id that names no column. -/
def get_column_info (s : Schema) (column_id : Int) : Option column_info :=
  if 0 ≤ column_id then s.col_info_.get? column_id.toNat else none

end Schema

/-! ## Bytes -/

/-- The `w` bytes of `x`, least significant first. -/
def le_bytes : Nat → Nat → List Nat
  | 0, _ => []
  | w + 1, x => x % 256 :: le_bytes w (x / 256)

/-- The object representation of a signed integer of `w` bytes. -/
def int_bytes (w : Nat) (v : Int) : List Nat := le_bytes w (v % (2 : Int) ^ (8 * w)).toNat

/-- The call `str.resize(n)` on a `std::string`. -/
def resize (str : List Nat) (n : Nat) : List Nat :=
  str.take n ++ List.replicate (n - str.length) 0

/-- The call `memcpy(dst + i, src, n)`: the buffer `dst` afterwards. -/
def memcpy (dst : List Nat) (i : Nat) (src : List Nat) (n : Nat) : List Nat :=
  dst.take i ++ src.take n ++ dst.drop (i + n)

/-! ## The type `int` -/

/-- The value of an `int` converted from the integer `x`: the value congruent to `x`
modulo `2 ^ 32` in the range of `int`. -/
def to_int (x : Int) : Int := (x + 2 ^ 31) % 2 ^ 32 - 2 ^ 31

/-- The sum of the `int` `a` and the `int` member whose value is `b`; `none` when `b` or
the sum is not a value of `int`, an overflow that the language leaves undefined. -/
def int_add (a : Int) (b : Nat) : Option Int :=
  if (b : Int) < 2 ^ 31 ∧ -(2 : Int) ^ 31 ≤ a + b ∧ a + b < 2 ^ 31 then some (a + b) else none

/-- The call `str.resize(len)` for an `int` `len`: a negative `len` converts to a
`size_t` above `max_size()` and the call throws `std::length_error`, `none`. -/
def resize_int (str : List Nat) (len : Int) : Option (List Nat) :=
  if 0 ≤ len then some (resize str len.toNat) else none

/-- The call `memcpy(str.data() + i, src, n)` for an `int` `i` on a string of `len`
bytes; `none` when the `n` bytes written do not lie in the string. -/
def memcpy_int (len : Int) (dst : List Nat) (i : Int) (src : List Nat) (n : Nat) :
    Option (List Nat) :=
  if 0 ≤ i ∧ i + n ≤ len then some (memcpy dst i.toNat src n) else none

/-! ## `Row` (row.h) -/

/-- The anonymous union of `Row`, tagged by `kind_`: for a `DENSE` row the var part
`dense_var_part_` and the index table `dense_var_idx_` ("marks the stop of a var
segment"), for a `SPARSE` row the array `sparse_var_` with one string per
variable-size column. -/
inductive VarPart where
  | dense (dense_var_part_ : List Nat) (dense_var_idx_ : List Nat)
  | sparse (sparse_var_ : List (List Nat))
  deriving DecidableEq, Repr

/-- The enumerator `DENSE`. -/
def DENSE : Nat := 0

/-- The enumerator `SPARSE`. -/
def SPARSE : Nat := 1

/-- The data members of `Row`. `tbl_` is `none` when null, else the address of the
table. -/
structure Row where
  fixed_part_ : List Nat
  var : VarPart
  tbl_ : Option Nat
  rdonly_ : Bool
  schema_ : Schema
  deriving DecidableEq, Repr

namespace Row

/-- The member `kind_`. -/
def kind_ (r : Row) : Nat :=
  match r.var with
  | VarPart.dense _ _ => DENSE
  | VarPart.sparse _ => SPARSE

/-- The member `dense_var_idx_` of a dense row. -/
def dense_var_idx_ (r : Row) : List Nat :=
  match r.var with
  | VarPart.dense _ idx => idx
  | VarPart.sparse _ => []

/-- The member `dense_var_part_` of a dense row. -/
def dense_var_part_ (r : Row) : List Nat :=
  match r.var with
  | VarPart.dense part _ => part
  | VarPart.sparse _ => []

/-- The bytes of the `int` array `dense_var_idx_`, as `memcpy` reads them. -/
def dense_var_idx_bytes (r : Row) : List Nat :=
  (r.dense_var_idx_.map (le_bytes 4)).flatten

/-- `Row::readonly()`. -/
def readonly (r : Row) : Bool := r.rdonly_

/-- `Row::make_readonly()`. -/
def make_readonly (r : Row) : Row := { r with rdonly_ := true }

/-- `Row::set_table(tbl)`. -/
def set_table (r : Row) (tbl : Option Nat) : Res Row Unit :=
  if tbl ≠ none ∧ r.tbl_ ≠ none then Res.fatal r
  else Res.ok () { r with tbl_ := tbl }

/-- `Row::get_table()`. -/
def get_table (r : Row) : Option Nat := r.tbl_

/-- `Row::to_string(str)`: the string after the call. `sizeof(fixed_part_size_)` and
`sizeof(kind_)` are `sizeof(int)`, four bytes. `len` and `i` are `int`s: `int len = s`
and `int i = s` convert the `size_t s`, a `+=` of a `sizeof` sum is computed in `size_t`
and converted back, a `+=` of an `int` member is an `int` sum. The outcome is `fatal`
when `verify(i == len)` fails, and, with the string as it was passed, when the call
does not get that far: `resize` throws, a sum of `int`s overflows or `memcpy` writes
outside the buffer of `len` bytes. -/
def to_string (r : Row) (str : List Nat) : Res (List Nat) Unit :=
  let s := str.length
  let len := to_int s
  let len := to_int (len + ((4 + r.schema_.fixed_part_size_ + 4 : Nat) : Int))
  if r.kind_ = DENSE ∧ r.schema_.var_size_cols_ > 0 then
    let last := r.dense_var_idx_.getD (r.schema_.var_size_cols_ - 1) 0
    let out : Option (Res (List Nat) Unit) :=
      (int_add len r.schema_.var_size_cols_).bind fun len =>
      (int_add len last).bind fun len =>
      (resize_int str len).bind fun str =>
      let i := to_int s
      (memcpy_int len str i (le_bytes 4 r.schema_.fixed_part_size_) 4).bind fun str =>
      let i := to_int (i + 4)
      (memcpy_int len str i r.fixed_part_ r.schema_.fixed_part_size_).bind fun str =>
      (int_add i r.schema_.fixed_part_size_).bind fun i =>
      (memcpy_int len str i (le_bytes 4 r.kind_) 4).bind fun str =>
      let i := to_int (i + 4)
      (memcpy_int len str i r.dense_var_idx_bytes r.schema_.var_size_cols_).bind fun str =>
      (int_add i r.schema_.var_size_cols_).bind fun i =>
      (memcpy_int len str i r.dense_var_part_ last).bind fun str =>
      (int_add i last).bind fun i =>
      some (if i = len then Res.ok () str else Res.fatal str)
    out.getD (Res.fatal str)
  else
    let out : Option (Res (List Nat) Unit) :=
      (resize_int str len).bind fun str =>
      let i := to_int s
      (memcpy_int len str i (le_bytes 4 r.schema_.fixed_part_size_) 4).bind fun str =>
      let i := to_int (i + 4)
      (memcpy_int len str i r.fixed_part_ r.schema_.fixed_part_size_).bind fun str =>
      (int_add i r.schema_.fixed_part_size_).bind fun i =>
      (memcpy_int len str i (le_bytes 4 r.kind_) 4).bind fun str =>
      let i := to_int (i + 4)
      some (if i = len then Res.ok () str else Res.fatal str)
    out.getD (Res.fatal str)

/-- The number of bytes that `to_string` counts in `len` beyond the size of `str`: the
widths of the fields it writes. -/
def appended (r : Row) : Nat :=
  4 + r.schema_.fixed_part_size_ + 4 +
    (if r.kind_ = DENSE ∧ r.schema_.var_size_cols_ > 0 then
      r.schema_.var_size_cols_ + r.dense_var_idx_.getD (r.schema_.var_size_cols_ - 1) 0
     else 0)

/-- The storage invariant of a row: the fixed part has the size the schema gives
it; a dense row has one index entry per variable-size column and a var part that
ends where the last segment stops; a sparse row has one string per variable-size
column. -/
def WF (r : Row) : Prop :=
  r.fixed_part_.length = r.schema_.fixed_part_size_ ∧
  match r.var with
  | VarPart.dense part idx =>
    idx.length = r.schema_.var_size_cols_ ∧
    part.length = idx.getD (r.schema_.var_size_cols_ - 1) 0
  | VarPart.sparse sv => sv.length = r.schema_.var_size_cols_

instance (r : Row) : Decidable r.WF := by
  unfold WF
  cases r.var <;> infer_instance

/-- Modelled from the spec: the bytes of the `j`-th variable-size column, what
`Row::get_blob` (declared in row.h, defined outside these sources) reads for a string
column: in a dense row the segment of the var part that stops at
`dense_var_idx_[j]` and starts where segment `j - 1` stops, in a sparse row the
`j`-th string. -/
def var_column (r : Row) (j : Nat) : List Nat :=
  match r.var with
  | VarPart.dense part idx =>
    (part.take (idx.getD j 0)).drop (if j = 0 then 0 else idx.getD (j - 1) 0)
  | VarPart.sparse sv => sv.getD j []

/-- The bytes that `to_string` appends after the old contents of `str`, field by
field: `fixed_part_size_`, the fixed part, `kind_`, and in the dense branch the first
`var_size_cols_` bytes of the index table and the var part. -/
def payload (r : Row) : List Nat :=
  le_bytes 4 r.schema_.fixed_part_size_ ++ r.fixed_part_.take r.schema_.fixed_part_size_ ++
    le_bytes 4 r.kind_ ++
    (if r.kind_ = DENSE ∧ r.schema_.var_size_cols_ > 0 then
      r.dense_var_idx_bytes.take r.schema_.var_size_cols_ ++
        r.dense_var_part_.take (r.dense_var_idx_.getD (r.schema_.var_size_cols_ - 1) 0)
     else [])

/-- Modelled from the spec: `Row::update_fixed(col, ptr, len)` (declared in row.h,
defined outside these sources): "Fails (fatal) if row is readonly", and "for
fixed-width columns, overwrites in place". -/
def update_fixed (r : Row) (col : column_info) (ptr : List Nat) (len : Nat) : Res Row Unit :=
  if r.rdonly_ then Res.fatal r
  else Res.ok () { r with fixed_part_ := memcpy r.fixed_part_ col.fixed_size_offst ptr len }

/-- `Row::update(int column_id, i32 v)`. -/
def update_i32 (r : Row) (column_id : Int) (v : Int) : Res Row Unit :=
  match r.schema_.get_column_info column_id with
  | none => Res.fatal r
  | some info =>
    if info.type = Kind.I32 then update_fixed r info (int_bytes 4 v) 4 else Res.fatal r

/-- `Row::update(int column_id, i64 v)`. -/
def update_i64 (r : Row) (column_id : Int) (v : Int) : Res Row Unit :=
  match r.schema_.get_column_info column_id with
  | none => Res.fatal r
  | some info =>
    if info.type = Kind.I64 then update_fixed r info (int_bytes 8 v) 8 else Res.fatal r

/-- `Row::update(int column_id, double v)`; `v` is given by its 64-bit pattern. -/
def update_double (r : Row) (column_id : Int) (v : Nat) : Res Row Unit :=
  match r.schema_.get_column_info column_id with
  | none => Res.fatal r
  | some info =>
    if info.type = Kind.DOUBLE then update_fixed r info (le_bytes 8 v) 8 else Res.fatal r

/-- Modelled from the spec: the variable part after string column `j` is replaced by
`str`: "in dense kind, rewrites the var segment and updates the offset index; in
sparse kind, replaces the entry". -/
def set_var_column (v : VarPart) (j : Nat) (str : List Nat) : VarPart :=
  match v with
  | VarPart.dense part idx =>
    let start := if j = 0 then 0 else idx.getD (j - 1) 0
    let stop := idx.getD j 0
    VarPart.dense (part.take start ++ str ++ part.drop stop)
      ((List.range idx.length).map fun i =>
        if i < j then idx.getD i 0 else idx.getD i 0 - (stop - start) + str.length)
  | VarPart.sparse sv => VarPart.sparse (sv.set j str)

/-- Modelled from the spec: `Row::update(int column_id, const std::string& str)`
(declared in row.h, defined outside these sources): "asserts value kind matches column
type", "Fails (fatal) if row is readonly", then rewrites the column. -/
def update_str (r : Row) (column_id : Int) (str : List Nat) : Res Row Unit :=
  if r.rdonly_ then Res.fatal r
  else
    match r.schema_.get_column_info column_id with
    | none => Res.fatal r
    | some info =>
      if info.type = Kind.STR then
        Res.ok () { r with var := set_var_column r.var info.var_size_idx str }
      else Res.fatal r

/-- Modelled from the spec: `Row::update(int column_id, const Value& v)` (declared in
row.h, defined outside these sources): the update for the kind of `v`. -/
def update_value (r : Row) (column_id : Int) (v : Value) : Res Row Unit :=
  match v with
  | Value.I32 x => update_i32 r column_id x
  | Value.I64 x => update_i64 r column_id x
  | Value.DOUBLE x => update_double r column_id x
  | Value.STR x => update_str r column_id x
  | Value.UNKNOWN => Res.fatal r

/-- `Row::update(const std::string& col_name, i32 v)`. -/
def update_i32_by_name (r : Row) (col_name : String) (v : Int) : Res Row Unit :=
  update_i32 r (r.schema_.get_column_id col_name) v

/-- `Row::update(const std::string& col_name, i64 v)`. -/
def update_i64_by_name (r : Row) (col_name : String) (v : Int) : Res Row Unit :=
  update_i64 r (r.schema_.get_column_id col_name) v

/-- `Row::update(const std::string& col_name, double v)`. -/
def update_double_by_name (r : Row) (col_name : String) (v : Nat) : Res Row Unit :=
  update_double r (r.schema_.get_column_id col_name) v

/-- `Row::update(const std::string& col_name, const std::string& v)`. -/
def update_str_by_name (r : Row) (col_name : String) (v : List Nat) : Res Row Unit :=
  update_str r (r.schema_.get_column_id col_name) v

/-- `Row::update(const std::string& col_name, const Value& v)`. -/
def update_value_by_name (r : Row) (col_name : String) (v : Value) : Res Row Unit :=
  update_value r (r.schema_.get_column_id col_name) v

/-- Modelled from the spec: `Row::make_sparse()` (declared in row.h, defined outside
these sources), "`make_sparse` converts in place": a dense row keeps each
variable-size column as a string of its own. -/
def make_sparse (r : Row) : Row :=
  match r.var with
  | VarPart.dense _ idx =>
    { r with var := VarPart.sparse ((List.range idx.length).map fun j => var_column r j) }
  | VarPart.sparse _ => r

end Row

/-- A call of one of the member functions of `Row` that change the row. -/
inductive RowOp where
  | make_readonly
  | make_sparse
  | set_table (tbl : Option Nat)
  | update_i32 (column_id : Int) (v : Int)
  | update_i64 (column_id : Int) (v : Int)
  | update_double (column_id : Int) (v : Nat)
  | update_str (column_id : Int) (v : List Nat)
  | update_value (column_id : Int) (v : Value)
  | update_i32_by_name (col_name : String) (v : Int)
  | update_i64_by_name (col_name : String) (v : Int)
  | update_double_by_name (col_name : String) (v : Nat)
  | update_str_by_name (col_name : String) (v : List Nat)
  | update_value_by_name (col_name : String) (v : Value)
  deriving DecidableEq, Repr

namespace Row

/-- The row after one call, or at the abort of that call. -/
def step (r : Row) : RowOp → Res Row Unit
  | RowOp.make_readonly => Res.ok () r.make_readonly
  | RowOp.make_sparse => Res.ok () r.make_sparse
  | RowOp.set_table tbl => r.set_table tbl
  | RowOp.update_i32 c v => r.update_i32 c v
  | RowOp.update_i64 c v => r.update_i64 c v
  | RowOp.update_double c v => r.update_double c v
  | RowOp.update_str c v => r.update_str c v
  | RowOp.update_value c v => r.update_value c v
  | RowOp.update_i32_by_name n v => r.update_i32_by_name n v
  | RowOp.update_i64_by_name n v => r.update_i64_by_name n v
  | RowOp.update_double_by_name n v => r.update_double_by_name n v
  | RowOp.update_str_by_name n v => r.update_str_by_name n v
  | RowOp.update_value_by_name n v => r.update_value_by_name n v

/-- The row after a sequence of calls; a fatal call ends the run with the row as it
is at the abort. -/
def run : Row → List RowOp → Row
  | r, [] => r
  | r, op :: ops =>
    match step r op with
    | Res.ok _ r1 => run r1 ops
    | Res.fatal r1 => r1

end Row

/-- A sequence of `set_table` calls on a row; `none` as soon as one of them is
fatal. -/
def Row.set_table_all : Row → List (Option Nat) → Option Row
  | r, [] => some r
  | r, t :: ts =>
    match r.set_table t with
    | Res.ok _ r1 => Row.set_table_all r1 ts
    | Res.fatal _ => none

/-! ## `CoarseLockedRow` and `VersionedRow` (row.h) -/

/-- `CoarseLockedRow`: a `Row` with the member `lock_`. The class `RWLock` is defined
outside these sources; `L` is the type of its states. -/
structure CoarseLockedRow (L : Type) extends Row where
  lock_ : L

/-- Modelled from the spec: `version_t` (defined outside these sources) is an
unsigned 64-bit counter, "`version[col_id]: u64`"; this is the number of its values. -/
def version_t_mod : Nat := 2 ^ 64

/-- `VersionedRow`: a `CoarseLockedRow` with the array `ver_`, one `version_t` per
column. -/
structure VersionedRow (L : Type) extends CoarseLockedRow L where
  ver_ : List Nat

namespace VersionedRow

variable {L : Type}

/-- `VersionedRow::init_ver(n_columns)`: the array `ver_` it leaves. -/
def init_ver (n_columns : Nat) : List Nat := List.replicate n_columns 0

/-- `VersionedRow::get_column_ver(column_id)`. -/
def get_column_ver (r : VersionedRow L) (column_id : Nat) : Nat := r.ver_.getD column_id 0

/-- `VersionedRow::incr_column_ver(column_id)`. -/
def incr_column_ver (r : VersionedRow L) (column_id : Nat) : VersionedRow L :=
  { r with ver_ := r.ver_.set column_id ((r.ver_.getD column_id 0 + 1) % version_t_mod) }

/-- `VersionedRow::create(schema, values)` for a vector of values. `Row::create`, which
fills the `Row` part of the raw row and may abort, is defined outside these sources and
is the parameter `Row_create` (`none` when it aborts); `lock0` is a default-constructed
`RWLock`. The result is `none` when a `verify` fails. -/
def create (Row_create : Schema → List Value → Option Row) (lock0 : L) (schema : Schema)
    (values : List Value) : Option (VersionedRow L) :=
  if values.length = schema.columns_count then
    match Row_create schema values with
    | some base =>
      some { toRow := base, lock_ := lock0, ver_ := init_ver schema.columns_count }
    | none => none
  else none

/-- A member function inherited from `Row`, called on a `VersionedRow`: it works on
the `Row` part only. -/
def inherited (f : Row → Res Row Unit) (r : VersionedRow L) : Res (VersionedRow L) Unit :=
  match f r.toRow with
  | Res.ok _ r1 => Res.ok () { r with toRow := r1 }
  | Res.fatal r1 => Res.fatal { r with toRow := r1 }

/-- A call of a member function of `VersionedRow` that changes the row: its own
`incr_column_ver`, a call inherited from `Row`, or one of the lock calls of
`CoarseLockedRow` (`rlock_row_by`, `wlock_row_by`, `unlock_row_by`), which act on
`lock_` alone. -/
inductive Op (L : Type) where
  | incr_column_ver (column_id : Nat)
  | row (op : RowOp)
  | lock (f : L → L)

/-- The row after one call, or at the abort of that call. -/
def step (r : VersionedRow L) : Op L → Res (VersionedRow L) Unit
  | Op.incr_column_ver c => Res.ok () (r.incr_column_ver c)
  | Op.row op => inherited (fun x => x.step op) r
  | Op.lock f => Res.ok () { r with lock_ := f r.lock_ }

/-- The row after a sequence of calls; a fatal call ends the run. -/
def run : VersionedRow L → List (Op L) → VersionedRow L
  | r, [] => r
  | r, op :: ops =>
    match step r op with
    | Res.ok _ r1 => run r1 ops
    | Res.fatal r1 => r1

/-- No `incr_column_ver` of the run is called on a column whose counter is at its
maximum. -/
def NoOverflow : VersionedRow L → List (Op L) → Prop
  | _, [] => True
  | r, op :: ops =>
    (∀ c, op = Op.incr_column_ver c → r.get_column_ver c + 1 < version_t_mod) ∧
    match step r op with
    | Res.ok _ r1 => NoOverflow r1 ops
    | Res.fatal _ => True

end VersionedRow

/-! ## `MultiVersionedRow` (row.h) -/

/-- The constant `GC_THRESHOLD`. -/
def GC_THRESHOLD : Nat := 100

/-- The constant `VERSION_SAFE_TIME`, in milliseconds. -/
def VERSION_SAFE_TIME : Nat := 5000

namespace StdMap

variable {κ ν : Type} [DecidableEq κ]

/-- The call `m.insert(std::make_pair(k, v))`: an entry that `k` already has is kept
as it is. -/
def insert (m : StdMap κ ν) (k : κ) (v : ν) : StdMap κ ν :=
  match find m k with
  | some _ => m
  | none => assign m k v

/-- The call `m.size()`. -/
def size (m : StdMap κ ν) : Nat := m.length

/-- The call `m.lower_bound(k)` on a map with integer keys: the entry with the least
key that is not less than `k`, `none` for `m.end()`. -/
def lower_bound {ν : Type} : StdMap Int ν → Int → Option (Int × ν)
  | [], _ => none
  | e :: rest, k =>
    match lower_bound rest k with
    | none => if k ≤ e.1 then some e else none
    | some b => if k ≤ e.1 ∧ e.1 < b.1 then some e else some b

end StdMap

/-- `MultiVersionedRow`: a `Row` with the maps `old_values_` (per column, version id to
the value that version replaced) and `time_segment` (per column, a real time to an
iterator into the history, kept as the key the iterator points at). -/
structure MultiVersionedRow extends Row where
  old_values_ : StdMap Int (StdMap Int Value)
  time_segment : StdMap Int (StdMap Int Int)
  deriving DecidableEq, Repr

/-- A `MultiVersionedRow` together with the static counter `MultiVersionedRow::ver_s`,
which its `update` reads and writes. -/
structure MVWorld where
  ver_s : Nat
  row : MultiVersionedRow
  deriving DecidableEq, Repr

/-- The member functions that row.h declares and update_internal calls, and that are
defined outside these sources: `Row::get_column` (`none` when it aborts),
`MultiVersionedRow::getCurrentVersion` ("retrieve current version number") and
`MultiVersionedRow::garbageCollection`. Modelled from the spec:
`garbageCollection(col, new_entry_iter)` removes entries of `old_values[col]`; it is
given the column, the key of the new entry, the history and the time index of that
column, and returns the two of them as it leaves them. -/
structure MVExtern where
  get_column : Row → Int → Option Value
  getCurrentVersion : MultiVersionedRow → Int → Nat
  garbageCollection :
    Int → Int → StdMap Int Value → StdMap Int Int → StdMap Int Value × StdMap Int Int

namespace MultiVersionedRow

/-- `MultiVersionedRow::next_version()`, the pre-increment `++ver_s`: the value
returned and the counter afterwards. -/
def next_version (ver_s : Nat) : Nat × Nat :=
  ((ver_s + 1) % version_t_mod, (ver_s + 1) % version_t_mod)

/-- The values returned by `n` successive calls of `next_version()`, the first on the
counter `ver_s`. -/
def draws : Nat → Nat → List Nat
  | _, 0 => []
  | ver_s, n + 1 => (next_version ver_s).1 :: draws (next_version ver_s).2 n

/-- The history of column `column_id`: `old_values_[column_id]`, empty when the column
has no entry yet. -/
def history (r : MultiVersionedRow) (column_id : Int) : StdMap Int Value :=
  (StdMap.find r.old_values_ column_id).getD []

/-- The first part of `update_internal(column_id, v)`, from the draw of the version id
to the garbage collection, for the current value `currentValue` read before. -/
def record (E : MVExtern) (w : MVWorld) (column_id : Int) (currentValue : Value) : MVWorld :=
  let nv := next_version w.ver_s
  let valueEntry : Int × Value := ((nv.1 : Int), currentValue)
  let sub := StdMap.subscript w.row.old_values_ column_id []
  let hist := StdMap.insert sub.1 valueEntry.1 valueEntry.2
  let old1 := StdMap.assign sub.2 column_id hist
  if StdMap.size hist % GC_THRESHOLD = 0 then
    let g := E.garbageCollection column_id valueEntry.1 hist
      ((StdMap.find w.row.time_segment column_id).getD [])
    { ver_s := nv.2,
      row := { w.row with old_values_ := StdMap.assign old1 column_id g.1,
                          time_segment := StdMap.assign w.row.time_segment column_id g.2 } }
  else
    { ver_s := nv.2, row := { w.row with old_values_ := old1 } }

/-- The last statement of `update_internal`, `Row::update(column_id, v)`, run on the
`Row` part of `w`; `res` is what that call gives on the `Row` part. -/
def apply_row (w : MVWorld) (res : Res Row Unit) : Res MVWorld Unit :=
  match res with
  | Res.ok _ r1 => Res.ok () { w with row := { w.row with toRow := r1 } }
  | Res.fatal r1 => Res.fatal { w with row := { w.row with toRow := r1 } }

/-- `MultiVersionedRow::update_internal<Type>(column_id, v)`; `Row_update` is the
overload of `Row::update` that `Row::update(column_id, v)` resolves to for `Type`. -/
def update_internal (E : MVExtern) (Row_update : Row → Res Row Unit) (w : MVWorld)
    (column_id : Int) : Res MVWorld Unit :=
  match E.get_column w.row.toRow column_id with
  | none => Res.fatal w
  | some currentValue =>
    let _currentVersionNumber := E.getCurrentVersion w.row column_id
    let w1 := record E w column_id currentValue
    apply_row w1 (Row_update w1.row.toRow)

/-- `MultiVersionedRow::update(int column_id, i64 v)`. -/
def update_i64 (E : MVExtern) (w : MVWorld) (column_id : Int) (v : Int) : Res MVWorld Unit :=
  update_internal E (fun r => r.update_i64 column_id v) w column_id

/-- `MultiVersionedRow::update(int column_id, i32 v)`. -/
def update_i32 (E : MVExtern) (w : MVWorld) (column_id : Int) (v : Int) : Res MVWorld Unit :=
  update_internal E (fun r => r.update_i32 column_id v) w column_id

/-- `MultiVersionedRow::update(int column_id, double v)`. -/
def update_double (E : MVExtern) (w : MVWorld) (column_id : Int) (v : Nat) :
    Res MVWorld Unit :=
  update_internal E (fun r => r.update_double column_id v) w column_id

/-- `MultiVersionedRow::update(int column_id, const std::string& str)`. -/
def update_str (E : MVExtern) (w : MVWorld) (column_id : Int) (str : List Nat) :
    Res MVWorld Unit :=
  update_internal E (fun r => r.update_str column_id str) w column_id

/-- `MultiVersionedRow::update(int column_id, const Value& v)`. -/
def update_value (E : MVExtern) (w : MVWorld) (column_id : Int) (v : Value) :
    Res MVWorld Unit :=
  update_internal E (fun r => r.update_value column_id v) w column_id

/-- The outcome of a read at a version: a value, or the failure `StaleVersion`. -/
inductive VersionRead where
  | value (v : Value)
  | StaleVersion
  deriving DecidableEq, Repr

/-- Modelled from the spec: `MultiVersionedRow::get_column_by_version(column_id,
version_num)` (declared in row.h, defined outside these sources): "if `ver >= current
column version` return current value; else return the value whose key is the least
`≥ ver` in `old_values[col]`. If none qualifies (pruned), the read fails with
`StaleVersion`." The current version is `getCurrentVersion(column_id)`, the current
value `Row::get_column(column_id)`; `none` when the latter aborts. -/
def get_column_by_version (E : MVExtern) (r : MultiVersionedRow) (column_id : Int)
    (version_num : Int) : Option VersionRead :=
  if (E.getCurrentVersion r column_id : Int) ≤ version_num then
    (E.get_column r.toRow column_id).map VersionRead.value
  else
    match StdMap.lower_bound (history r column_id) version_num with
    | some e => some (VersionRead.value e.2)
    | none => some VersionRead.StaleVersion

end MultiVersionedRow

/-- Number of non-negative values of an `i64`, the key type of a column history. -/
def i64_lim : Nat := 2 ^ 63

/-- A call that moves the counter `ver_s` or the histories of a `MultiVersionedRow`:
one of its five `update` overloads by column id, or `elsewhere`, an update of another
row, which draws one version id. -/
inductive MVOp where
  | update_i64 (column_id : Int) (v : Int)
  | update_i32 (column_id : Int) (v : Int)
  | update_double (column_id : Int) (v : Nat)
  | update_str (column_id : Int) (v : List Nat)
  | update_value (column_id : Int) (v : Value)
  | elsewhere
  deriving DecidableEq, Repr

/-- The column that a call updates on this row. -/
def MVOp.column : MVOp → Option Int
  | MVOp.update_i64 c _ => some c
  | MVOp.update_i32 c _ => some c
  | MVOp.update_double c _ => some c
  | MVOp.update_str c _ => some c
  | MVOp.update_value c _ => some c
  | MVOp.elsewhere => none

/-- What one `update` does to the history of its column: the version id it drew, the
value it recorded under that id, and whether it ran the garbage collection. -/
structure MVEvent where
  column : Int
  ver : Int
  old : Value
  gc : Bool
  deriving DecidableEq, Repr

namespace MVWorld

/-- The world after one call, or at the abort of that call. -/
def step (E : MVExtern) (w : MVWorld) : MVOp → Res MVWorld Unit
  | MVOp.update_i64 c v => MultiVersionedRow.update_i64 E w c v
  | MVOp.update_i32 c v => MultiVersionedRow.update_i32 E w c v
  | MVOp.update_double c v => MultiVersionedRow.update_double E w c v
  | MVOp.update_str c v => MultiVersionedRow.update_str E w c v
  | MVOp.update_value c v => MultiVersionedRow.update_value E w c v
  | MVOp.elsewhere => Res.ok () { w with ver_s := (MultiVersionedRow.next_version w.ver_s).2 }

/-- The world after a sequence of calls; a fatal call ends the run with the world as
it is at the abort. -/
def run (E : MVExtern) : MVWorld → List MVOp → MVWorld
  | w, [] => w
  | w, op :: ops =>
    match step E w op with
    | Res.ok _ w1 => run E w1 ops
    | Res.fatal w1 => w1

/-- The version id that the next `next_version()` returns, as a key. -/
def next_key (w : MVWorld) : Int := (((MultiVersionedRow.next_version w.ver_s).1 : Nat) : Int)

/-- The test `old_values_[column_id].size() % GC_THRESHOLD == 0` of `update_internal`,
for an update of column `c` that has read the value `V0`. -/
def runs_gc (w : MVWorld) (c : Int) (V0 : Value) : Bool :=
  decide (StdMap.size (StdMap.insert (MultiVersionedRow.history w.row c) (next_key w) V0)
    % GC_THRESHOLD = 0)

/-- The event of one call: none for `elsewhere` and for an `update` that aborts while
it reads the current value. -/
def event (E : MVExtern) (w : MVWorld) (op : MVOp) : List MVEvent :=
  match op.column with
  | some c =>
    match E.get_column w.row.toRow c with
    | some V0 => [⟨c, next_key w, V0, runs_gc w c V0⟩]
    | none => []
  | none => []

/-- The events of a run, in order. -/
def trace (E : MVExtern) : MVWorld → List MVOp → List MVEvent
  | _, [] => []
  | w, op :: ops =>
    match step E w op with
    | Res.ok _ w1 => event E w op ++ trace E w1 ops
    | Res.fatal _ => event E w op

/-- The version id drawn at every call of the run is a non-negative `i64`: the counter
`ver_s` does not wrap and the id is its own key. -/
def NoWrap (E : MVExtern) : MVWorld → List MVOp → Prop
  | _, [] => True
  | w, op :: ops =>
    w.ver_s + 1 < i64_lim ∧
    match step E w op with
    | Res.ok _ w1 => NoWrap E w1 ops
    | Res.fatal _ => True

instance NoWrap.decidable (E : MVExtern) :
    (w : MVWorld) → (ops : List MVOp) → Decidable (NoWrap E w ops)
  | _, [] => isTrue trivial
  | w, op :: ops =>
    match h : step E w op with
    | Res.ok _ w1 =>
      have := NoWrap.decidable E w1 ops
      decidable_of_iff (w.ver_s + 1 < i64_lim ∧ NoWrap E w1 ops) (by simp [NoWrap, h])
    | Res.fatal _ => decidable_of_iff (w.ver_s + 1 < i64_lim) (by simp [NoWrap, h])

/-- Every key of every column history is at most `ver_s`. -/
def KeysBelow (w : MVWorld) : Prop :=
  ∀ c k, k ∈ StdMap.keys (MultiVersionedRow.history w.row c) → k ≤ (w.ver_s : Int)

/-- The flags, in order, of the updates of column `c` in a run: whether each ran the
garbage collection. -/
def gc_flags (E : MVExtern) (w : MVWorld) (ops : List MVOp) (c : Int) : List Bool :=
  ((trace E w ops).filter fun e => decide (e.column = c)).map fun e => e.gc

end MVWorld

/-- The garbage collection only removes entries: every key it leaves in the history was
a key before. -/
def MVExtern.Shrinks (E : MVExtern) : Prop :=
  ∀ c k hist seg, ∀ x ∈ StdMap.keys (E.garbageCollection c k hist seg).1, x ∈ StdMap.keys hist

/-! ## `FineLockedRow` (row.h) -/

/-- The enum `FineLockedRow::type_2pl_t`. -/
inductive type_2pl_t where
  | WAIT_DIE
  | WOUND_DIE
  | TIMEOUT
  deriving DecidableEq, Repr

/-- An array `new rrr::XALock[n_columns]`, where `X` is the class chosen for `cls`
(`WaitDieALock`, `WoundDieALock` or `TimeoutALock`). -/
structure ALockArray where
  cls : type_2pl_t
  n_columns : Nat
  deriving DecidableEq, Repr

/-- A pointer `((rrr::XALock *)lock_) + column_id`: the class `X` that `lock_` is cast
to, the array `lock_` points at, and the index. -/
structure ALockPtr where
  cast : type_2pl_t
  array : Option ALockArray
  index : Int
  deriving DecidableEq, Repr

/-- `FineLockedRow`: a `Row` with the member `lock_`, `none` until `init_lock` has
run. -/
structure FineLockedRow extends Row where
  lock_ : Option ALockArray
  deriving DecidableEq, Repr

/-- The static `FineLockedRow::type_2pl_` and the rows created so far. -/
structure FineWorld where
  type_2pl_ : type_2pl_t
  rows : List FineLockedRow
  deriving DecidableEq, Repr

namespace FineLockedRow

/-- The row that the constructor `FineLockedRow()` leaves: the members of `Row()`,
an empty schema standing for the null `schema_`, `lock_` not yet set. -/
def raw : FineLockedRow :=
  { fixed_part_ := [], var := VarPart.dense [] [], tbl_ := none, rdonly_ := false,
    schema_ := ⟨[], 0, 0⟩, lock_ := none }

/-- `FineLockedRow::init_lock(n_columns)` under the policy `type_2pl_`. The enum has
three values, each with its `case`. -/
def init_lock (type_2pl_ : type_2pl_t) (row : FineLockedRow) (n_columns : Nat) :
    FineLockedRow :=
  match type_2pl_ with
  | type_2pl_t.WAIT_DIE => { row with lock_ := some ⟨type_2pl_t.WAIT_DIE, n_columns⟩ }
  | type_2pl_t.WOUND_DIE => { row with lock_ := some ⟨type_2pl_t.WOUND_DIE, n_columns⟩ }
  | type_2pl_t.TIMEOUT => { row with lock_ := some ⟨type_2pl_t.TIMEOUT, n_columns⟩ }

/-- `FineLockedRow::copy_into(row)`: the target row afterwards. `Row::copy_into` is
defined outside these sources and is the parameter `Row_copy_into`. -/
def copy_into (Row_copy_into : Row → Row → Row) (type_2pl_ : type_2pl_t)
    (this_ row : FineLockedRow) : Res FineLockedRow Unit :=
  Res.verify false row
    (let row1 : FineLockedRow := { row with toRow := Row_copy_into this_.toRow row.toRow }
     let n_columns := this_.schema_.columns_count
     Res.ok () (init_lock type_2pl_ row1 n_columns))

/-- `FineLockedRow::copy()`: the row returned, `none` when the call aborts. -/
def copy (Row_copy_into : Row → Row → Row) (type_2pl_ : type_2pl_t)
    (this_ : FineLockedRow) : Option FineLockedRow :=
  match copy_into Row_copy_into type_2pl_ this_ raw with
  | Res.ok _ row => some row
  | Res.fatal _ => none

/-- `FineLockedRow::get_alock(column_id)` under the policy `type_2pl_`. -/
def get_alock (type_2pl_ : type_2pl_t) (row : FineLockedRow) (column_id : Int) : ALockPtr :=
  match type_2pl_ with
  | type_2pl_t.WAIT_DIE => ⟨type_2pl_t.WAIT_DIE, row.lock_, column_id⟩
  | type_2pl_t.WOUND_DIE => ⟨type_2pl_t.WOUND_DIE, row.lock_, column_id⟩
  | type_2pl_t.TIMEOUT => ⟨type_2pl_t.TIMEOUT, row.lock_, column_id⟩

/-- The pointer to the `c`-th lock of the array that `init_lock` allocated for `row`:
the array seen as an array of its own class. -/
def nth_lock (row : FineLockedRow) (c : Int) : Option ALockPtr :=
  row.lock_.map fun arr => ⟨arr.cls, some arr, c⟩

/-- `FineLockedRow::create(schema, values)` for a vector of values under the policy
`type_2pl_`; `Row::create` is the parameter `Row_create` (`none` when it aborts). The
result is `none` when a `verify` fails. -/
def create (Row_create : Schema → List Value → Option Row) (type_2pl_ : type_2pl_t)
    (schema : Schema) (values : List Value) : Option FineLockedRow :=
  if values.length = schema.columns_count then
    let raw_row := init_lock type_2pl_ raw schema.columns_count
    match Row_create schema values with
    | some base => some { raw_row with toRow := base }
    | none => none
  else none

end FineLockedRow

/-- A call of one of the public members of `FineLockedRow` that the policy concerns;
`get_alock` is called on the `row`-th row created. -/
inductive FineOp where
  | set_wait_die
  | set_wound_die
  | create (schema : Schema) (values : List Value)
  | get_alock (row : Nat) (column_id : Int)
  deriving DecidableEq, Repr

namespace FineWorld

/-- `FineLockedRow::set_wait_die()`. -/
def set_wait_die (w : FineWorld) : FineWorld := { w with type_2pl_ := type_2pl_t.WAIT_DIE }

/-- `FineLockedRow::set_wound_die()`. -/
def set_wound_die (w : FineWorld) : FineWorld := { w with type_2pl_ := type_2pl_t.WOUND_DIE }

/-- The state after one call, or at the abort of that call. -/
def step (Row_create : Schema → List Value → Option Row) (w : FineWorld) :
    FineOp → Res FineWorld Unit
  | FineOp.set_wait_die => Res.ok () w.set_wait_die
  | FineOp.set_wound_die => Res.ok () w.set_wound_die
  | FineOp.create schema values =>
    match FineLockedRow.create Row_create w.type_2pl_ schema values with
    | some row => Res.ok () { w with rows := w.rows ++ [row] }
    | none => Res.fatal w
  | FineOp.get_alock _ _ => Res.ok () w

/-- The state after a sequence of calls; a fatal call ends the run. -/
def run (Row_create : Schema → List Value → Option Row) : FineWorld → List FineOp → FineWorld
  | w, [] => w
  | w, op :: ops =>
    match step Row_create w op with
    | Res.ok _ w1 => run Row_create w1 ops
    | Res.fatal w1 => w1

/-- Every row created so far has a lock array of the class that `type_2pl_` names. -/
def Consistent (w : FineWorld) : Prop :=
  ∀ row ∈ w.rows, ∃ n, row.lock_ = some ⟨w.type_2pl_, n⟩

end FineWorld

/-! ## Copies of rows (row.h) -/

/-- The row that the constructor `Row()` leaves: null pointers, kind `DENSE`, not
read-only; an empty schema stands for the null `schema_`. -/
def Row.raw : Row :=
  { fixed_part_ := [], var := VarPart.dense [] [], tbl_ := none, rdonly_ := false,
    schema_ := ⟨[], 0, 0⟩ }

/-- `CoarseLockedRow::copy_into(row)`: the target row afterwards. `Row::copy_into` is
defined outside these sources and is the parameter `Row_copy_into` (source, target,
target afterwards). -/
def CoarseLockedRow.copy_into {L : Type} (Row_copy_into : Row → Row → Row)
    (this_ row : CoarseLockedRow L) : CoarseLockedRow L :=
  { toRow := Row_copy_into this_.toRow row.toRow, lock_ := this_.lock_ }

namespace VersionedRow

variable {L : Type}

/-- `VersionedRow::copy_into(row)`: the target row afterwards. The `memcpy` copies
`n_columns` elements of type `version_t`. -/
def copy_into (Row_copy_into : Row → Row → Row) (this_ row : VersionedRow L) :
    VersionedRow L :=
  let c := CoarseLockedRow.copy_into Row_copy_into this_.toCoarseLockedRow
    row.toCoarseLockedRow
  let n_columns := this_.schema_.columns_count
  { toCoarseLockedRow := c, ver_ := memcpy (init_ver n_columns) 0 this_.ver_ n_columns }

/-- `VersionedRow::copy()`; `lock0` is a default-constructed `RWLock`. -/
def copy (Row_copy_into : Row → Row → Row) (lock0 : L) (this_ : VersionedRow L) :
    VersionedRow L :=
  copy_into Row_copy_into this_ { toRow := Row.raw, lock_ := lock0, ver_ := [] }

end VersionedRow

/-- `MultiVersionedRow::copy()`. The class has no `copy_into` of its own: the call
`copy_into(row)` is `Row::copy_into`, which fills the `Row` part of the new row. -/
def MultiVersionedRow.copy (Row_copy_into : Row → Row → Row) (this_ : MultiVersionedRow) :
    MultiVersionedRow :=
  let row : MultiVersionedRow := { toRow := Row.raw, old_values_ := [], time_segment := [] }
  { row with toRow := Row_copy_into this_.toRow row.toRow }

/-! ## `TxnRegistry::execute` (dtxn.h) -/

/-- Modelled from the spec: `RequestHeader` (defined outside these sources), "the
request header (including `t_type, p_type, tid, sid`)". -/
structure RequestHeader where
  t_type : Int
  p_type : Int
  tid : Int
  sid : Int
  deriving DecidableEq, Repr

/-- The ten arguments of one call of a `TxnHandler`. A pointer to data the handler
reads and writes is given by the data it points at on entry (`res`, `output`,
`output_size`); each of the last four pointers is `none` when it is `NULL`. -/
structure HandlerCall where
  header : RequestHeader
  input : List Value
  input_size : Int
  res : Int
  output : List Value
  output_size : Int
  row_map : Option Nat
  pv : Option Nat
  tv : Option Nat
  ro_conflict_txns : Option Nat
  deriving DecidableEq, Repr

/-- What a call of a handler leaves in `*res`, in the array `output` and in
`*output_size`. -/
structure HandlerEffect where
  res : Int
  output : List Value
  output_size : Int
  deriving DecidableEq, Repr

/-- The type `TxnHandler`, a `std::function`. -/
abbrev TxnHandler := HandlerCall → HandlerEffect

/-- The registry together with the record of the handler calls made so far, in
order. -/
structure ExecState where
  all_ : TxnRegistry TxnHandler
  calls : List HandlerCall

/-- The call `v->resize(n)` on a `std::vector<Value>`; `dflt` is a value-initialised
`Value`. -/
def resize_vector (v : List Value) (n : Nat) (dflt : Value) : List Value :=
  v.take n ++ List.replicate (n - v.length) dflt

namespace TxnRegistry

/-- `TxnRegistry::get(req_hdr)`. -/
def get_hdr {H : Type} (all_ : TxnRegistry H) (req_hdr : RequestHeader) :
    Res (TxnRegistry H) (txn_handler_defer_pair_t H) :=
  get all_ req_hdr.t_type req_hdr.p_type

/-- The raw-array form of `TxnRegistry::execute`: what the handler leaves in `*res`,
`output` and `*output_size`. -/
def execute_array (st : ExecState) (header : RequestHeader) (input : List Value)
    (input_size : Int) (res : Int) (output : List Value) (output_size : Int) :
    Res ExecState HandlerEffect :=
  match get_hdr st.all_ header with
  | Res.fatal _ => Res.fatal st
  | Res.ok pair _ =>
    let call : HandlerCall :=
      ⟨header, input, input_size, res, output, output_size, none, none, none, none⟩
    Res.ok (pair.txn_handler call) { st with calls := st.calls ++ [call] }

/-- The last statement of the vector form, `output->resize(output_size)`, on what the
handler left: `*res` and the vector afterwards. A negative size cannot be resized to
and ends the call. -/
def resize_output (dflt : Value) (st : ExecState) (eff : HandlerEffect) :
    Res ExecState (Int × List Value) :=
  if 0 ≤ eff.output_size then
    Res.ok (eff.res, resize_vector eff.output eff.output_size.toNat dflt) st
  else Res.fatal st

/-- The arguments that the vector form of `execute` passes to the handler:
`input.data()`, `input.size()`, `res`, `output->data()`, the address of the local
`output_size`, which is initialised to `output->size()`, and four times `NULL`. -/
def vector_call (header : RequestHeader) (input : List Value) (res : Int)
    (output : List Value) : HandlerCall :=
  let output_size : Int := output.length
  ⟨header, input, input.length, res, output, output_size, none, none, none, none⟩

/-- The vector form of `TxnRegistry::execute`: `*res` and `*output` afterwards. -/
def execute_vector (dflt : Value) (st : ExecState) (header : RequestHeader)
    (input : List Value) (res : Int) (output : List Value) :
    Res ExecState (Int × List Value) :=
  match get_hdr st.all_ header with
  | Res.fatal _ => Res.fatal st
  | Res.ok pair _ =>
    let call := vector_call header input res output
    let eff := pair.txn_handler call
    resize_output dflt { st with calls := st.calls ++ [call] } eff

end TxnRegistry

/-! ## `MultiValue` (dtxn.h) -/

/-- The class `MultiValue`: the array `v_`. The member `n_` is the length of the
array in every object that a constructor or `operator=` leaves behind, and is kept as
that length. -/
structure MultiValue where
  v_ : List Value
  deriving DecidableEq, Repr

namespace MultiValue

/-- `MultiValue::size()`. -/
def size (mv : MultiValue) : Nat := mv.v_.length

/-- `MultiValue::operator[](idx)`; `none` for an index outside the array. -/
def at? (mv : MultiValue) (idx : Nat) : Option Value := mv.v_[idx]?

/-- The constructor `MultiValue()`. -/
def empty : MultiValue := ⟨[]⟩

/-- The constructor `MultiValue(const Value& v)`. -/
def of_value (v : Value) : MultiValue := ⟨[v]⟩

/-- The constructor `MultiValue(const vector<Value>& vs)`: `n_` is `vs.size()` and the
loop sets `v_[i] = vs[i]` for every `i < n_`. -/
def of_vector (vs : List Value) : MultiValue :=
  ⟨List.ofFn fun i : Fin vs.length => vs.get i⟩

/-- The copy constructor `MultiValue(const MultiValue& mv)`. -/
def copy (mv : MultiValue) : MultiValue :=
  ⟨List.ofFn fun i : Fin mv.v_.length => mv.v_.get i⟩

/-- `MultiValue::operator=(mv)` on the object `this_`; `same_object` tells whether
`&mv == this`. The object afterwards. -/
def assign (this_ mv : MultiValue) (same_object : Bool) : MultiValue :=
  if same_object then this_
  else ⟨List.ofFn fun i : Fin mv.v_.length => mv.v_.get i⟩

/-- The loop of `MultiValue::operator==` over two arrays of the same length: the
first position with `v_[i] != rhs[i]` returns false. `veq` is `operator==` on `Value`
(value.h), and `!=` its negation. -/
def eq_loop (veq : Value → Value → Bool) : List Value → List Value → Bool
  | x :: xs, y :: ys => if !(veq x y) then false else eq_loop veq xs ys
  | _, _ => true

/-- `MultiValue::operator==(rhs)`. -/
def eq (veq : Value → Value → Bool) (mv rhs : MultiValue) : Bool :=
  if mv.size = rhs.size then eq_loop veq mv.v_ rhs.v_ else false

/-- The free `operator<(mv1, mv2)`; `compare` is `MultiValue::compare`, which dtxn.h
declares and does not define. -/
def lt (compare : MultiValue → MultiValue → Int) (mv1 mv2 : MultiValue) : Bool :=
  decide (compare mv1 mv2 = -1)

end MultiValue

/-! ## Hashing (dtxn.h) -/

/-- The specialisations of `std::hash` that dtxn.h calls; their values are left to the
implementation of the standard library, and are parameters here. -/
structure StdHash where
  hash_int32 : Int → Nat
  hash_int64 : Int → Nat
  hash_double : Nat → Nat
  hash_string : List Nat → Nat
  hash_int : Int → Nat

/-- The number of values of `size_t`. -/
def size_t_mod : Nat := 2 ^ 64

/-- The hash of one element in the `switch` of the two hashers, for the four kinds
with a `case`; 0 for a value of another kind, which the hashers never hash. -/
def hash_kind (h : StdHash) : Value → Nat
  | Value.I32 x => h.hash_int32 x
  | Value.I64 x => h.hash_int64 x
  | Value.DOUBLE x => h.hash_double x
  | Value.STR x => h.hash_string x
  | Value.UNKNOWN => 0

/-- The loop shared by `multi_value_hasher` and `cell_locator_hasher`, started with
`ret`: each element is XORed into `ret`; `none` is the `verify(0)` of the `default:`
branch. -/
def hash_loop (h : StdHash) : Nat → List Value → Option Nat
  | ret, [] => some ret
  | ret, v :: vs =>
    match v with
    | Value.I32 x => hash_loop h (ret ^^^ h.hash_int32 x) vs
    | Value.I64 x => hash_loop h (ret ^^^ h.hash_int64 x) vs
    | Value.DOUBLE x => hash_loop h (ret ^^^ h.hash_double x) vs
    | Value.STR x => hash_loop h (ret ^^^ h.hash_string x) vs
    | Value.UNKNOWN => none

/-- `multi_value_hasher::operator()(key)`. -/
def multi_value_hasher (h : StdHash) (key : MultiValue) : Option Nat :=
  hash_loop h 0 key.v_

/-- The XOR of a list of hashes. -/
def xor_all (hs : List Nat) : Nat := hs.foldr (fun x acc => x ^^^ acc) 0

/-! ## `cell_locator` (dtxn.h) -/

/-- The struct `cell_locator`; a `std::string` is the list of its bytes. -/
structure cell_locator where
  tbl_name : List Nat
  primary_key : MultiValue
  col_id : Int
  deriving DecidableEq, Repr

/-- `std::string::compare`: negative, zero or positive as the first string is
lexicographically less than, equal to or greater than the second. -/
def str_compare : List Nat → List Nat → Int
  | [], [] => 0
  | [], _ :: _ => -1
  | _ :: _, [] => 1
  | a :: as, b :: bs => if a < b then -1 else if b < a then 1 else str_compare as bs

namespace cell_locator

/-- `cell_locator::operator==(rhs)`. -/
def eq (veq : Value → Value → Bool) (c rhs : cell_locator) : Bool :=
  decide (c.tbl_name = rhs.tbl_name) && MultiValue.eq veq c.primary_key rhs.primary_key &&
    decide (c.col_id = rhs.col_id)

/-- `cell_locator::operator<(rhs)`; `compare` is `MultiValue::compare`. -/
def lt (compare : MultiValue → MultiValue → Int) (c rhs : cell_locator) : Bool :=
  let i := str_compare c.tbl_name rhs.tbl_name
  if i < 0 then true
  else if i > 0 then false
  else
    if c.col_id < rhs.col_id then true
    else if c.col_id > rhs.col_id then false
    else decide (compare c.primary_key rhs.primary_key < 0)

end cell_locator

/-- `cell_locator_hasher::operator()(key)`; `none` is the `verify(0)` of the
`default:` branch. -/
def cell_locator_hasher (h : StdHash) (key : cell_locator) : Option Nat :=
  let ret := h.hash_string key.tbl_name
  let ret := (ret * 2) % size_t_mod
  let ret := ret ^^^ h.hash_int key.col_id
  let ret := (ret * 2) % size_t_mod
  hash_loop h ret key.primary_key.v_

/-! ## `cell_locator_t` (dtxn.h) -/

/-- Modelled from the spec: `mdb::MultiBlob` (defined outside these sources), a
sequence of blobs, each a "byte slice ... hashed by content"; two of them are equal
when they hold the same bytes. -/
abbrev MultiBlob := List (List Nat)

/-- The struct `cell_locator_t`; `tbl_name` is a `char*`, an address. -/
structure cell_locator_t where
  tbl_name : Nat
  primary_key : MultiBlob
  col_id : Int
  deriving DecidableEq, Repr

/-- The call `strcmp(p, q)`; `cstr` gives the C string stored at an address. -/
def strcmp (cstr : Nat → List Nat) (p q : Nat) : Int := str_compare (cstr p) (cstr q)

/-- `cell_locator_t::operator==(rhs)`. -/
def cell_locator_t.eq (cstr : Nat → List Nat) (c rhs : cell_locator_t) : Bool :=
  (decide (c.tbl_name = rhs.tbl_name) || decide (0 = strcmp cstr c.tbl_name rhs.tbl_name)) &&
    decide (c.primary_key = rhs.primary_key) && decide (c.col_id = rhs.col_id)

/-- The hash functions that `cell_locator_t_hash` calls: `std::hash<char *>`, which
hashes the value of the pointer, `mdb::MultiBlob::hash` and `std::hash<int>`. -/
structure PtrHash where
  hash_char_ptr : Nat → Nat
  hash_multi_blob : MultiBlob → Nat
  hash_int : Int → Nat

/-- `cell_locator_t_hash::operator()(k)`. -/
def cell_locator_t_hash (h : PtrHash) (k : cell_locator_t) : Nat :=
  let ret := 0
  let ret := ret ^^^ h.hash_char_ptr k.tbl_name
  let ret := ret ^^^ h.hash_multi_blob k.primary_key
  let ret := ret ^^^ h.hash_int k.col_id
  ret

/-! ## Example rows -/

namespace Examples

/-- A schema with a single string column. -/
def strSchema : Schema := ⟨[⟨"s", Kind.STR, 0, 0⟩], 0, 1⟩

/-- A sparse row of `strSchema` holding the string `"a"`. -/
def sparseA : Row := ⟨[], VarPart.sparse [[97]], none, false, strSchema⟩

/-- A sparse row of `strSchema` holding the string `"b"`. -/
def sparseB : Row := ⟨[], VarPart.sparse [[98]], none, false, strSchema⟩

/-- A dense row of `strSchema` holding the string `"ab"`. -/
def denseAB : Row := ⟨[], VarPart.dense [97, 98] [2], none, false, strSchema⟩

/-- A schema with three string columns and no fixed-width column. -/
def str3Schema : Schema :=
  ⟨[⟨"s", Kind.STR, 0, 0⟩, ⟨"t", Kind.STR, 0, 1⟩, ⟨"u", Kind.STR, 0, 2⟩], 0, 3⟩

/-- A dense row of `str3Schema` holding `""`, `"a"`, `""`. -/
def denseMid : Row := ⟨[], VarPart.dense [97] [0, 1, 1], none, false, str3Schema⟩

/-- A dense row of `str3Schema` holding `""`, `""`, `"a"`. -/
def denseLast : Row := ⟨[], VarPart.dense [97] [0, 0, 1], none, false, str3Schema⟩

/-- A schema with two string columns and no fixed-width column. -/
def str2Schema : Schema := ⟨[⟨"s", Kind.STR, 0, 0⟩, ⟨"t", Kind.STR, 0, 1⟩], 0, 2⟩

/-- A dense row of `str2Schema` holding `"a"` and `"b"`: the segments stop at 1 and 2. -/
def denseA_B : Row := ⟨[], VarPart.dense [97, 98] [1, 2], none, false, str2Schema⟩

/-- A number for each kind, in the order `I32 < I64 < DOUBLE < STR`. -/
def kindTag : Value → Nat
  | Value.I32 _ => 1
  | Value.I64 _ => 2
  | Value.DOUBLE _ => 3
  | Value.STR _ => 4
  | Value.UNKNOWN => 0

/-- A coarse `Value` equality: two values are equal when they have the same kind. -/
def kindEq (x y : Value) : Bool := decide (kindTag x = kindTag y)

/-- A three-way comparison of `MultiValue`s for `kindEq`: lexicographic on the kinds
of the elements. -/
def kindCompare (a b : MultiValue) : Int :=
  str_compare (a.v_.map kindTag) (b.v_.map kindTag)

/-- A handler that writes 7 to `*res`, the first input value to `output[0]`, and 1 to
`*output_size`. -/
def echoHandler : TxnHandler := fun call =>
  ⟨7, (call.input.take 1) ++ call.output.drop 1, 1⟩

/-- A registry holding `echoHandler` under the key `(1, 2)`, and no calls made. -/
def echoState : ExecState := ⟨[((1, 2), ⟨echoHandler, defer_t.DF_NO⟩)], []⟩

/-- A schema with a single `I32` column. -/
def i32Schema : Schema := ⟨[⟨"n", Kind.I32, 0, 0⟩], 4, 0⟩

/-- A dense row of `i32Schema` holding `0`. -/
def zeroRow : Row := ⟨[0, 0, 0, 0], VarPart.dense [] [], none, false, i32Schema⟩

/-- A fresh `VersionedRow` over `zeroRow`; the lock has a single state. -/
def zeroVersioned : VersionedRow Unit := { toRow := zeroRow, lock_ := (), ver_ := [0] }

/-- A stand-in for `Row::create` that fills every raw row like `zeroRow`. -/
def zeroCreate : Schema → List Value → Option Row := fun _ _ => some zeroRow

/-- Stand-ins for the members defined outside these sources: every column reads as
the `I32` value 0, the current version is 0, and garbage collection removes nothing. -/
def mvExtern : MVExtern :=
  { get_column := fun _ _ => some (Value.I32 0)
    getCurrentVersion := fun _ _ => 0
    garbageCollection := fun _ _ hist seg => (hist, seg) }

/-- A fresh `MultiVersionedRow` over `zeroRow`, with the counter `ver_s` at 0. -/
def mvWorld0 : MVWorld := ⟨0, { toRow := zeroRow, old_values_ := [], time_segment := [] }⟩

/-- Scenario S3: the current value of every column is `"z"` at version 9. -/
def s3Extern : MVExtern :=
  { get_column := fun _ _ => some (Value.STR [122])
    getCurrentVersion := fun _ _ => 9
    garbageCollection := fun _ _ hist seg => (hist, seg) }

/-- Scenario S3: column 0 has the history `{3 -> "x", 7 -> "y"}`. -/
def s3Row : MultiVersionedRow :=
  { toRow := denseAB, old_values_ := [(0, [(3, Value.STR [120]), (7, Value.STR [121])])],
    time_segment := [] }

/-- A memory in which the addresses 100 and 200 both hold the C string `"t"`. -/
def tMemory : Nat → List Nat := fun p => if p = 100 ∨ p = 200 then [116] else []

/-- The pointer hash of the usual standard libraries, the address itself; the blob
hash and the `int` hash are stand-ins. -/
def addrHash : PtrHash := ⟨id, List.length, Int.toNat⟩

/-- A versioned row over `zeroRow` whose column 0 is at version 3. -/
def versioned3 : VersionedRow Unit := { toRow := zeroRow, lock_ := (), ver_ := [3] }

/-- A stand-in for `Row::copy_into` that copies every member of the source. -/
def copyAll : Row → Row → Row := fun src _ => src

end Examples

/-! # Theorems -/

/-! ## Lemmas on `std::map` -/

namespace StdMap

variable {κ ν : Type} [DecidableEq κ]

theorem find_assign_self (m : StdMap κ ν) (k : κ) (v : ν) :
    find (assign m k v) k = some v := by
  induction m with
  | nil => simp [assign, find]
  | cons e rest ih =>
    obtain ⟨k', v'⟩ := e
    by_cases h : k' = k <;> simp [assign, find, h, ih]

theorem find_assign_ne (m : StdMap κ ν) (k k' : κ) (v : ν) (h : k' ≠ k) :
    find (assign m k v) k' = find m k' := by
  induction m with
  | nil => simp [assign, find, Ne.symm h]
  | cons e rest ih =>
    obtain ⟨k0, v0⟩ := e
    by_cases h0 : k0 = k
    · subst h0
      simp [assign, find, Ne.symm h]
    · simp [assign, find, h0, ih]

theorem find_erase_self (m : StdMap κ ν) (k : κ) : find (erase m k) k = none := by
  induction m with
  | nil => simp [erase, find]
  | cons e rest ih =>
    obtain ⟨k0, v0⟩ := e
    by_cases h0 : k0 = k
    · simpa [erase, List.filter_cons, h0] using ih
    · simpa [erase, List.filter_cons, h0, find] using ih

theorem find_erase_ne (m : StdMap κ ν) (k k' : κ) (h : k' ≠ k) :
    find (erase m k) k' = find m k' := by
  induction m with
  | nil => simp [erase, find]
  | cons e rest ih =>
    obtain ⟨k0, v0⟩ := e
    by_cases h0 : k0 = k
    · subst h0
      simpa [erase, List.filter_cons, find, Ne.symm h] using ih
    · by_cases h1 : k0 = k'
      · subst h1
        simp [erase, List.filter_cons, h0, find]
      · simpa [erase, List.filter_cons, h0, find, h1] using ih

theorem find_eq_none_iff (m : StdMap κ ν) (k : κ) : find m k = none ↔ k ∉ keys m := by
  induction m with
  | nil => simp [find, keys]
  | cons e rest ih =>
    obtain ⟨k0, v0⟩ := e
    by_cases h0 : k0 = k
    · simp [find, keys, h0]
    · have h1 : ¬ k = k0 := fun h => h0 h.symm
      simpa [find, keys, h0, h1] using ih

theorem keys_assign (m : StdMap κ ν) (k : κ) (v : ν) :
    keys (assign m k v) = if k ∈ keys m then keys m else keys m ++ [k] := by
  induction m with
  | nil => simp [assign, keys]
  | cons e rest ih =>
    obtain ⟨k0, v0⟩ := e
    by_cases h0 : k0 = k
    · simp [assign, keys, h0]
    · have h1 : ¬ k = k0 := fun h => h0 h.symm
      have ih' := ih
      simp only [keys] at ih'
      by_cases hm : k ∈ List.map Prod.fst rest
      · simp [assign, keys, h0, h1, hm, ih']
      · simp [assign, keys, h0, h1, hm, ih']

theorem keys_erase (m : StdMap κ ν) (k : κ) :
    keys (erase m k) = (keys m).filter (fun x => decide (x ≠ k)) := by
  unfold erase keys
  rw [List.filter_map]
  rfl

theorem WF_assign (m : StdMap κ ν) (k : κ) (v : ν) (h : WF m) : WF (assign m k v) := by
  unfold WF at *
  rw [keys_assign]
  by_cases hm : k ∈ keys m
  · simpa [hm] using h
  · simp only [hm, if_false]
    rw [List.nodup_append]
    refine ⟨h, List.nodup_singleton k, ?_⟩
    intro a ha hb
    simp only [List.mem_singleton] at hb
    exact hm (hb ▸ ha)

theorem WF_erase (m : StdMap κ ν) (k : κ) (h : WF m) : WF (erase m k) := by
  unfold WF at *
  rw [keys_erase]
  exact h.filter _

theorem entriesAt_of_find (m : StdMap κ ν) (k : κ) (v : ν) (h : WF m)
    (hf : find m k = some v) : entriesAt m k = 1 := by
  unfold entriesAt
  apply List.count_eq_one_of_mem h
  by_contra hk
  rw [← find_eq_none_iff] at hk
  rw [hk] at hf
  cases hf

theorem entriesAt_erase (m : StdMap κ ν) (k : κ) : entriesAt (erase m k) k = 0 := by
  unfold entriesAt
  rw [List.count_eq_zero, ← find_eq_none_iff]
  exact find_erase_self m k

end StdMap

/-! ## `TxnRegistry` -/

namespace TxnRegistry

variable {H : Type}

theorem reg_ok_iff (m m1 : TxnRegistry H) (t p : Int) (d : defer_t) (h : H) :
    reg m t p d h = Res.ok () m1 ↔
      StdMap.find m (t, p) = none ∧ m1 = StdMap.assign m (t, p) ⟨h, d⟩ := by
  cases hf : StdMap.find m (t, p) with
  | none => simp [reg, hf, eq_comm]
  | some x => simp [reg, hf]

theorem find_regAll (calls : List (RegCall H)) (m0 m : TxnRegistry H)
    (hrun : regAll m0 calls = some m) (k : Int × Int) (pr : txn_handler_defer_pair_t H) :
    StdMap.find m k = some pr ↔
      (StdMap.find m0 k = some pr ∨
        ∃ c ∈ calls, (c.t_type, c.p_type) = k ∧ pr = ⟨c.txn_handler, c.defer⟩) := by
  induction calls generalizing m0 with
  | nil =>
    simp only [regAll, Option.some.injEq] at hrun
    subst hrun
    simp
  | cons c cs ih =>
    simp only [regAll] at hrun
    cases hr : reg m0 c.t_type c.p_type c.defer c.txn_handler with
    | fatal st => rw [hr] at hrun; cases hrun
    | ok u m1 =>
      rw [hr] at hrun
      obtain ⟨hnone, hm1⟩ := (reg_ok_iff m0 m1 _ _ _ _).1 hr
      rw [ih m1 hrun]
      by_cases hk : k = (c.t_type, c.p_type)
      · subst hk
        rw [hm1, StdMap.find_assign_self, hnone]
        constructor
        · rintro (h1 | ⟨c', hc', hkey, hpr⟩)
          · right
            refine ⟨c, List.mem_cons_self _ _, rfl, ?_⟩
            simpa using h1.symm
          · exact Or.inr ⟨c', List.mem_cons_of_mem _ hc', hkey, hpr⟩
        · rintro (h1 | ⟨c', hc', hkey, hpr⟩)
          · cases h1
          · rcases List.mem_cons.1 hc' with h2 | h2
            · subst h2
              left
              rw [hpr]
            · exact Or.inr ⟨c', h2, hkey, hpr⟩
      · rw [hm1, StdMap.find_assign_ne _ _ _ _ hk]
        constructor
        · rintro (h1 | ⟨c', hc', hkey, hpr⟩)
          · exact Or.inl h1
          · exact Or.inr ⟨c', List.mem_cons_of_mem _ hc', hkey, hpr⟩
        · rintro (h1 | ⟨c', hc', hkey, hpr⟩)
          · exact Or.inl h1
          · rcases List.mem_cons.1 hc' with h2 | h2
            · subst h2
              exact absurd hkey.symm hk
            · exact Or.inr ⟨c', h2, hkey, hpr⟩

theorem get_ok_iff (m : TxnRegistry H) (t p : Int) (pr : txn_handler_defer_pair_t H) :
    get m t p = Res.ok pr m ↔ StdMap.find m (t, p) = some pr := by
  unfold get
  cases hf : StdMap.find m (t, p) with
  | none => simp
  | some x => simp

theorem get_state (m : TxnRegistry H) (t p : Int) : (get m t p).state = m := by
  unfold get
  cases hf : StdMap.find m (t, p) <;> rfl

theorem get_val (m : TxnRegistry H) (t p : Int) :
    (get m t p).val? = StdMap.find m (t, p) := by
  unfold get
  cases hf : StdMap.find m (t, p) <;> rfl

/-- C2: in a registry built from the empty one by `reg` calls that all returned,
`get(t_type, p_type)` returns the pair `pr` exactly when one of those calls registered
that key with that handler and defer policy, and it returns at all exactly when the key
was registered; `get` leaves the registry as it was; and a `reg` that returned leaves
the result of `get` for every other key as it was. -/
theorem get_returns_registered (calls : List (RegCall H)) (all_ : TxnRegistry H)
    (hrun : regAll [] calls = some all_) :
    (∀ t p pr, get all_ t p = Res.ok pr all_ ↔
        ∃ c ∈ calls, c.t_type = t ∧ c.p_type = p ∧ pr = ⟨c.txn_handler, c.defer⟩) ∧
    (∀ t p, (get all_ t p).isOk = true ↔ ∃ c ∈ calls, c.t_type = t ∧ c.p_type = p) ∧
    (∀ (m : TxnRegistry H) t p, (get m t p).state = m) ∧
    (∀ (m m1 : TxnRegistry H) t p d h t' p', reg m t p d h = Res.ok () m1 →
        (t', p') ≠ (t, p) → (get m1 t' p').val? = (get m t' p').val?) := by
  have key : ∀ t p pr, StdMap.find all_ (t, p) = some pr ↔
      ∃ c ∈ calls, c.t_type = t ∧ c.p_type = p ∧ pr = ⟨c.txn_handler, c.defer⟩ := by
    intro t p pr
    rw [find_regAll calls [] all_ hrun (t, p) pr]
    simp [StdMap.find, and_assoc]
  refine ⟨?_, ?_, get_state, ?_⟩
  · intro t p pr
    rw [get_ok_iff]
    exact key t p pr
  · intro t p
    constructor
    · intro h
      cases hf : StdMap.find all_ (t, p) with
      | none => simp [get, hf, Res.isOk] at h
      | some pr =>
        obtain ⟨c, hc, h1, h2, _⟩ := (key t p pr).1 hf
        exact ⟨c, hc, h1, h2⟩
    · rintro ⟨c, hc, h1, h2⟩
      have := (key t p ⟨c.txn_handler, c.defer⟩).2 ⟨c, hc, h1, h2, rfl⟩
      simp [get, this, Res.isOk]
  · intro m m1 t p d h t' p' hreg hne
    obtain ⟨_, hm1⟩ := (reg_ok_iff m m1 t p d h).1 hreg
    rw [get_val, get_val, hm1, StdMap.find_assign_ne _ _ _ _ hne]

/-- The registry after `reg(1, 2, DF_NO, 7)` then `reg(1, 3, DF_REAL, 9)` from empty. -/
theorem get_returns_registered_witness :
    regAll ([] : TxnRegistry Nat) [⟨1, 2, defer_t.DF_NO, 7⟩, ⟨1, 3, defer_t.DF_REAL, 9⟩]
        = some [((1, 2), ⟨7, defer_t.DF_NO⟩), ((1, 3), ⟨9, defer_t.DF_REAL⟩)] ∧
    (get ([((1, 2), ⟨7, defer_t.DF_NO⟩), ((1, 3), ⟨9, defer_t.DF_REAL⟩)] : TxnRegistry Nat) 1 3).isOk
        = true :=
  ⟨by decide,
   ((get_returns_registered [⟨1, 2, defer_t.DF_NO, 7⟩, ⟨1, 3, defer_t.DF_REAL, 9⟩] _
      (by decide)).2.1 1 3).2 ⟨⟨1, 3, defer_t.DF_REAL, 9⟩, by simp, rfl, rfl⟩⟩

theorem find_reg_state (m : TxnRegistry H) (k : Int × Int) (v : txn_handler_defer_pair_t H)
    (hk : StdMap.find m k = some v) (t p : Int) (d : defer_t) (h : H) :
    StdMap.find (reg m t p d h).state k = some v := by
  cases hf : StdMap.find m (t, p) with
  | some x => simpa [reg, hf, Res.state] using hk
  | none =>
    have hne : k ≠ (t, p) := by
      intro heq
      rw [heq, hf] at hk
      cases hk
    simpa [reg, hf, Res.state, StdMap.find_assign_ne _ _ _ _ hne] using hk

/-- C3: when the key `(t_type, p_type)` is registered, `reg` with that key is fatal
for every handler and defer policy and aborts with the registry as it was, the stored
pair included; and neither `reg` nor `get`, whatever their arguments and whether they
return or abort, removes or changes an entry that the registry holds. -/
theorem reg_duplicate_fatal (all_ : TxnRegistry H) (t_type p_type : Int)
    (old : txn_handler_defer_pair_t H)
    (hreg : StdMap.find all_ (t_type, p_type) = some old) :
    (∀ d h, reg all_ t_type p_type d h = Res.fatal all_) ∧
    (∀ d h, StdMap.find (reg all_ t_type p_type d h).state (t_type, p_type) = some old) ∧
    (∀ (m : TxnRegistry H) k v, StdMap.find m k = some v →
        (∀ t p d h, StdMap.find (reg m t p d h).state k = some v) ∧
        (∀ t p, StdMap.find (get m t p).state k = some v)) := by
  have h1 : ∀ d h, reg all_ t_type p_type d h = Res.fatal all_ := by
    intro d h
    simp [reg, hreg]
  refine ⟨h1, ?_, ?_⟩
  · intro d h
    rw [h1]
    exact hreg
  · intro m k v hk
    refine ⟨fun t p d h => find_reg_state m k v hk t p d h, fun t p => ?_⟩
    rw [get_state]
    exact hk

/-- A second registration of key `(1, 2)` aborts and keeps the handler `7`. -/
theorem reg_duplicate_fatal_witness :
    reg ([((1, 2), ⟨7, defer_t.DF_NO⟩)] : TxnRegistry Nat) 1 2 defer_t.DF_REAL 8
      = Res.fatal [((1, 2), ⟨7, defer_t.DF_NO⟩)] :=
  (reg_duplicate_fatal ([((1, 2), ⟨7, defer_t.DF_NO⟩)] : TxnRegistry Nat) 1 2
    ⟨7, defer_t.DF_NO⟩ (by decide)).1 defer_t.DF_REAL 8

end TxnRegistry

/-! ## `DTxnMgr` -/

namespace Heap

theorem deref_alloc_new (h : Heap) (d : DTxn) :
    deref (alloc h d).2 (alloc h d).1 = some d := by
  simp [deref, alloc]

theorem deref_alloc_old (h : Heap) (d : DTxn) (a : Nat) (ha : a < h.length) :
    deref (alloc h d).2 a = deref h a := by
  simp [deref, alloc, List.getElem?_append_left ha]

theorem deref_fresh (h : Heap) (d : DTxn) : deref h (alloc h d).1 = none := by
  simp [deref, alloc]

theorem deref_free (h : Heap) (a : Nat) : deref (free h (some a)) a = none := by
  simp only [deref, free, List.get?_eq_getElem?, List.getElem?_set_self']
  cases h[a]? <;> rfl

end Heap

namespace DTxnMgr

theorem create_rcc (R T : Int) (m : DTxnMgr) (tid : Int)
    (habs : StdMap.find m.dtxns_ tid = none) (hmode : m.running_mode_s = R) :
    create R T m tid = Res.ok (some m.heap.length) (created m tid DTxnClass.RCCDTxn) := by
  simp [create, hmode, StdMap.subscript, habs, Heap.alloc, created]

theorem create_rot (R T : Int) (hRT : R ≠ T) (m : DTxnMgr) (tid : Int)
    (habs : StdMap.find m.dtxns_ tid = none) (hmode : m.running_mode_s = T) :
    create R T m tid = Res.ok (some m.heap.length) (created m tid DTxnClass.RO6DTxn) := by
  have hne : ¬ T = R := fun h => hRT h.symm
  simp [create, hmode, hne, StdMap.subscript, habs, Heap.alloc, created]

theorem create_other (R T : Int) (m : DTxnMgr) (tid : Int)
    (h1 : m.running_mode_s ≠ R) (h2 : m.running_mode_s ≠ T) :
    create R T m tid = Res.fatal m := by
  simp [create, h1, h2]

theorem get_or_create_absent (R T : Int) (m : DTxnMgr) (tid : Int)
    (habs : StdMap.find m.dtxns_ tid = none) :
    get_or_create R T m tid = create R T m tid := by
  simp [get_or_create, habs]

theorem get_or_create_present (R T : Int) (m : DTxnMgr) (tid : Int) (p : DTxnPtr)
    (hp : StdMap.find m.dtxns_ tid = some p) :
    get_or_create R T m tid = Res.ok p m := by
  simp [get_or_create, hp]

theorem find_created_self (m : DTxnMgr) (tid : Int) (cls : DTxnClass) :
    StdMap.find (created m tid cls).dtxns_ tid = some (some m.heap.length) := by
  simp [created, StdMap.find_assign_self]

theorem find_created_ne (m : DTxnMgr) (tid k : Int) (cls : DTxnClass) (hk : k ≠ tid) :
    StdMap.find (created m tid cls).dtxns_ k = StdMap.find m.dtxns_ k := by
  simp [created, StdMap.find_assign_ne _ _ _ _ hk]

theorem deref_created (m : DTxnMgr) (tid : Int) (cls : DTxnClass) :
    Heap.deref (created m tid cls).heap m.heap.length = some ⟨tid, m.this, cls⟩ := by
  simp [created, Heap.deref]

theorem create_absent_cases (R T : Int) (m : DTxnMgr) (tid : Int)
    (habs : StdMap.find m.dtxns_ tid = none) :
    create R T m tid = Res.fatal m ∨
      ∃ cls, create R T m tid = Res.ok (some m.heap.length) (created m tid cls) := by
  by_cases h1 : m.running_mode_s = R
  · exact Or.inr ⟨_, create_rcc R T m tid habs h1⟩
  · by_cases h2 : m.running_mode_s = T
    · right
      refine ⟨DTxnClass.RO6DTxn, ?_⟩
      have hne : ¬ T = R := fun h => h1 (h2.trans h)
      simp [create, h2, hne, StdMap.subscript, habs, Heap.alloc, created]
    · exact Or.inl (create_other R T m tid h1 h2)

/-- C4: for a `tid` with no entry in `dtxns_`, `get_or_create(tid)` under `MODE_RCC`
constructs an `RCCDTxn` and under `MODE_ROT` an `RO6DTxn`: it returns a non-null pointer
to an object that did not exist before, whose `tid_` is `tid` and whose `mgr_` is the
manager, `dtxns_` maps `tid` to that pointer, and a following `get(tid)` returns the
same pointer; under every other running mode the call is fatal. -/
theorem get_or_create_creates (MODE_RCC MODE_ROT : Int) (hmodes : MODE_RCC ≠ MODE_ROT)
    (m : DTxnMgr) (tid : Int) (habs : StdMap.find m.dtxns_ tid = none) :
    (∀ cls, (m.running_mode_s = MODE_RCC ∧ cls = DTxnClass.RCCDTxn) ∨
            (m.running_mode_s = MODE_ROT ∧ cls = DTxnClass.RO6DTxn) →
      ∃ a m1, get_or_create MODE_RCC MODE_ROT m tid = Res.ok (some a) m1 ∧
        Heap.deref m.heap a = none ∧
        Heap.deref m1.heap a = some ⟨tid, m.this, cls⟩ ∧
        StdMap.find m1.dtxns_ tid = some (some a) ∧
        get m1 tid = Res.ok (some a) m1) ∧
    (m.running_mode_s ≠ MODE_RCC → m.running_mode_s ≠ MODE_ROT →
      get_or_create MODE_RCC MODE_ROT m tid = Res.fatal m) := by
  constructor
  · intro cls hcls
    refine ⟨m.heap.length, created m tid cls, ?_, ?_, deref_created m tid cls,
      find_created_self m tid cls, ?_⟩
    · rw [get_or_create_absent _ _ _ _ habs]
      rcases hcls with ⟨hm, hc⟩ | ⟨hm, hc⟩
      · rw [hc]
        exact create_rcc _ _ m tid habs hm
      · rw [hc]
        exact create_rot _ _ hmodes m tid habs hm
    · simp [Heap.deref]
    · simp [get, find_created_self]
  · intro h1 h2
    rw [get_or_create_absent _ _ _ _ habs]
    exact create_other _ _ m tid h1 h2

/-- An empty manager at address 100 in mode 4 (taken as `MODE_RCC`; 8 as `MODE_ROT`). -/
theorem get_or_create_creates_witness :
    (4 : Int) ≠ 8 ∧ StdMap.find ([] : StdMap Int DTxnPtr) 7 = none ∧
    ∃ a m1, get_or_create 4 8 ⟨4, [], 100, []⟩ 7 = Res.ok (some a) m1 ∧
      Heap.deref [] a = none ∧
      Heap.deref m1.heap a = some ⟨7, 100, DTxnClass.RCCDTxn⟩ ∧
      StdMap.find m1.dtxns_ 7 = some (some a) ∧
      get m1 7 = Res.ok (some a) m1 :=
  ⟨by decide, by decide,
   (get_or_create_creates 4 8 (by decide) ⟨4, [], 100, []⟩ 7 (by decide)).1
      DTxnClass.RCCDTxn (Or.inl ⟨rfl, rfl⟩)⟩

theorem WF_created (m : DTxnMgr) (tid : Int) (cls : DTxnClass) (h : StdMap.WF m.dtxns_) :
    StdMap.WF (created m tid cls).dtxns_ := by
  simp only [created]
  exact StdMap.WF_assign _ _ _ (StdMap.WF_assign _ _ _ h)

/-- C5: when `get_or_create(tid)` has returned `p`, a second `get_or_create(tid)`
returns `p` again and leaves the manager, `dtxns_` included, as the first call left it,
whatever the running mode is by then; after the first call `dtxns_` holds exactly one
entry for `tid` and the entries of all other keys are those from before it; and when
`tid` has an entry the call returns the stored pointer and changes nothing under every
running mode and every value of the mode constants. -/
theorem get_or_create_idempotent (MODE_RCC MODE_ROT : Int) (m : DTxnMgr) (tid : Int) :
    (∀ p m1, get_or_create MODE_RCC MODE_ROT m tid = Res.ok p m1 →
      get_or_create MODE_RCC MODE_ROT m1 tid = Res.ok p m1 ∧
      (∀ mode, get_or_create MODE_RCC MODE_ROT { m1 with running_mode_s := mode } tid
          = Res.ok p { m1 with running_mode_s := mode }) ∧
      (StdMap.WF m.dtxns_ → StdMap.WF m1.dtxns_ ∧ StdMap.entriesAt m1.dtxns_ tid = 1) ∧
      (∀ k, k ≠ tid → StdMap.find m1.dtxns_ k = StdMap.find m.dtxns_ k)) ∧
    (∀ p, StdMap.find m.dtxns_ tid = some p → ∀ mode R T,
      get_or_create R T { m with running_mode_s := mode } tid
        = Res.ok p { m with running_mode_s := mode }) := by
  constructor
  · intro p m1 h1
    have hfind : StdMap.find m1.dtxns_ tid = some p ∧
        (StdMap.WF m.dtxns_ → StdMap.WF m1.dtxns_) ∧
        (∀ k, k ≠ tid → StdMap.find m1.dtxns_ k = StdMap.find m.dtxns_ k) := by
      cases hf : StdMap.find m.dtxns_ tid with
      | some q =>
        rw [get_or_create_present _ _ _ _ q hf] at h1
        cases h1
        exact ⟨hf, id, fun _ _ => rfl⟩
      | none =>
        rw [get_or_create_absent _ _ _ _ hf] at h1
        rcases create_absent_cases MODE_RCC MODE_ROT m tid hf with hc | ⟨cls, hc⟩
        · rw [hc] at h1
          cases h1
        · rw [hc] at h1
          cases h1
          exact ⟨find_created_self m tid cls, WF_created m tid cls,
            fun k hk => find_created_ne m tid k cls hk⟩
    obtain ⟨hp, hwf, hframe⟩ := hfind
    refine ⟨get_or_create_present _ _ _ _ p hp, ?_, ?_, hframe⟩
    · intro mode
      exact get_or_create_present _ _ _ _ p hp
    · intro h
      exact ⟨hwf h, StdMap.entriesAt_of_find _ _ _ (hwf h) hp⟩
  · intro p hp mode R T
    exact get_or_create_present _ _ _ _ p hp

/-- Transaction 7 already has the object at address 0; the mode is not consulted. -/
theorem get_or_create_idempotent_witness :
    get_or_create 4 8 ⟨1, [some ⟨7, 100, DTxnClass.RCCDTxn⟩], 100, [(7, some 0)]⟩ 7
      = Res.ok (some 0) ⟨1, [some ⟨7, 100, DTxnClass.RCCDTxn⟩], 100, [(7, some 0)]⟩ :=
  (get_or_create_idempotent 4 8 ⟨1, [some ⟨7, 100, DTxnClass.RCCDTxn⟩], 100, [(7, some 0)]⟩
    7).1 (some 0) _ (by decide) |>.1

theorem destroy_present (m : DTxnMgr) (tid : Int) (p : DTxnPtr)
    (hp : StdMap.find m.dtxns_ tid = some p) :
    destroy m tid = Res.ok ()
      { m with heap := Heap.free m.heap p, dtxns_ := StdMap.erase m.dtxns_ tid } := by
  simp [destroy, hp]

/-- C6: for a `tid` that has an entry `p` in `dtxns_`, `destroy(tid)` returns, deletes
the object `p` points to, leaves no entry for `tid` and every other entry as it was;
afterwards `get(tid)` is fatal and `get_or_create(tid)` goes through `create(tid)`,
which under `MODE_RCC` or `MODE_ROT` constructs a new object of that mode's class with
`tid_ == tid` and stores it under `tid`. For a `tid` without entry both `destroy(tid)`
and `get(tid)` are fatal and leave the manager as it was. -/
theorem destroy_removes_entry (MODE_RCC MODE_ROT : Int) (hmodes : MODE_RCC ≠ MODE_ROT)
    (m : DTxnMgr) (tid : Int) (p : DTxnPtr) (hp : StdMap.find m.dtxns_ tid = some p) :
    (∃ m1, destroy m tid = Res.ok () m1 ∧
      StdMap.find m1.dtxns_ tid = none ∧
      StdMap.entriesAt m1.dtxns_ tid = 0 ∧
      (∀ k, k ≠ tid → StdMap.find m1.dtxns_ k = StdMap.find m.dtxns_ k) ∧
      (∀ a, p = some a → Heap.deref m1.heap a = none) ∧
      get m1 tid = Res.fatal m1 ∧
      get_or_create MODE_RCC MODE_ROT m1 tid = create MODE_RCC MODE_ROT m1 tid ∧
      (∀ cls, (m.running_mode_s = MODE_RCC ∧ cls = DTxnClass.RCCDTxn) ∨
              (m.running_mode_s = MODE_ROT ∧ cls = DTxnClass.RO6DTxn) →
        ∃ a m2, get_or_create MODE_RCC MODE_ROT m1 tid = Res.ok (some a) m2 ∧
          Heap.deref m1.heap a = none ∧
          Heap.deref m2.heap a = some ⟨tid, m.this, cls⟩ ∧
          StdMap.find m2.dtxns_ tid = some (some a))) ∧
    (∀ (m0 : DTxnMgr) (t0 : Int), StdMap.find m0.dtxns_ t0 = none →
      destroy m0 t0 = Res.fatal m0 ∧ get m0 t0 = Res.fatal m0) := by
  constructor
  · refine ⟨_, destroy_present m tid p hp, StdMap.find_erase_self _ _,
      StdMap.entriesAt_erase _ _, fun k hk => StdMap.find_erase_ne _ _ _ hk, ?_, ?_, ?_, ?_⟩
    · intro a ha
      subst ha
      exact Heap.deref_free _ _
    · simp [get, StdMap.find_erase_self]
    · exact get_or_create_absent _ _ _ _ (StdMap.find_erase_self _ _)
    · intro cls hcls
      obtain ⟨a, m2, h1, h2, h3, h4, _⟩ :=
        (get_or_create_creates MODE_RCC MODE_ROT hmodes
          { m with heap := Heap.free m.heap p, dtxns_ := StdMap.erase m.dtxns_ tid } tid
          (StdMap.find_erase_self _ _)).1 cls hcls
      exact ⟨a, m2, h1, h2, h3, h4⟩
  · intro m0 t0 h0
    simp [destroy, get, h0]

/-- Destroying transaction 7, the only entry, empties the map. -/
theorem destroy_removes_entry_witness :
    (4 : Int) ≠ 8 ∧
    ∃ m1, destroy ⟨4, [some ⟨7, 100, DTxnClass.RCCDTxn⟩], 100, [(7, some 0)]⟩ 7
        = Res.ok () m1 ∧ StdMap.find m1.dtxns_ 7 = none :=
  ⟨by decide,
   let ⟨m1, h1, h2, _⟩ :=
      (destroy_removes_entry 4 8 (by decide)
        ⟨4, [some ⟨7, 100, DTxnClass.RCCDTxn⟩], 100, [(7, some 0)]⟩ 7 (some 0) (by decide)).1
   ⟨m1, h1, h2⟩⟩

end DTxnMgr

/-! ## `Row::to_string` -/

theorem resize_grow (str : List Nat) (k : Nat) :
    resize str (str.length + k) = str ++ List.replicate k 0 := by
  simp [resize]

theorem memcpy_step (P : List Nat) (K i n : Nat) (src : List Nat) (hi : i = P.length) :
    memcpy (P ++ List.replicate K 0) i src n = (P ++ src.take n) ++ List.replicate (K - n) 0 := by
  subst hi
  simp [memcpy, List.take_append_eq_append_take, List.drop_append_eq_append_drop]

theorem length_le_bytes (w x : Nat) : (le_bytes w x).length = w := by
  induction w generalizing x with
  | zero => rfl
  | succ w ih => simp [le_bytes, ih]

theorem take_le_bytes (w x : Nat) : List.take w (le_bytes w x) = le_bytes w x :=
  List.take_of_length_le (by simp [length_le_bytes])

theorem length_dense_var_idx_bytes (r : Row) :
    r.dense_var_idx_bytes.length = 4 * r.dense_var_idx_.length := by
  unfold Row.dense_var_idx_bytes
  induction r.dense_var_idx_ with
  | nil => rfl
  | cons a l ih => simp [List.flatten, length_le_bytes, ih]; omega

theorem to_int_cast (n : Nat) (h : n < 2 ^ 31) : to_int (n : Int) = (n : Int) := by
  unfold to_int
  omega

theorem to_int_cast_add (a b : Nat) (h : a + b < 2 ^ 31) :
    to_int ((a : Int) + (b : Int)) = ((a + b : Nat) : Int) := by
  unfold to_int
  omega

theorem to_int_cast_add_four (a : Nat) (h : a + 4 < 2 ^ 31) :
    to_int ((a : Int) + 4) = ((a + 4 : Nat) : Int) := by
  unfold to_int
  omega

theorem int_add_cast (a b : Nat) (h : a + b < 2 ^ 31) :
    int_add (a : Int) b = some ((a + b : Nat) : Int) := by
  unfold int_add
  rw [if_pos (by omega)]
  simp

theorem resize_int_cast (str : List Nat) (n : Nat) :
    resize_int str (n : Int) = some (resize str n) := by
  simp [resize_int]

theorem memcpy_int_cast (len i n : Nat) (dst src : List Nat) (h : i + n ≤ len) :
    memcpy_int (len : Int) dst (i : Int) src n = some (memcpy dst i src n) := by
  unfold memcpy_int
  rw [if_pos (by omega)]
  simp

theorem to_string_layout (r : Row) (str : List Nat) (hwf : r.WF)
    (hfit : str.length + r.appended < 2 ^ 31) :
    r.to_string str = Res.ok () (str ++ r.payload) := by
  obtain ⟨hfix, hvar⟩ := hwf
  unfold Row.appended at hfit
  unfold Row.to_string Row.payload
  by_cases hc : r.kind_ = DENSE ∧ r.schema_.var_size_cols_ > 0
  · have hidx : r.schema_.var_size_cols_ ≤ r.dense_var_idx_bytes.length := by
      rw [length_dense_var_idx_bytes]
      unfold Row.dense_var_idx_
      cases hv : r.var with
      | dense part idx => rw [hv] at hvar; simp only; omega
      | sparse sv => simp [Row.kind_, hv, DENSE, SPARSE] at hc
    have hpart : r.dense_var_idx_.getD (r.schema_.var_size_cols_ - 1) 0
        ≤ r.dense_var_part_.length := by
      unfold Row.dense_var_idx_ Row.dense_var_part_
      cases hv : r.var with
      | dense part idx => rw [hv] at hvar; simp only; omega
      | sparse sv => simp [Row.kind_, hv, DENSE, SPARSE] at hc
    rw [if_pos hc] at hfit
    simp only [hc, and_self, if_true]
    have b0 : str.length < 2 ^ 31 := by omega
    have b1 : str.length + (4 + r.schema_.fixed_part_size_ + 4) < 2 ^ 31 := by omega
    have b2 : str.length + (4 + r.schema_.fixed_part_size_ + 4) + r.schema_.var_size_cols_
        < 2 ^ 31 := by omega
    have b3 : str.length + (4 + r.schema_.fixed_part_size_ + 4) + r.schema_.var_size_cols_ +
        r.dense_var_idx_.getD (r.schema_.var_size_cols_ - 1) 0 < 2 ^ 31 := by omega
    have c1 : str.length + 4 < 2 ^ 31 := by omega
    have c2 : str.length + 4 + r.schema_.fixed_part_size_ < 2 ^ 31 := by omega
    have c3 : str.length + 4 + r.schema_.fixed_part_size_ + 4 < 2 ^ 31 := by omega
    have c4 : str.length + 4 + r.schema_.fixed_part_size_ + 4 + r.schema_.var_size_cols_
        < 2 ^ 31 := by omega
    have c5 : str.length + 4 + r.schema_.fixed_part_size_ + 4 + r.schema_.var_size_cols_ +
        r.dense_var_idx_.getD (r.schema_.var_size_cols_ - 1) 0 < 2 ^ 31 := by omega
    rw [to_int_cast str.length b0, to_int_cast_add _ _ b1, int_add_cast _ _ b2]
    rw [Option.some_bind]
    rw [int_add_cast _ _ b3]
    rw [Option.some_bind]
    rw [resize_int_cast]
    rw [Option.some_bind]
    rw [memcpy_int_cast _ _ _ _ _ (by omega)]
    rw [Option.some_bind]
    rw [to_int_cast_add_four _ c1, memcpy_int_cast _ _ _ _ _ (by omega)]
    rw [Option.some_bind]
    rw [int_add_cast _ _ c2]
    rw [Option.some_bind]
    rw [memcpy_int_cast _ _ _ _ _ (by omega)]
    rw [Option.some_bind]
    rw [to_int_cast_add_four _ c3, memcpy_int_cast _ _ _ _ _ (by omega)]
    rw [Option.some_bind]
    rw [int_add_cast _ _ c4]
    rw [Option.some_bind]
    rw [memcpy_int_cast _ _ _ _ _ (by omega)]
    rw [Option.some_bind]
    rw [int_add_cast _ _ c5]
    rw [Option.some_bind, Option.getD_some]
    have e1 : str.length + (4 + r.schema_.fixed_part_size_ + 4) + r.schema_.var_size_cols_ +
        r.dense_var_idx_.getD (r.schema_.var_size_cols_ - 1) 0 = str.length +
        (4 + r.schema_.fixed_part_size_ + 4 + r.schema_.var_size_cols_ +
          r.dense_var_idx_.getD (r.schema_.var_size_cols_ - 1) 0) := by omega
    rw [e1, resize_grow, memcpy_step _ _ _ _ _ rfl,
      memcpy_step _ _ _ _ _ (by simp [length_le_bytes]),
      memcpy_step _ _ _ _ _ (by simp [length_le_bytes, hfix]; omega),
      memcpy_step _ _ _ _ _ (by simp [length_le_bytes, hfix]; omega),
      memcpy_step _ _ _ _ _ (by simp [length_le_bytes, hfix, hidx]; omega)]
    have e2 : 4 + r.schema_.fixed_part_size_ + 4 + r.schema_.var_size_cols_ +
        r.dense_var_idx_.getD (r.schema_.var_size_cols_ - 1) 0 - 4 - r.schema_.fixed_part_size_
        - 4 - r.schema_.var_size_cols_ - r.dense_var_idx_.getD (r.schema_.var_size_cols_ - 1) 0
        = 0 := by omega
    rw [e2, if_pos (by omega)]
    simp [take_le_bytes]
  · rw [if_neg hc] at hfit
    simp only [hc, if_false]
    have b0 : str.length < 2 ^ 31 := by omega
    have b1 : str.length + (4 + r.schema_.fixed_part_size_ + 4) < 2 ^ 31 := by omega
    have c1 : str.length + 4 < 2 ^ 31 := by omega
    have c2 : str.length + 4 + r.schema_.fixed_part_size_ < 2 ^ 31 := by omega
    have c3 : str.length + 4 + r.schema_.fixed_part_size_ + 4 < 2 ^ 31 := by omega
    rw [to_int_cast str.length b0, to_int_cast_add _ _ b1, resize_int_cast]
    rw [Option.some_bind]
    rw [memcpy_int_cast _ _ _ _ _ (by omega)]
    rw [Option.some_bind]
    rw [to_int_cast_add_four _ c1, memcpy_int_cast _ _ _ _ _ (by omega)]
    rw [Option.some_bind]
    rw [int_add_cast _ _ c2]
    rw [Option.some_bind]
    rw [memcpy_int_cast _ _ _ _ _ (by omega)]
    rw [Option.some_bind]
    rw [to_int_cast_add_four _ c3]
    rw [Option.getD_some]
    rw [resize_grow, memcpy_step _ _ _ _ _ rfl,
      memcpy_step _ _ _ _ _ (by simp [length_le_bytes]),
      memcpy_step _ _ _ _ _ (by simp [length_le_bytes, hfix]; omega)]
    have e2 : 4 + r.schema_.fixed_part_size_ + 4 - 4 - r.schema_.fixed_part_size_ - 4 = 0 := by
      omega
    rw [e2, if_pos (by omega)]
    simp [take_le_bytes]

theorem int_add_some (a : Int) (b : Nat) (c : Int) (h : int_add a b = some c) :
    c = a + b ∧ (b : Int) < 2 ^ 31 ∧ -(2 : Int) ^ 31 ≤ a + b ∧ a + b < 2 ^ 31 := by
  unfold int_add at h
  split at h
  · rename_i hc
    exact ⟨(Option.some.inj h).symm, hc⟩
  · cases h

theorem memcpy_int_some (len : Int) (dst : List Nat) (i : Int) (src : List Nat) (n : Nat)
    (d : List Nat) (h : memcpy_int len dst i src n = some d) : 0 ≤ i ∧ i + n ≤ len := by
  unfold memcpy_int at h
  split at h
  · rename_i hc
    exact hc
  · cases h

theorem resize_int_some (str : List Nat) (len : Int) (d : List Nat)
    (h : resize_int str len = some d) : 0 ≤ len := by
  unfold resize_int at h
  split at h
  · rename_i hc
    exact hc
  · cases h

theorem bind_getD_isOk {α : Type} (o : Option α) (f : α → Option (Res (List Nat) Unit))
    (d : List Nat) (h : ((o.bind f).getD (Res.fatal d)).isOk = true) :
    ∃ a, o = some a ∧ ((f a).getD (Res.fatal d)).isOk = true := by
  cases o with
  | none => exact absurd h (by simp [Res.isOk])
  | some a => exact ⟨a, rfl, h⟩

/-- A call of `to_string` on the empty string that returns has counted a `len` that is
a value of `int`. -/
theorem to_string_nil_fits (r : Row) (h : (r.to_string []).isOk = true) :
    r.appended < 2 ^ 31 := by
  unfold Row.to_string at h
  unfold Row.appended
  by_cases hc : r.kind_ = DENSE ∧ r.schema_.var_size_cols_ > 0
  · rw [if_pos hc]
    simp only [hc, and_self, if_true] at h
    obtain ⟨l1, h1, h⟩ := bind_getD_isOk _ _ _ h
    obtain ⟨l2, h2, h⟩ := bind_getD_isOk _ _ _ h
    obtain ⟨b0, h3, h⟩ := bind_getD_isOk _ _ _ h
    obtain ⟨b1, h4, h⟩ := bind_getD_isOk _ _ _ h
    obtain ⟨b2, h5, h⟩ := bind_getD_isOk _ _ _ h
    obtain ⟨i2, h6, h⟩ := bind_getD_isOk _ _ _ h
    obtain ⟨b3, h7, h⟩ := bind_getD_isOk _ _ _ h
    obtain ⟨b4, h8, h⟩ := bind_getD_isOk _ _ _ h
    obtain ⟨i4, h9, h⟩ := bind_getD_isOk _ _ _ h
    obtain ⟨b5, h10, h⟩ := bind_getD_isOk _ _ _ h
    obtain ⟨i5, h11, h⟩ := bind_getD_isOk _ _ _ h
    have f1 := int_add_some _ _ _ h1
    have f2 := int_add_some _ _ _ h2
    have f6 := int_add_some _ _ _ h6
    have f7 := memcpy_int_some _ _ _ _ _ _ h7
    have f8 := memcpy_int_some _ _ _ _ _ _ h8
    unfold to_int at f1 f6 f8
    simp only [List.length_nil, Nat.cast_zero] at f1 f6 f8
    omega
  · rw [if_neg hc]
    simp only [hc, if_false] at h
    obtain ⟨b0, h3, h⟩ := bind_getD_isOk _ _ _ h
    obtain ⟨b1, h4, h⟩ := bind_getD_isOk _ _ _ h
    obtain ⟨b2, h5, h⟩ := bind_getD_isOk _ _ _ h
    obtain ⟨i2, h6, h⟩ := bind_getD_isOk _ _ _ h
    obtain ⟨b3, h7, h⟩ := bind_getD_isOk _ _ _ h
    have f3 := resize_int_some _ _ _ h3
    have f6 := int_add_some _ _ _ h6
    have f7 := memcpy_int_some _ _ _ _ _ _ h7
    unfold to_int at f3 f6 f7
    simp only [List.length_nil, Nat.cast_zero] at f3 f6 f7
    omega

open Examples

theorem kind_cases (r : Row) : r.kind_ = 0 ∨ r.kind_ = 1 := by
  obtain ⟨f, v, t, o, s⟩ := r
  cases v
  · exact Or.inl rfl
  · exact Or.inr rfl

theorem le_bytes_kind_inj (r1 r2 : Row) (h : le_bytes 4 r1.kind_ = le_bytes 4 r2.kind_) :
    r1.kind_ = r2.kind_ := by
  rcases kind_cases r1 with h1 | h1 <;> rcases kind_cases r2 with h2 | h2 <;>
    rw [h1, h2] at h <;> rw [h1, h2] <;> exact absurd h (by decide)

theorem payload_inj_parts (r1 r2 : Row) (hs : r1.schema_ = r2.schema_)
    (wf1 : r1.WF) (wf2 : r2.WF) (h : r1.payload = r2.payload) :
    r1.fixed_part_ = r2.fixed_part_ ∧ r1.kind_ = r2.kind_ ∧
    (r1.kind_ = DENSE ∧ r1.schema_.var_size_cols_ > 0 →
      r1.dense_var_idx_bytes.take r1.schema_.var_size_cols_ ++
          r1.dense_var_part_.take (r1.dense_var_idx_.getD (r1.schema_.var_size_cols_ - 1) 0)
        = r2.dense_var_idx_bytes.take r1.schema_.var_size_cols_ ++
          r2.dense_var_part_.take (r2.dense_var_idx_.getD (r1.schema_.var_size_cols_ - 1) 0)) := by
  unfold Row.payload at h
  rw [← hs] at h
  simp only [List.append_assoc] at h
  have h1 := List.append_cancel_left h
  have hf1 : r1.fixed_part_.length = r1.schema_.fixed_part_size_ := wf1.1
  have hf2 : r2.fixed_part_.length = r1.schema_.fixed_part_size_ := by rw [hs]; exact wf2.1
  obtain ⟨h2, h3⟩ := List.append_inj h1 (by simp [hf1, hf2])
  rw [List.take_of_length_le (le_of_eq hf1), List.take_of_length_le (le_of_eq hf2)] at h2
  obtain ⟨h4, h5⟩ := List.append_inj h3 (by simp [length_le_bytes])
  have hk := le_bytes_kind_inj r1 r2 h4
  refine ⟨h2, hk, ?_⟩
  intro hc
  have hc2 : r2.kind_ = DENSE ∧ r1.schema_.var_size_cols_ > 0 := ⟨hk ▸ hc.1, hc.2⟩
  simpa only [hc, hc2, and_self, if_true] using h5

/-- C1 (amended): two rows of one schema that has no variable-size column, or exactly
one while the rows are dense, and that satisfy the storage invariant, hold the same
fixed part and the same variable part, hence the same value in every column, whenever
`to_string` applied to an empty string returns and yields the same bytes for both. -/
theorem to_string_lossless_upto_one_var (r1 r2 : Row) (hs : r1.schema_ = r2.schema_)
    (wf1 : r1.WF) (wf2 : r2.WF)
    (hn : r1.schema_.var_size_cols_ = 0 ∨
      (r1.schema_.var_size_cols_ = 1 ∧ r1.kind_ = DENSE))
    (hok : (r1.to_string []).isOk = true)
    (heq : r1.to_string [] = r2.to_string []) :
    r1.fixed_part_ = r2.fixed_part_ ∧ r1.var = r2.var ∧
      ∀ j, r1.var_column j = r2.var_column j := by
  have hfit1 : ([] : List Nat).length + r1.appended < 2 ^ 31 := by
    simpa using to_string_nil_fits r1 hok
  have hfit2 : ([] : List Nat).length + r2.appended < 2 ^ 31 := by
    simpa using to_string_nil_fits r2 (heq ▸ hok)
  rw [to_string_layout r1 [] wf1 hfit1, to_string_layout r2 [] wf2 hfit2] at heq
  have hp : r1.payload = r2.payload := by simpa using heq
  obtain ⟨hfix, hkind, hvar⟩ := payload_inj_parts r1 r2 hs wf1 wf2 hp
  have hv : r1.var = r2.var := by
    obtain ⟨_, w1⟩ := wf1
    obtain ⟨_, w2⟩ := wf2
    rw [← hs] at w2
    rcases hn with h0 | ⟨h1, hd⟩
    · unfold Row.kind_ at hkind
      rw [h0] at w1 w2
      cases hv1 : r1.var with
      | dense p1 i1 =>
        cases hv2 : r2.var with
        | dense p2 i2 =>
          rw [hv1] at w1
          rw [hv2] at w2
          simp only [List.length_eq_zero] at w1 w2
          obtain ⟨a1, b1⟩ := w1
          obtain ⟨a2, b2⟩ := w2
          subst a1 a2
          simp only [List.getD_nil, List.length_eq_zero] at b1 b2
          rw [b1, b2]
        | sparse s2 => simp [hv1, hv2, DENSE, SPARSE] at hkind
      | sparse s1 =>
        cases hv2 : r2.var with
        | dense p2 i2 => simp [hv1, hv2, DENSE, SPARSE] at hkind
        | sparse s2 =>
          rw [hv1] at w1
          rw [hv2] at w2
          simp only [List.length_eq_zero] at w1 w2
          rw [w1, w2]
    · have hv' := hvar ⟨hd, by omega⟩
      rw [h1] at w1 w2 hv'
      unfold Row.kind_ at hkind hd
      unfold Row.dense_var_idx_bytes Row.dense_var_idx_ Row.dense_var_part_ at hv'
      cases hv1 : r1.var with
      | sparse s1 => simp [hv1, DENSE, SPARSE] at hd
      | dense p1 i1 =>
        cases hv2 : r2.var with
        | sparse s2 => simp [hv1, hv2, DENSE, SPARSE] at hkind
        | dense p2 i2 =>
          rw [hv1] at w1 hv'
          rw [hv2] at w2 hv'
          obtain ⟨a1, b1⟩ := w1
          obtain ⟨a2, b2⟩ := w2
          obtain ⟨x1, rfl⟩ := List.length_eq_one.1 a1
          obtain ⟨x2, rfl⟩ := List.length_eq_one.1 a2
          simp only [List.getD_cons_zero] at b1 b2 hv'
          simp only [List.map_cons, List.map_nil, List.flatten_cons, List.flatten_nil,
            List.append_nil] at hv'
          obtain ⟨_, h6⟩ := List.append_inj hv' (by simp [length_le_bytes])
          rw [List.take_of_length_le (le_of_eq b1), List.take_of_length_le (le_of_eq b2)] at h6
          subst h6
          rw [b1] at b2
          have hx : x1 = x2 := by simpa using b2
          rw [hx]
  refine ⟨hfix, hv, ?_⟩
  intro j
  unfold Row.var_column
  rw [hv]

/-- The dense row holding `"ab"` and its read-only twin serialise alike and hold the
same columns. -/
theorem to_string_lossless_upto_one_var_witness :
    denseAB.WF ∧ (denseAB.to_string []).isOk = true ∧
    denseAB.to_string [] = denseAB.make_readonly.to_string [] ∧
    (denseAB.fixed_part_ = denseAB.make_readonly.fixed_part_ ∧
      denseAB.var = denseAB.make_readonly.var ∧
      ∀ j, denseAB.var_column j = denseAB.make_readonly.var_column j) :=
  ⟨by decide, by decide, by decide,
   to_string_lossless_upto_one_var denseAB denseAB.make_readonly rfl (by decide) (by decide)
     (Or.inr ⟨rfl, rfl⟩) (by decide) (by decide)⟩

/-- C1 (counterexample): the sparse rows holding `"a"` and `"b"` in the single string
column of one schema satisfy the storage invariant and `to_string` applied to an empty
string yields the same eight bytes for both, while their column values differ. -/
theorem to_string_not_lossless_sparse :
    sparseA.schema_ = sparseB.schema_ ∧ sparseA.WF ∧ sparseB.WF ∧
    sparseA.to_string [] = Res.ok () [0, 0, 0, 0, 1, 0, 0, 0] ∧
    sparseB.to_string [] = Res.ok () [0, 0, 0, 0, 1, 0, 0, 0] ∧
    sparseA.to_string [] = sparseB.to_string [] ∧
    sparseA.var_column 0 = [97] ∧ sparseB.var_column 0 = [98] ∧
    sparseA.var_column 0 ≠ sparseB.var_column 0 := by
  decide

/-- Two dense rows of a schema with three string columns, holding `""`, `"a"`, `""`
and `""`, `""`, `"a"`: `to_string` copies three bytes of the index table, all of them
from its first entry, and yields the same bytes for both rows. -/
theorem to_string_dense_index_cut :
    denseMid.schema_ = denseLast.schema_ ∧ denseMid.WF ∧ denseLast.WF ∧
    denseMid.to_string [] = denseLast.to_string [] ∧
    denseMid.var_column 1 = [97] ∧ denseLast.var_column 1 = [] := by
  decide

/-! ## `entry_t` -/

/-- C7: `ro_touch` appends exactly the `TxnInfo` of the last writer vertex,
`last_->data_`, at the end of the conflict list when `last_` is non-null, and leaves
the list as it was when `last_` is null, as it is in a freshly constructed `entry_t`;
either way the elements already in the list stay first and in order, and the entry,
`last_` included, is unchanged. -/
theorem ro_touch_appends_last_writer {TxnInfo : Type} (e : entry_t TxnInfo)
    (L : List TxnInfo) :
    (∀ v, e.last_ = some v → (e.ro_touch L).2 = L ++ [v.data_]) ∧
    (e.last_ = none → (e.ro_touch L).2 = L) ∧
    (({} : entry_t TxnInfo).ro_touch L).2 = L ∧
    (e.ro_touch L).2.take L.length = L ∧
    (e.ro_touch L).1 = e ∧ (e.ro_touch L).1.last_ = e.last_ := by
  unfold entry_t.ro_touch
  cases h : e.last_ with
  | none => simp [h]
  | some v => simp [h]

/-- An entry whose last writer carries transaction 7, and a list holding 3. -/
theorem ro_touch_appends_last_writer_witness :
    ((⟨some ⟨7⟩⟩ : entry_t Nat).ro_touch [3]).2 = [3, 7] :=
  (ro_touch_appends_last_writer (⟨some ⟨7⟩⟩ : entry_t Nat) [3]).1 ⟨7⟩ rfl

/-! ## Read-only rows -/

namespace Row

theorem update_fixed_readonly (r : Row) (hro : r.rdonly_ = true) (col : column_info)
    (ptr : List Nat) (len : Nat) : r.update_fixed col ptr len = Res.fatal r := by
  simp [update_fixed, hro]

theorem update_i32_readonly (r : Row) (hro : r.rdonly_ = true) (c v : Int) :
    r.update_i32 c v = Res.fatal r := by
  unfold update_i32
  cases r.schema_.get_column_info c with
  | none => rfl
  | some info => by_cases h : info.type = Kind.I32 <;> simp [h, update_fixed_readonly r hro]

theorem update_i64_readonly (r : Row) (hro : r.rdonly_ = true) (c v : Int) :
    r.update_i64 c v = Res.fatal r := by
  unfold update_i64
  cases r.schema_.get_column_info c with
  | none => rfl
  | some info => by_cases h : info.type = Kind.I64 <;> simp [h, update_fixed_readonly r hro]

theorem update_double_readonly (r : Row) (hro : r.rdonly_ = true) (c : Int) (v : Nat) :
    r.update_double c v = Res.fatal r := by
  unfold update_double
  cases r.schema_.get_column_info c with
  | none => rfl
  | some info => by_cases h : info.type = Kind.DOUBLE <;> simp [h, update_fixed_readonly r hro]

theorem update_str_readonly (r : Row) (hro : r.rdonly_ = true) (c : Int) (v : List Nat) :
    r.update_str c v = Res.fatal r := by
  simp [update_str, hro]

theorem update_value_readonly (r : Row) (hro : r.rdonly_ = true) (c : Int) (v : Value) :
    r.update_value c v = Res.fatal r := by
  cases v <;> simp only [update_value]
  · exact update_i32_readonly r hro c _
  · exact update_i64_readonly r hro c _
  · exact update_double_readonly r hro c _
  · exact update_str_readonly r hro c _

theorem step_rdonly (r : Row) (hro : r.rdonly_ = true) (op : RowOp) :
    (r.step op).state.rdonly_ = true := by
  cases op with
  | make_readonly => rfl
  | make_sparse =>
    simp only [step, Res.state, make_sparse]
    cases r.var <;> exact hro
  | set_table tbl =>
    simp only [step, set_table]
    split <;> exact hro
  | update_i32 c v => simp [step, update_i32_readonly r hro, Res.state, hro]
  | update_i64 c v => simp [step, update_i64_readonly r hro, Res.state, hro]
  | update_double c v => simp [step, update_double_readonly r hro, Res.state, hro]
  | update_str c v => simp [step, update_str_readonly r hro, Res.state, hro]
  | update_value c v => simp [step, update_value_readonly r hro, Res.state, hro]
  | update_i32_by_name n v =>
    simp [step, update_i32_by_name, update_i32_readonly r hro, Res.state, hro]
  | update_i64_by_name n v =>
    simp [step, update_i64_by_name, update_i64_readonly r hro, Res.state, hro]
  | update_double_by_name n v =>
    simp [step, update_double_by_name, update_double_readonly r hro, Res.state, hro]
  | update_str_by_name n v =>
    simp [step, update_str_by_name, update_str_readonly r hro, Res.state, hro]
  | update_value_by_name n v =>
    simp [step, update_value_by_name, update_value_readonly r hro, Res.state, hro]

theorem run_rdonly (ops : List RowOp) (r : Row) (hro : r.rdonly_ = true) :
    (r.run ops).rdonly_ = true := by
  induction ops generalizing r with
  | nil => exact hro
  | cons op ops ih =>
    have h := step_rdonly r hro op
    simp only [run]
    cases hs : r.step op with
    | ok u r1 =>
      rw [hs] at h
      exact ih r1 h
    | fatal r1 =>
      rw [hs] at h
      exact h

/-- C8: on a row whose `rdonly_` flag is set, each of the ten `update` overloads (by
column id or by column name; `i32`, `i64`, `double`, string and `Value` argument) is
fatal and aborts with the row, every column value included, as it was; and after
`make_readonly()` the call `readonly()` returns true, also after every further
sequence of calls of the members that change a row. -/
theorem readonly_rejects_updates (r : Row) (hro : r.readonly = true) :
    (∀ c v, r.update_i32 c v = Res.fatal r) ∧
    (∀ c v, r.update_i64 c v = Res.fatal r) ∧
    (∀ c v, r.update_double c v = Res.fatal r) ∧
    (∀ c v, r.update_str c v = Res.fatal r) ∧
    (∀ c v, r.update_value c v = Res.fatal r) ∧
    (∀ n v, r.update_i32_by_name n v = Res.fatal r) ∧
    (∀ n v, r.update_i64_by_name n v = Res.fatal r) ∧
    (∀ n v, r.update_double_by_name n v = Res.fatal r) ∧
    (∀ n v, r.update_str_by_name n v = Res.fatal r) ∧
    (∀ n v, r.update_value_by_name n v = Res.fatal r) ∧
    (∀ r0 : Row, r0.make_readonly.readonly = true) ∧
    (∀ (r0 : Row) (ops : List RowOp), (r0.make_readonly.run ops).readonly = true) ∧
    (∀ ops : List RowOp, (r.run ops).readonly = true) := by
  have hro' : r.rdonly_ = true := hro
  refine ⟨update_i32_readonly r hro', update_i64_readonly r hro', update_double_readonly r hro',
    update_str_readonly r hro', update_value_readonly r hro', ?_, ?_, ?_, ?_, ?_, ?_, ?_, ?_⟩
  · exact fun n v => update_i32_readonly r hro' _ v
  · exact fun n v => update_i64_readonly r hro' _ v
  · exact fun n v => update_double_readonly r hro' _ v
  · exact fun n v => update_str_readonly r hro' _ v
  · exact fun n v => update_value_readonly r hro' _ v
  · exact fun r0 => rfl
  · exact fun r0 ops => run_rdonly ops r0.make_readonly rfl
  · exact fun ops => run_rdonly ops r hro'

/-- Writing 5 into the `I32` column of the read-only `zeroRow` aborts. -/
theorem readonly_rejects_updates_witness :
    zeroRow.make_readonly.readonly = true ∧
    zeroRow.make_readonly.update_i32 0 5 = Res.fatal zeroRow.make_readonly ∧
    zeroRow.update_i32 0 5 = Res.ok () { zeroRow with fixed_part_ := [5, 0, 0, 0] } :=
  ⟨rfl, (readonly_rejects_updates zeroRow.make_readonly rfl).1 0 5, by decide⟩

end Row

/-! ## `VersionedRow` -/

namespace VersionedRow

variable {L : Type}

theorem get_column_ver_incr_self (r : VersionedRow L) (c : Nat) (hc : c < r.ver_.length)
    (hmax : r.get_column_ver c + 1 < version_t_mod) :
    (r.incr_column_ver c).get_column_ver c = r.get_column_ver c + 1 := by
  unfold get_column_ver at hmax
  simp only [List.getD_eq_getElem?_getD] at hmax
  simp [incr_column_ver, get_column_ver, List.getD_eq_getElem?_getD, List.getElem?_set_self hc,
    Nat.mod_eq_of_lt hmax]

theorem get_column_ver_incr_ne (r : VersionedRow L) (c c' : Nat) (hne : c' ≠ c) :
    (r.incr_column_ver c).get_column_ver c' = r.get_column_ver c' := by
  simp [incr_column_ver, get_column_ver, List.getD_eq_getElem?_getD,
    List.getElem?_set_ne (Ne.symm hne)]

theorem get_column_ver_incr_le (r : VersionedRow L) (c c' : Nat)
    (hmax : r.get_column_ver c + 1 < version_t_mod) :
    r.get_column_ver c' ≤ (r.incr_column_ver c).get_column_ver c' := by
  by_cases hne : c' = c
  · subst hne
    by_cases hc : c' < r.ver_.length
    · rw [get_column_ver_incr_self r c' hc hmax]
      omega
    · have h1 : r.ver_.length ≤ c' := by omega
      simp [incr_column_ver, get_column_ver, List.getD_eq_getElem?_getD,
        List.getElem?_eq_none h1]
  · rw [get_column_ver_incr_ne r c c' hne]

theorem get_column_ver_step_row (r : VersionedRow L) (op : RowOp) (c : Nat) :
    (r.step (Op.row op)).state.get_column_ver c = r.get_column_ver c := by
  simp only [step, inherited]
  cases r.toRow.step op <;> rfl

theorem get_column_ver_step_le (r : VersionedRow L) (op : Op L)
    (hmax : ∀ c, op = Op.incr_column_ver c → r.get_column_ver c + 1 < version_t_mod)
    (c : Nat) : r.get_column_ver c ≤ (r.step op).state.get_column_ver c := by
  cases op with
  | incr_column_ver c0 => exact get_column_ver_incr_le r c0 c (hmax c0 rfl)
  | row op => rw [get_column_ver_step_row]
  | lock f => exact le_refl _

theorem get_column_ver_run_le (ops : List (Op L)) (r : VersionedRow L)
    (hno : NoOverflow r ops) (c : Nat) :
    r.get_column_ver c ≤ (r.run ops).get_column_ver c := by
  induction ops generalizing r with
  | nil => exact le_refl _
  | cons op ops ih =>
    obtain ⟨h1, h2⟩ := hno
    have hs := get_column_ver_step_le r op h1 c
    simp only [run]
    cases hst : r.step op with
    | ok u r1 =>
      rw [hst] at hs h2
      exact le_trans hs (ih r1 h2)
    | fatal r1 =>
      rw [hst] at hs
      exact hs

/-- C9: `VersionedRow::create`, given one value per column that `Row::create` accepts,
returns a row whose version is 0 in every column; for a column `c` within range whose version is below
the maximum of the counter, `incr_column_ver(c)` makes `get_column_ver(c)` exactly one
greater and leaves the version of every other column as it was; and over every
sequence of calls on the row in which no counter is incremented at its maximum, no
column version ever decreases. -/
theorem column_ver_monotone (r : VersionedRow L) :
    (∀ (Row_create : Schema → List Value → Option Row) (lock0 : L) (schema : Schema)
        (values : List Value) (base : Row), values.length = schema.columns_count →
        Row_create schema values = some base →
        ∃ r0, create Row_create lock0 schema values = some r0 ∧ r0.toRow = base ∧
          r0.ver_.length = schema.columns_count ∧ ∀ c, r0.get_column_ver c = 0) ∧
    (∀ c, c < r.ver_.length → r.get_column_ver c + 1 < version_t_mod →
        (r.incr_column_ver c).get_column_ver c = r.get_column_ver c + 1 ∧
        ∀ c', c' ≠ c → (r.incr_column_ver c).get_column_ver c' = r.get_column_ver c') ∧
    (∀ ops, NoOverflow r ops → ∀ c, r.get_column_ver c ≤ (r.run ops).get_column_ver c) := by
  refine ⟨?_, ?_, ?_⟩
  · intro Row_create lock0 schema values base hlen hbase
    refine ⟨⟨⟨base, lock0⟩, init_ver schema.columns_count⟩, ?_, rfl, ?_, ?_⟩
    · simp [create, hlen, hbase]
    · simp [init_ver]
    · intro c
      simp only [get_column_ver, init_ver, List.getD_eq_getElem?_getD]
      by_cases hc : c < schema.columns_count
      · simp [List.getElem?_replicate, hc]
      · simp [List.getElem?_replicate, hc]
  · intro c hc hmax
    exact ⟨get_column_ver_incr_self r c hc hmax,
      fun c' hne => get_column_ver_incr_ne r c c' hne⟩
  · intro ops hno c
    exact get_column_ver_run_le ops r hno c

/-- The fresh row at version 0: one increment of column 0 gives version 1. -/
theorem column_ver_monotone_witness :
    (0 : Nat) < zeroVersioned.ver_.length ∧
    zeroVersioned.get_column_ver 0 + 1 < version_t_mod ∧
    (zeroVersioned.incr_column_ver 0).get_column_ver 0 = 1 :=
  ⟨by decide, by decide,
   ((column_ver_monotone zeroVersioned).2.1 0 (by decide) (by decide)).1⟩

/-- C10 (amended): a call of a `Row` member on a `VersionedRow`, each `update`
overload among them, leaves `get_column_ver(c)` of every column `c` as it was, whether
it returns or aborts; the version of a column within range and below the maximum of the
counter becomes strictly greater when `incr_column_ver` is called on it. -/
theorem update_keeps_column_ver (r : VersionedRow L) (op : RowOp) :
    (∀ c, (r.step (Op.row op)).state.get_column_ver c = r.get_column_ver c) ∧
    (∀ c, c < r.ver_.length → r.get_column_ver c + 1 < version_t_mod →
        r.get_column_ver c < (r.incr_column_ver c).get_column_ver c) := by
  refine ⟨fun c => get_column_ver_step_row r op c, ?_⟩
  intro c hc hmax
  rw [get_column_ver_incr_self r c hc hmax]
  omega

/-- On the fresh row, an inherited call keeps version 0 and an increment raises it. -/
theorem update_keeps_column_ver_witness :
    (0 : Nat) < zeroVersioned.ver_.length ∧
    zeroVersioned.get_column_ver 0 + 1 < version_t_mod ∧
    zeroVersioned.get_column_ver 0 < (zeroVersioned.incr_column_ver 0).get_column_ver 0 :=
  ⟨by decide, by decide,
   (update_keeps_column_ver zeroVersioned (RowOp.update_i32 0 5)).2 0 (by decide) (by decide)⟩

/-- C10 (counterexample): on the fresh versioned row over `zeroRow`, `update(0, 5)`
returns and has written 5 into column 0, and `get_column_ver(0)` is 0 before and
after the call. -/
theorem update_does_not_bump_version :
    (zeroVersioned.step (Op.row (RowOp.update_i32 0 5))).isOk = true ∧
    (zeroVersioned.step (Op.row (RowOp.update_i32 0 5))).state.fixed_part_ = [5, 0, 0, 0] ∧
    zeroVersioned.get_column_ver 0 = 0 ∧
    (zeroVersioned.step (Op.row (RowOp.update_i32 0 5))).state.get_column_ver 0 = 0 ∧
    ¬ (zeroVersioned.get_column_ver 0 <
        (zeroVersioned.step (Op.row (RowOp.update_i32 0 5))).state.get_column_ver 0) := by
  decide

end VersionedRow

/-! ## The fields written by `Row::to_string` -/

/-- C17 (amended): for every row that satisfies the storage invariant and every string
`str` whose size plus the number of bytes that `to_string` counts for the row is below
`2 ^ 31`, so that the `int`s `len` and `i` hold them, `to_string` appends
`fixed_part_size_` as a 4-byte value, then exactly `fixed_part_size_` bytes of the
fixed part, then `kind_` as a 4-byte value (`sizeof(kind_)`, an `int`); so for every
such row whose schema has no variable-size column, and for every such sparse row,
exactly `fixed_part_size_ + 8` bytes are appended. -/
theorem to_string_field_widths (r : Row) (str : List Nat) (hwf : r.WF)
    (hfit : str.length + r.appended < 2 ^ 31) :
    (∃ tail, r.to_string str = Res.ok ()
        (str ++ (le_bytes 4 r.schema_.fixed_part_size_ ++ r.fixed_part_ ++
          le_bytes 4 r.kind_ ++ tail)) ∧
      (le_bytes 4 r.schema_.fixed_part_size_).length = 4 ∧
      r.fixed_part_.length = r.schema_.fixed_part_size_ ∧
      (le_bytes 4 r.kind_).length = 4 ∧
      (r.schema_.var_size_cols_ = 0 ∨ r.kind_ = SPARSE → tail = [])) ∧
    (r.schema_.var_size_cols_ = 0 ∨ r.kind_ = SPARSE →
      (r.to_string str).state.length = str.length + (r.schema_.fixed_part_size_ + 8)) := by
  have hfix : r.fixed_part_.length = r.schema_.fixed_part_size_ := hwf.1
  have htail : r.schema_.var_size_cols_ = 0 ∨ r.kind_ = SPARSE →
      ¬ (r.kind_ = DENSE ∧ r.schema_.var_size_cols_ > 0) := by
    rintro (h | h) ⟨h1, h2⟩
    · omega
    · rw [h] at h1
      exact absurd h1 (by decide)
  have hpay : r.payload = le_bytes 4 r.schema_.fixed_part_size_ ++ r.fixed_part_ ++
      le_bytes 4 r.kind_ ++
      (if r.kind_ = DENSE ∧ r.schema_.var_size_cols_ > 0 then
        r.dense_var_idx_bytes.take r.schema_.var_size_cols_ ++
          r.dense_var_part_.take (r.dense_var_idx_.getD (r.schema_.var_size_cols_ - 1) 0)
       else []) := by
    unfold Row.payload
    rw [List.take_of_length_le (le_of_eq hfix)]
  constructor
  · refine ⟨(if r.kind_ = DENSE ∧ r.schema_.var_size_cols_ > 0 then
        r.dense_var_idx_bytes.take r.schema_.var_size_cols_ ++
          r.dense_var_part_.take (r.dense_var_idx_.getD (r.schema_.var_size_cols_ - 1) 0)
       else []), ?_, length_le_bytes _ _, hfix, length_le_bytes _ _, ?_⟩
    · rw [to_string_layout r str hwf hfit, hpay]
    · intro h
      rw [if_neg (htail h)]
  · intro h
    rw [to_string_layout r str hwf hfit, hpay, if_neg (htail h)]
    simp [Res.state, length_le_bytes, hfix]
    omega

/-- The row holding one `I32`: twelve bytes are appended to `[7]`. -/
theorem to_string_field_widths_witness :
    zeroRow.WF ∧ [7].length + zeroRow.appended < 2 ^ 31 ∧
    (zeroRow.to_string [7]).state.length = 1 + (4 + 8) :=
  ⟨by decide, by decide,
    (to_string_field_widths zeroRow [7] (by decide) (by decide)).2 (Or.inl rfl)⟩

/-- C17 (counterexample): the row `zeroRow`, whose schema has one `I32` column, no
variable-size column and `fixed_part_size_ = 4`: `to_string` applied to an empty
string appends twelve bytes, of which the last four are `kind_`, and not
`fixed_part_size_ + 5 = 9`. -/
theorem to_string_kind_is_four_bytes :
    zeroRow.WF ∧ zeroRow.schema_.var_size_cols_ = 0 ∧ zeroRow.schema_.fixed_part_size_ = 4 ∧
    zeroRow.to_string [] = Res.ok () [4, 0, 0, 0, 0, 0, 0, 0, 0, 0, 0, 0] ∧
    (zeroRow.to_string []).state.length = 12 ∧
    (zeroRow.to_string []).state.length ≠ zeroRow.schema_.fixed_part_size_ + 5 := by
  decide

/-- C18 (the code at the failing input): the dense row holding `"a"` and `"b"` in two
string columns has the index table `[1, 2]`; after the eight bytes of
`fixed_part_size_` and `kind_`, `to_string` writes the two bytes `1, 0`, which are the
first two bytes of the entry `1`, and then the two bytes of the var part; the entry
`2` of the second column is not written. -/
theorem to_string_var_idx_section :
    denseA_B.WF ∧ denseA_B.dense_var_idx_ = [1, 2] ∧
    denseA_B.to_string [] = Res.ok () [0, 0, 0, 0, 0, 0, 0, 0, 1, 0, 97, 98] ∧
    ((denseA_B.to_string []).state.drop 8).take 2 = [1, 0] ∧
    ((denseA_B.to_string []).state.drop 8).take 2 ≠ denseA_B.dense_var_idx_ ∧
    (denseA_B.to_string []).state.drop 10 = denseA_B.dense_var_part_ := by
  decide

/-! ## `MultiValue` -/

namespace MultiValue

theorem eq_loop_iff (veq : Value → Value → Bool) (xs ys : List Value)
    (hlen : xs.length = ys.length) :
    eq_loop veq xs ys = true ↔
      ∀ (i : Nat) (x y : Value), xs[i]? = some x → ys[i]? = some y → veq x y = true := by
  induction xs generalizing ys with
  | nil =>
    cases ys with
    | nil => simp [eq_loop]
    | cons y ys => simp at hlen
  | cons x xs ih =>
    cases ys with
    | nil => simp at hlen
    | cons y ys =>
      have hlen' : xs.length = ys.length := by simpa using hlen
      simp only [eq_loop]
      constructor
      · intro h i a b ha hb
        cases hxy : veq x y with
        | false => simp [hxy] at h
        | true =>
          simp only [hxy, Bool.not_true, Bool.false_eq_true, if_false] at h
          cases i with
          | zero =>
            simp only [List.getElem?_cons_zero, Option.some.injEq] at ha hb
            rw [← ha, ← hb]
            exact hxy
          | succ j =>
            simp only [List.getElem?_cons_succ] at ha hb
            exact (ih ys hlen').1 h j a b ha hb
      · intro h
        have h0 : veq x y = true := h 0 x y (by simp) (by simp)
        simp only [h0, Bool.not_true, Bool.false_eq_true, if_false]
        exact (ih ys hlen').2 fun i a b ha hb => h (i + 1) a b (by simpa using ha) (by simpa using hb)

theorem of_vector_v (vs : List Value) : (of_vector vs).v_ = vs := by
  simp [of_vector]

theorem copy_eq_self (mv : MultiValue) : copy mv = mv := by
  cases mv
  simp [copy]

theorem assign_eq (this_ mv : MultiValue) : assign this_ mv false = mv := by
  cases mv
  simp [assign]

/-- C15: `a == b` holds exactly when `a.size() == b.size()` and `a[i]` equals `b[i]`
by `Value` equality at every index `i < a.size()`; a `MultiValue` built from a vector
`vs` has size `|vs|` and element `i` equal to `vs[i]`; a copy-constructed or assigned
`MultiValue` holds the elements of its source, self-assignment leaves the object as it
is, and each of them compares equal to its source as soon as every `Value` equals
itself. -/
theorem multivalue_eq_elementwise (veq : Value → Value → Bool) :
    (∀ a b : MultiValue, eq veq a b = true ↔
      a.size = b.size ∧
        ∀ i, i < a.size → ∀ x y, a.at? i = some x → b.at? i = some y → veq x y = true) ∧
    (∀ vs : List Value, (of_vector vs).size = vs.length ∧
      ∀ i, (of_vector vs).at? i = vs[i]?) ∧
    (∀ mv this_ : MultiValue, copy mv = mv ∧ assign this_ mv false = mv ∧
      assign mv mv true = mv) ∧
    ((∀ v, veq v v = true) → ∀ mv this_ : MultiValue,
      eq veq (copy mv) mv = true ∧ eq veq (assign this_ mv false) mv = true ∧
        eq veq (assign mv mv true) mv = true) := by
  have hrefl : (∀ v, veq v v = true) → ∀ mv : MultiValue, eq veq mv mv = true := by
    intro hv mv
    simp only [eq, if_true]
    rw [eq_loop_iff veq _ _ rfl]
    intro i x y hx hy
    rw [hx] at hy
    cases hy
    exact hv x
  refine ⟨?_, ?_, ?_, ?_⟩
  · intro a b
    unfold eq
    by_cases hs : a.size = b.size
    · rw [if_pos hs, eq_loop_iff veq _ _ hs]
      constructor
      · intro h
        exact ⟨hs, fun i _ x y hx hy => h i x y hx hy⟩
      · rintro ⟨_, h⟩ i x y hx hy
        have hi : i < a.size := by
          by_contra hc
          have : a.v_[i]? = none := List.getElem?_eq_none (by simpa [size] using hc)
          rw [this] at hx
          cases hx
        exact h i hi x y hx hy
    · simp [hs]
  · intro vs
    simp [size, at?, of_vector_v]
  · intro mv this_
    exact ⟨copy_eq_self mv, assign_eq this_ mv, by simp [assign]⟩
  · intro hv mv this_
    rw [copy_eq_self, assign_eq]
    exact ⟨hrefl hv mv, hrefl hv mv, by simpa [assign] using hrefl hv mv⟩

/-- Two keys `(1, "a")`, compared with equality of kind and payload. -/
theorem multivalue_eq_elementwise_witness :
    (∀ v : Value, (fun x y : Value => decide (x = y)) v v = true) ∧
    eq (fun x y => decide (x = y)) (copy ⟨[Value.I32 1, Value.STR [97]]⟩)
      ⟨[Value.I32 1, Value.STR [97]]⟩ = true :=
  ⟨fun v => by simp,
   ((multivalue_eq_elementwise (fun x y => decide (x = y))).2.2.2 (fun v => by simp)
      ⟨[Value.I32 1, Value.STR [97]]⟩ empty).1⟩

end MultiValue

/-! ## Hashing -/

theorem hash_loop_cons (h : StdHash) (ret : Nat) (v : Value) (vs : List Value) :
    hash_loop h ret (v :: vs) =
      if v.get_kind = Kind.UNKNOWN then none else hash_loop h (ret ^^^ hash_kind h v) vs := by
  cases v <;> simp [hash_loop, Value.get_kind, hash_kind]

theorem hash_loop_known (h : StdHash) (vs : List Value) (ret : Nat)
    (hk : ∀ v ∈ vs, v.get_kind ≠ Kind.UNKNOWN) :
    hash_loop h ret vs = some (ret ^^^ xor_all (vs.map (hash_kind h))) := by
  induction vs generalizing ret with
  | nil => simp [hash_loop, xor_all]
  | cons v vs ih =>
    rw [hash_loop_cons, if_neg (hk v (List.mem_cons_self _ _)),
      ih _ (fun w hw => hk w (List.mem_cons_of_mem _ hw))]
    simp [xor_all, Nat.xor_assoc]

theorem hash_loop_unknown (h : StdHash) (vs : List Value) (ret : Nat)
    (hk : ∃ v ∈ vs, v.get_kind = Kind.UNKNOWN) : hash_loop h ret vs = none := by
  induction vs generalizing ret with
  | nil =>
    obtain ⟨v, hv, _⟩ := hk
    cases hv
  | cons v vs ih =>
    rw [hash_loop_cons]
    by_cases hv : v.get_kind = Kind.UNKNOWN
    · rw [if_pos hv]
    · rw [if_neg hv]
      apply ih
      obtain ⟨w, hw, hwk⟩ := hk
      rcases List.mem_cons.1 hw with h1 | h1
      · rw [h1] at hwk
        exact absurd hwk hv
      · exact ⟨w, h1, hwk⟩

theorem xor_all_perm (l1 l2 : List Nat) (hp : l1.Perm l2) : xor_all l1 = xor_all l2 := by
  induction hp with
  | nil => rfl
  | cons x _ ih => simp only [xor_all, List.foldr_cons] at ih ⊢; rw [ih]
  | swap x y l =>
    simp only [xor_all, List.foldr_cons]
    rw [← Nat.xor_assoc, ← Nat.xor_assoc, Nat.xor_comm y x]
  | trans _ _ ih1 ih2 => exact ih1.trans ih2

theorem xor_all_append (l1 l2 : List Nat) : xor_all (l1 ++ l2) = xor_all l1 ^^^ xor_all l2 := by
  induction l1 with
  | nil => simp [xor_all]
  | cons x l ih =>
    simp only [xor_all, List.cons_append, List.foldr_cons] at ih ⊢
    rw [ih, Nat.xor_assoc]

theorem xor_cancel_pair (p x m q : Nat) : p ^^^ (x ^^^ m) ^^^ (x ^^^ q) = p ^^^ m ^^^ q := by
  apply Nat.eq_of_testBit_eq
  intro i
  simp only [Nat.testBit_xor]
  cases p.testBit i <;> cases x.testBit i <;> cases m.testBit i <;> cases q.testBit i <;> rfl

/-- C16: for a key whose elements all have kind `I32`, `I64`, `DOUBLE` or `STR`,
`multi_value_hasher` returns the XOR over all elements of their type-specific hashes,
and 0 for the empty key; the result is the same for every reordering of the elements,
and a key with two equal elements hashes like the key without the two; a key with an
element of any other kind makes the hasher fail. -/
theorem multi_value_hasher_xor (h : StdHash) :
    (∀ key : MultiValue, (∀ v ∈ key.v_, v.get_kind ≠ Kind.UNKNOWN) →
      multi_value_hasher h key = some (xor_all (key.v_.map (hash_kind h)))) ∧
    multi_value_hasher h MultiValue.empty = some 0 ∧
    (∀ a b : MultiValue, a.v_.Perm b.v_ → multi_value_hasher h a = multi_value_hasher h b) ∧
    (∀ (x : Value) (pre mid post : List Value),
      (∀ v ∈ pre ++ x :: mid ++ x :: post, v.get_kind ≠ Kind.UNKNOWN) →
      multi_value_hasher h ⟨pre ++ x :: mid ++ x :: post⟩
        = multi_value_hasher h ⟨pre ++ mid ++ post⟩) ∧
    (∀ key : MultiValue, (∃ v ∈ key.v_, v.get_kind = Kind.UNKNOWN) →
      multi_value_hasher h key = none) := by
  have hknown : ∀ key : MultiValue, (∀ v ∈ key.v_, v.get_kind ≠ Kind.UNKNOWN) →
      multi_value_hasher h key = some (xor_all (key.v_.map (hash_kind h))) := by
    intro key hk
    unfold multi_value_hasher
    rw [hash_loop_known h _ _ hk, Nat.zero_xor]
  refine ⟨hknown, rfl, ?_, ?_, ?_⟩
  · intro a b hp
    by_cases hk : ∀ v ∈ a.v_, v.get_kind ≠ Kind.UNKNOWN
    · have hk' : ∀ v ∈ b.v_, v.get_kind ≠ Kind.UNKNOWN :=
        fun v hv => hk v (hp.mem_iff.2 hv)
      rw [hknown a hk, hknown b hk', xor_all_perm _ _ (hp.map _)]
    · have hu : ∃ v ∈ a.v_, v.get_kind = Kind.UNKNOWN := by
        by_contra hc
        exact hk fun v hv hvk => hc ⟨v, hv, hvk⟩
      obtain ⟨v, hv, hvk⟩ := hu
      unfold multi_value_hasher
      rw [hash_loop_unknown h _ _ ⟨v, hv, hvk⟩,
        hash_loop_unknown h _ _ ⟨v, hp.mem_iff.1 hv, hvk⟩]
  · intro x pre mid post hk
    have hk' : ∀ v ∈ pre ++ mid ++ post, v.get_kind ≠ Kind.UNKNOWN := by
      intro v hv
      apply hk v
      simp only [List.mem_append, List.mem_cons] at hv ⊢
      tauto
    rw [hknown _ hk, hknown _ hk']
    simp only [List.map_append, List.map_cons, xor_all_append]
    have hx : ∀ l : List Nat, xor_all (hash_kind h x :: l) = hash_kind h x ^^^ xor_all l :=
      fun l => rfl
    simp only [hx]
    congr 1
    exact xor_cancel_pair _ _ _ _
  · intro key hu
    exact hash_loop_unknown h _ _ hu

/-- With the identity as every hash, the key `(5, 3)` hashes to `5 XOR 3 = 6`. -/
theorem multi_value_hasher_xor_witness :
    (∀ v ∈ [Value.I32 5, Value.I64 3], v.get_kind ≠ Kind.UNKNOWN) ∧
    multi_value_hasher ⟨Int.toNat, Int.toNat, id, List.length, Int.toNat⟩
      ⟨[Value.I32 5, Value.I64 3]⟩ = some 6 :=
  ⟨by decide,
   (multi_value_hasher_xor ⟨Int.toNat, Int.toNat, id, List.length, Int.toNat⟩).1
     ⟨[Value.I32 5, Value.I64 3]⟩ (by decide)⟩

theorem hash_loop_congr (h : StdHash) (veq : Value → Value → Bool)
    (hkind : ∀ x y, veq x y = true → x.get_kind = y.get_kind)
    (hhash : ∀ x y, veq x y = true → hash_kind h x = hash_kind h y)
    (xs ys : List Value) (hlen : xs.length = ys.length)
    (hloop : MultiValue.eq_loop veq xs ys = true) (ret : Nat) :
    hash_loop h ret xs = hash_loop h ret ys := by
  induction xs generalizing ys ret with
  | nil =>
    cases ys with
    | nil => rfl
    | cons y ys => simp at hlen
  | cons x xs ih =>
    cases ys with
    | nil => simp at hlen
    | cons y ys =>
      have hlen' : xs.length = ys.length := by simpa using hlen
      simp only [MultiValue.eq_loop] at hloop
      cases hxy : veq x y with
      | false => simp [hxy] at hloop
      | true =>
        simp only [hxy, Bool.not_true, Bool.false_eq_true, if_false] at hloop
        rw [hash_loop_cons, hash_loop_cons, hkind x y hxy, hhash x y hxy, ih ys hlen' hloop]

theorem multi_value_hasher_congr (h : StdHash) (veq : Value → Value → Bool)
    (hkind : ∀ x y, veq x y = true → x.get_kind = y.get_kind)
    (hhash : ∀ x y, veq x y = true → hash_kind h x = hash_kind h y)
    (a b : MultiValue) (hab : MultiValue.eq veq a b = true) (ret : Nat) :
    hash_loop h ret a.v_ = hash_loop h ret b.v_ := by
  unfold MultiValue.eq at hab
  by_cases hs : a.size = b.size
  · rw [if_pos hs] at hab
    exact hash_loop_congr h veq hkind hhash _ _ hs hab ret
  · rw [if_neg hs] at hab
    cases hab

/-- C14: when `Value` equality holds only between values of the same kind, and
`std::hash` gives equal hashes to equal values of a kind, two `cell_locator`s that are
equal by `operator==` (same `tbl_name`, same `col_id`, element-wise equal
`primary_key`) get the same result from `cell_locator_hasher`, and two `MultiValue`s
that are equal by `operator==` get the same result from `multi_value_hasher`. -/
theorem hash_agrees_with_eq (h : StdHash) (veq : Value → Value → Bool)
    (hkind : ∀ x y, veq x y = true → x.get_kind = y.get_kind)
    (hhash : ∀ x y, veq x y = true → hash_kind h x = hash_kind h y) :
    (∀ a b : cell_locator, cell_locator.eq veq a b = true →
      cell_locator_hasher h a = cell_locator_hasher h b) ∧
    (∀ a b : MultiValue, MultiValue.eq veq a b = true →
      multi_value_hasher h a = multi_value_hasher h b) := by
  constructor
  · intro a b hab
    simp only [cell_locator.eq, Bool.and_eq_true, decide_eq_true_eq] at hab
    obtain ⟨⟨ht, hp⟩, hc⟩ := hab
    unfold cell_locator_hasher
    rw [ht, hc]
    exact multi_value_hasher_congr h veq hkind hhash _ _ hp _
  · intro a b hab
    exact multi_value_hasher_congr h veq hkind hhash a b hab 0

/-- Equality of kind and payload as `Value` equality, the identity as every hash: the
locator `("t", (1), 2)` and a copy of it hash alike. -/
theorem hash_agrees_with_eq_witness :
    cell_locator.eq (fun x y => decide (x = y)) ⟨[116], ⟨[Value.I32 1]⟩, 2⟩
      ⟨[116], MultiValue.copy ⟨[Value.I32 1]⟩, 2⟩ = true ∧
    cell_locator_hasher ⟨Int.toNat, Int.toNat, id, List.length, Int.toNat⟩
        ⟨[116], ⟨[Value.I32 1]⟩, 2⟩
      = cell_locator_hasher ⟨Int.toNat, Int.toNat, id, List.length, Int.toNat⟩
        ⟨[116], MultiValue.copy ⟨[Value.I32 1]⟩, 2⟩ :=
  ⟨by decide,
   (hash_agrees_with_eq ⟨Int.toNat, Int.toNat, id, List.length, Int.toNat⟩
      (fun x y => decide (x = y))
      (fun x y hxy => by rw [of_decide_eq_true hxy])
      (fun x y hxy => by rw [of_decide_eq_true hxy])).1 _ _ (by decide)⟩

/-! ## `cell_locator` -/

theorem str_compare_range (a b : List Nat) :
    str_compare a b = -1 ∨ str_compare a b = 0 ∨ str_compare a b = 1 := by
  induction a generalizing b with
  | nil => cases b <;> simp [str_compare]
  | cons x xs ih =>
    cases b with
    | nil => simp [str_compare]
    | cons y ys =>
      simp only [str_compare]
      split
      · simp
      · split
        · simp
        · exact ih ys

theorem str_compare_eq_zero (a b : List Nat) : str_compare a b = 0 ↔ a = b := by
  induction a generalizing b with
  | nil => cases b <;> simp [str_compare]
  | cons x xs ih =>
    cases b with
    | nil => simp [str_compare]
    | cons y ys =>
      simp only [str_compare, List.cons.injEq]
      split
      · simp; omega
      · split
        · simp; omega
        · rw [ih ys]
          constructor
          · intro h
            exact ⟨by omega, h⟩
          · exact fun h => h.2

theorem str_compare_anti (a b : List Nat) : str_compare b a = - str_compare a b := by
  induction a generalizing b with
  | nil => cases b <;> simp [str_compare]
  | cons x xs ih =>
    cases b with
    | nil => simp [str_compare]
    | cons y ys =>
      simp only [str_compare]
      by_cases h1 : x < y
      · have h2 : ¬ y < x := by omega
        simp [h1, h2]
      · by_cases h2 : y < x
        · simp [h1, h2]
        · simp [h1, h2, ih ys]

theorem str_compare_trans (a b c : List Nat) (h1 : str_compare a b < 0)
    (h2 : str_compare b c < 0) : str_compare a c < 0 := by
  induction a generalizing b c with
  | nil =>
    cases c with
    | nil =>
      cases b with
      | nil => simp [str_compare] at h1
      | cons y ys => simp [str_compare] at h2
    | cons z zs => simp [str_compare]
  | cons x xs ih =>
    cases b with
    | nil => simp [str_compare] at h1
    | cons y ys =>
      cases c with
      | nil => simp [str_compare] at h2
      | cons z zs =>
        simp only [str_compare] at h1 h2 ⊢
        by_cases hxy : x < y
        · by_cases hyz : y < z
          · have : x < z := by omega
            simp [this]
          · by_cases hzy : z < y
            · simp [hyz, hzy] at h2
            · have : x < z := by omega
              simp [this]
        · by_cases hyx : y < x
          · simp [hxy, hyx] at h1
          · simp only [hxy, hyx, if_false] at h1
            have hxeq : x = y := by omega
            subst hxeq
            by_cases hyz : x < z
            · simp [hyz]
            · by_cases hzy : z < x
              · simp [hyz, hzy] at h2
              · simp only [hyz, hzy, if_false] at h2 ⊢
                exact ih ys zs h1 h2

namespace cell_locator

theorem lt_iff (compare : MultiValue → MultiValue → Int) (a b : cell_locator) :
    lt compare a b = true ↔
      str_compare a.tbl_name b.tbl_name < 0 ∨
      (a.tbl_name = b.tbl_name ∧
        (a.col_id < b.col_id ∨
          (a.col_id = b.col_id ∧ compare a.primary_key b.primary_key < 0))) := by
  simp only [lt]
  rcases str_compare_range a.tbl_name b.tbl_name with h | h | h
  · rw [h]
    simp
  · have ht := (str_compare_eq_zero _ _).1 h
    rw [h]
    simp only [lt_self_iff_false, if_false, gt_iff_lt, false_or]
    by_cases h1 : a.col_id < b.col_id
    · simp [h1, ht]
    · by_cases h2 : b.col_id < a.col_id
      · simp only [h1, h2, if_false, if_true, false_or]
        constructor
        · intro hf
          cases hf
        · rintro ⟨_, he, _⟩
          omega
      · have he : a.col_id = b.col_id := by omega
        simp [h1, h2, he, ht]
  · have hne : a.tbl_name ≠ b.tbl_name := by
      intro he
      rw [(str_compare_eq_zero _ _).2 he] at h
      cases h
    rw [h]
    simp [hne]

end cell_locator

namespace cell_locator

theorem eq_iff (veq : Value → Value → Bool) (a b : cell_locator) :
    eq veq a b = true ↔
      a.tbl_name = b.tbl_name ∧ MultiValue.eq veq a.primary_key b.primary_key = true ∧
        a.col_id = b.col_id := by
  simp [eq, and_assoc]

/-- C13: when `MultiValue::compare` returns -1, 0 or +1, is antisymmetric and
transitive, and returns 0 exactly when `operator==` of `MultiValue` holds,
`cell_locator::operator<` is irreflexive and transitive, exactly one of `a < b`,
`a == b`, `b < a` holds for every two `cell_locator`s, and `a < b` holds exactly when
`tbl_name` is less, or it is equal and `col_id` is less, or both are equal and
`primary_key` compares less. -/
theorem cell_locator_total_order (veq : Value → Value → Bool)
    (compare : MultiValue → MultiValue → Int)
    (hrange : ∀ a b, compare a b = -1 ∨ compare a b = 0 ∨ compare a b = 1)
    (hanti : ∀ a b, compare b a = - compare a b)
    (htrans : ∀ a b c, compare a b = -1 → compare b c = -1 → compare a c = -1)
    (heq : ∀ a b, compare a b = 0 ↔ MultiValue.eq veq a b = true) :
    (∀ a, lt compare a a = false) ∧
    (∀ a b c, lt compare a b = true → lt compare b c = true → lt compare a c = true) ∧
    (∀ a b, (lt compare a b = true ∨ eq veq a b = true ∨ lt compare b a = true) ∧
      ¬ (lt compare a b = true ∧ eq veq a b = true) ∧
      ¬ (lt compare a b = true ∧ lt compare b a = true) ∧
      ¬ (eq veq a b = true ∧ lt compare b a = true)) ∧
    (∀ a b, lt compare a b = true ↔
      str_compare a.tbl_name b.tbl_name < 0 ∨
      (a.tbl_name = b.tbl_name ∧
        (a.col_id < b.col_id ∨
          (a.col_id = b.col_id ∧ compare a.primary_key b.primary_key = -1)))) := by
  have hneg : ∀ a b, compare a b < 0 ↔ compare a b = -1 := by
    intro a b
    rcases hrange a b with h | h | h <;> rw [h] <;> decide
  refine ⟨?_, ?_, ?_, ?_⟩
  · intro a
    rw [Bool.eq_false_iff]
    intro h
    rw [lt_iff] at h
    have h0 : str_compare a.tbl_name a.tbl_name = 0 := (str_compare_eq_zero _ _).2 rfl
    have h1 := hanti a.primary_key a.primary_key
    omega
  · intro a b c hab hbc
    rw [lt_iff] at hab hbc ⊢
    rcases hab with h1 | ⟨e1, h1⟩
    · rcases hbc with h2 | ⟨e2, h2⟩
      · exact Or.inl (str_compare_trans _ _ _ h1 h2)
      · rw [← e2]
        exact Or.inl h1
    · rcases hbc with h2 | ⟨e2, h2⟩
      · rw [e1]
        exact Or.inl h2
      · refine Or.inr ⟨e1.trans e2, ?_⟩
        rcases h1 with h1 | ⟨c1, h1⟩
        · rcases h2 with h2 | ⟨c2, h2⟩
          · exact Or.inl (by omega)
          · exact Or.inl (by omega)
        · rcases h2 with h2 | ⟨c2, h2⟩
          · exact Or.inl (by omega)
          · refine Or.inr ⟨c1.trans c2, ?_⟩
            rw [hneg] at h1 h2 ⊢
            exact htrans _ _ _ h1 h2
  · intro a b
    rw [lt_iff, lt_iff, eq_iff, ← heq]
    have hT : a.tbl_name = b.tbl_name ↔ str_compare a.tbl_name b.tbl_name = 0 :=
      (str_compare_eq_zero _ _).symm
    have hT' : b.tbl_name = a.tbl_name ↔ str_compare a.tbl_name b.tbl_name = 0 := by
      rw [eq_comm]
      exact hT
    rw [hT, hT', str_compare_anti a.tbl_name b.tbl_name, hanti a.primary_key b.primary_key]
    have hr := hrange a.primary_key b.primary_key
    have hs := str_compare_range a.tbl_name b.tbl_name
    generalize str_compare a.tbl_name b.tbl_name = t at *
    generalize compare a.primary_key b.primary_key = p at *
    omega
  · intro a b
    rw [lt_iff, hneg]

end cell_locator

theorem eq_loop_kindEq (xs ys : List Value) :
    (xs.length = ys.length ∧ MultiValue.eq_loop kindEq xs ys = true) ↔
      xs.map kindTag = ys.map kindTag := by
  induction xs generalizing ys with
  | nil => cases ys <;> simp [MultiValue.eq_loop]
  | cons x xs ih =>
    cases ys with
    | nil => simp
    | cons y ys =>
      simp only [List.length_cons, Nat.add_right_cancel_iff, MultiValue.eq_loop, List.map_cons,
        List.cons.injEq, ← ih ys]
      by_cases hxy : kindTag x = kindTag y
      · simp [kindEq, hxy]
      · simp [kindEq, hxy]

theorem kindCompare_eq_zero (a b : MultiValue) :
    kindCompare a b = 0 ↔ MultiValue.eq kindEq a b = true := by
  unfold kindCompare MultiValue.eq MultiValue.size
  rw [str_compare_eq_zero, ← eq_loop_kindEq]
  by_cases hs : a.v_.length = b.v_.length <;> simp [hs]

theorem kindCompare_trans (a b c : MultiValue) (h1 : kindCompare a b = -1)
    (h2 : kindCompare b c = -1) : kindCompare a c = -1 := by
  unfold kindCompare at *
  have h := str_compare_trans (List.map kindTag a.v_) (List.map kindTag b.v_)
    (List.map kindTag c.v_) (by omega) (by omega)
  rcases str_compare_range (List.map kindTag a.v_) (List.map kindTag c.v_) with h3 | h3 | h3
  · exact h3
  · omega
  · omega

/-- With `kindCompare` as `MultiValue::compare`, the locator `("a", (1), 1)` is less
than `("a", (1), 2)`. -/
theorem cell_locator_total_order_witness :
    cell_locator.lt kindCompare ⟨[97], ⟨[Value.I32 1]⟩, 1⟩ ⟨[97], ⟨[Value.I32 1]⟩, 2⟩ = true :=
  ((cell_locator.cell_locator_total_order kindEq kindCompare
      (fun a b => str_compare_range _ _) (fun a b => str_compare_anti _ _)
      kindCompare_trans kindCompare_eq_zero).2.2.2
    ⟨[97], ⟨[Value.I32 1]⟩, 1⟩ ⟨[97], ⟨[Value.I32 1]⟩, 2⟩).2
    (Or.inr ⟨rfl, Or.inl (by decide)⟩)

/-! ## `FineLockedRow` -/

/-- C19: under every 2PL policy and for every `FineLockedRow`, `copy_into` aborts at
its `verify(0)` whatever the target row is, and `copy()` returns no row. -/
theorem fine_locked_copy_fails (Row_copy_into : Row → Row → Row) (type_2pl_ : type_2pl_t)
    (this_ : FineLockedRow) :
    FineLockedRow.copy Row_copy_into type_2pl_ this_ = none ∧
    ∀ row, FineLockedRow.copy_into Row_copy_into type_2pl_ this_ row = Res.fatal row := by
  constructor
  · simp [FineLockedRow.copy, FineLockedRow.copy_into, Res.verify]
  · intro row
    simp [FineLockedRow.copy_into, Res.verify]

namespace FineWorld

theorem lock_of_create (Row_create : Schema → List Value → Option Row) (t : type_2pl_t)
    (schema : Schema) (values : List Value) (row : FineLockedRow)
    (h : FineLockedRow.create Row_create t schema values = some row) :
    row.lock_ = some ⟨t, schema.columns_count⟩ := by
  unfold FineLockedRow.create at h
  split at h
  · cases hb : Row_create schema values with
    | none => simp [hb] at h
    | some base =>
      simp only [hb, Option.some.injEq] at h
      rw [← h]
      cases t <;> rfl
  · cases h

theorem step_keeps_policy (Row_create : Schema → List Value → Option Row) (w : FineWorld)
    (op : FineOp) (h1 : op ≠ FineOp.set_wait_die) (h2 : op ≠ FineOp.set_wound_die) :
    (step Row_create w op).state.type_2pl_ = w.type_2pl_ ∧
    (Consistent w → Consistent (step Row_create w op).state) := by
  cases op with
  | set_wait_die => exact absurd rfl h1
  | set_wound_die => exact absurd rfl h2
  | get_alock i c => exact ⟨rfl, id⟩
  | create schema values =>
    simp only [step]
    cases hc : FineLockedRow.create Row_create w.type_2pl_ schema values with
    | none => exact ⟨rfl, id⟩
    | some row =>
      refine ⟨rfl, ?_⟩
      intro hcons r hr
      simp only [Res.state, List.mem_append, List.mem_singleton] at hr
      rcases hr with hr | hr
      · exact hcons r hr
      · rw [hr]
        exact ⟨_, lock_of_create Row_create _ _ _ _ hc⟩

theorem run_keeps_policy (Row_create : Schema → List Value → Option Row) (ops : List FineOp)
    (w : FineWorld)
    (hops : ∀ op ∈ ops, op ≠ FineOp.set_wait_die ∧ op ≠ FineOp.set_wound_die) :
    (run Row_create w ops).type_2pl_ = w.type_2pl_ ∧
    (Consistent w → Consistent (run Row_create w ops)) := by
  induction ops generalizing w with
  | nil => exact ⟨rfl, id⟩
  | cons op ops ih =>
    obtain ⟨h1, h2⟩ := hops op (List.mem_cons_self _ _)
    have hs := step_keeps_policy Row_create w op h1 h2
    simp only [run]
    cases hst : step Row_create w op with
    | ok u w1 =>
      rw [hst] at hs
      have ih' := ih w1 (fun o ho => hops o (List.mem_cons_of_mem _ ho))
      exact ⟨ih'.1.trans hs.1, fun hc => ih'.2 (hs.2 hc)⟩
    | fatal w1 =>
      rw [hst] at hs
      exact hs

/-- C20 (amended): `type_2pl_` is changed by `set_wait_die` and `set_wound_die` alone,
which set it whenever they are called: `create` and `get_alock` leave it as it is, so
over every sequence of `create` and `get_alock` calls the value of `type_2pl_` does
not change and every row keeps a lock array of the class that `type_2pl_` names; and
while that is so, `get_alock(c)` on a row addresses the `c`-th lock of the array that
`init_lock` allocated for that row. -/
theorem type_2pl_fixed_unless_set (Row_create : Schema → List Value → Option Row)
    (w : FineWorld) :
    (step Row_create w FineOp.set_wait_die).state.type_2pl_ = type_2pl_t.WAIT_DIE ∧
    (step Row_create w FineOp.set_wound_die).state.type_2pl_ = type_2pl_t.WOUND_DIE ∧
    (∀ ops, (∀ op ∈ ops, op ≠ FineOp.set_wait_die ∧ op ≠ FineOp.set_wound_die) →
      (run Row_create w ops).type_2pl_ = w.type_2pl_ ∧
      (Consistent w → Consistent (run Row_create w ops))) ∧
    (Consistent w → ∀ row ∈ w.rows, ∀ c,
      some (FineLockedRow.get_alock w.type_2pl_ row c) = FineLockedRow.nth_lock row c) := by
  refine ⟨rfl, rfl, fun ops hops => run_keeps_policy Row_create ops w hops, ?_⟩
  intro hcons row hrow c
  obtain ⟨n, hn⟩ := hcons row hrow
  unfold FineLockedRow.get_alock FineLockedRow.nth_lock
  rw [hn]
  cases w.type_2pl_ <;> rfl

/-- From the policy `WAIT_DIE` and no rows, one `create` and one `get_alock` keep the
policy. -/
theorem type_2pl_fixed_unless_set_witness :
    (∀ op ∈ [FineOp.create i32Schema [Value.I32 0], FineOp.get_alock 0 0],
      op ≠ FineOp.set_wait_die ∧ op ≠ FineOp.set_wound_die) ∧
    (run zeroCreate ⟨type_2pl_t.WAIT_DIE, []⟩
      [FineOp.create i32Schema [Value.I32 0], FineOp.get_alock 0 0]).type_2pl_
        = type_2pl_t.WAIT_DIE :=
  ⟨by decide,
   ((type_2pl_fixed_unless_set zeroCreate ⟨type_2pl_t.WAIT_DIE, []⟩).2.2.1
      [FineOp.create i32Schema [Value.I32 0], FineOp.get_alock 0 0] (by decide)).1⟩

/-- C20 (counterexample): from the policy `WAIT_DIE` and no rows, `create` makes a row
with one `WaitDieALock`; a following `set_wound_die()` changes `type_2pl_` to
`WOUND_DIE`, and `get_alock(0)` on that row then casts `lock_` to `WoundDieALock`,
which is not the first lock of the array that `init_lock` allocated. -/
theorem type_2pl_changes_after_create :
    (run zeroCreate ⟨type_2pl_t.WAIT_DIE, []⟩
      [FineOp.create i32Schema [Value.I32 0]])
      = ⟨type_2pl_t.WAIT_DIE, [{ toRow := zeroRow, lock_ := some ⟨type_2pl_t.WAIT_DIE, 1⟩ }]⟩ ∧
    (run zeroCreate ⟨type_2pl_t.WAIT_DIE, []⟩
      [FineOp.create i32Schema [Value.I32 0], FineOp.set_wound_die])
      = ⟨type_2pl_t.WOUND_DIE, [{ toRow := zeroRow, lock_ := some ⟨type_2pl_t.WAIT_DIE, 1⟩ }]⟩ ∧
    some (FineLockedRow.get_alock type_2pl_t.WOUND_DIE
        { toRow := zeroRow, lock_ := some ⟨type_2pl_t.WAIT_DIE, 1⟩ } 0)
      ≠ FineLockedRow.nth_lock { toRow := zeroRow, lock_ := some ⟨type_2pl_t.WAIT_DIE, 1⟩ } 0 := by
  decide

end FineWorld

/-! ## `MultiVersionedRow` -/

namespace MultiVersionedRow

theorem subscript_fst (m : StdMap Int (StdMap Int Value)) (c : Int) :
    (StdMap.subscript m c []).1 = (StdMap.find m c).getD [] := by
  unfold StdMap.subscript
  cases StdMap.find m c <;> rfl

theorem find_subscript_snd (m : StdMap Int (StdMap Int Value)) (c c' : Int) (h : c' ≠ c) :
    StdMap.find (StdMap.subscript m c []).2 c' = StdMap.find m c' := by
  unfold StdMap.subscript
  cases hf : StdMap.find m c with
  | some v => rfl
  | none => exact StdMap.find_assign_ne _ _ _ _ h

theorem record_ver_s (E : MVExtern) (w : MVWorld) (c : Int) (V0 : Value) :
    (record E w c V0).ver_s = (w.ver_s + 1) % version_t_mod := by
  unfold record
  simp only [next_version]
  split <;> rfl

theorem record_toRow (E : MVExtern) (w : MVWorld) (c : Int) (V0 : Value) :
    (record E w c V0).row.toRow = w.row.toRow := by
  unfold record
  simp only
  split <;> rfl

theorem find_record_other (E : MVExtern) (w : MVWorld) (c c' : Int) (V0 : Value)
    (h : c' ≠ c) :
    StdMap.find (record E w c V0).row.old_values_ c' = StdMap.find w.row.old_values_ c' := by
  unfold record
  simp only
  split
  · simp only [StdMap.find_assign_ne _ _ _ _ h, find_subscript_snd _ _ _ h]
  · simp only [StdMap.find_assign_ne _ _ _ _ h, find_subscript_snd _ _ _ h]

theorem history_record (E : MVExtern) (w : MVWorld) (c : Int) (V0 : Value) :
    history (record E w c V0).row c =
      if StdMap.size (StdMap.insert (history w.row c)
          (((w.ver_s + 1) % version_t_mod : Nat) : Int) V0) % GC_THRESHOLD = 0 then
        (E.garbageCollection c (((w.ver_s + 1) % version_t_mod : Nat) : Int)
          (StdMap.insert (history w.row c) (((w.ver_s + 1) % version_t_mod : Nat) : Int) V0)
          ((StdMap.find w.row.time_segment c).getD [])).1
      else StdMap.insert (history w.row c) (((w.ver_s + 1) % version_t_mod : Nat) : Int) V0 := by
  unfold record history
  simp only [next_version, subscript_fst]
  split
  · simp only [StdMap.find_assign_self, Option.getD_some]
  · simp only [StdMap.find_assign_self, Option.getD_some]

theorem update_internal_eq (E : MVExtern) (f : Row → Res Row Unit) (w : MVWorld) (c : Int)
    (V0 : Value) (hget : E.get_column w.row.toRow c = some V0) :
    update_internal E f w c = apply_row (record E w c V0) (f w.row.toRow) := by
  unfold update_internal
  simp only [hget, record_toRow]

/-- C11: when the column reads as `V0`, each of the five `update` overloads by column
id first draws one version id `ver` from `next_version()` (the counter `ver_s` is one
step further, exactly once), inserts `ver -> V0` into the history `old_values_[col]`
(followed by the garbage collection of that column when the size of the history is a
multiple of `GC_THRESHOLD`), leaves the history of every other column and the `Row`
part as they were, and only then runs the basic `Row::update` on the `Row` part; the
insertion adds the mapping `ver -> V0` when `ver` is not yet a key. -/
theorem mv_update_records_old_value (E : MVExtern) (w : MVWorld) (column_id : Int)
    (V0 : Value) (hget : E.get_column w.row.toRow column_id = some V0) :
    (∀ v, update_i64 E w column_id v
      = apply_row (record E w column_id V0) (w.row.toRow.update_i64 column_id v)) ∧
    (∀ v, update_i32 E w column_id v
      = apply_row (record E w column_id V0) (w.row.toRow.update_i32 column_id v)) ∧
    (∀ v, update_double E w column_id v
      = apply_row (record E w column_id V0) (w.row.toRow.update_double column_id v)) ∧
    (∀ v, update_str E w column_id v
      = apply_row (record E w column_id V0) (w.row.toRow.update_str column_id v)) ∧
    (∀ v, update_value E w column_id v
      = apply_row (record E w column_id V0) (w.row.toRow.update_value column_id v)) ∧
    (record E w column_id V0).ver_s = (w.ver_s + 1) % version_t_mod ∧
    (record E w column_id V0).row.toRow = w.row.toRow ∧
    (history (record E w column_id V0).row column_id =
      if StdMap.size (StdMap.insert (history w.row column_id)
          (((w.ver_s + 1) % version_t_mod : Nat) : Int) V0) % GC_THRESHOLD = 0 then
        (E.garbageCollection column_id (((w.ver_s + 1) % version_t_mod : Nat) : Int)
          (StdMap.insert (history w.row column_id)
            (((w.ver_s + 1) % version_t_mod : Nat) : Int) V0)
          ((StdMap.find w.row.time_segment column_id).getD [])).1
      else StdMap.insert (history w.row column_id)
        (((w.ver_s + 1) % version_t_mod : Nat) : Int) V0) ∧
    (StdMap.find (history w.row column_id) (((w.ver_s + 1) % version_t_mod : Nat) : Int) = none →
      StdMap.find (StdMap.insert (history w.row column_id)
        (((w.ver_s + 1) % version_t_mod : Nat) : Int) V0)
        (((w.ver_s + 1) % version_t_mod : Nat) : Int) = some V0) ∧
    (∀ c, c ≠ column_id →
      StdMap.find (record E w column_id V0).row.old_values_ c
        = StdMap.find w.row.old_values_ c) := by
  refine ⟨fun v => update_internal_eq E _ w column_id V0 hget,
    fun v => update_internal_eq E _ w column_id V0 hget,
    fun v => update_internal_eq E _ w column_id V0 hget,
    fun v => update_internal_eq E _ w column_id V0 hget,
    fun v => update_internal_eq E _ w column_id V0 hget,
    record_ver_s E w column_id V0, record_toRow E w column_id V0,
    history_record E w column_id V0, ?_,
    fun c hc => find_record_other E w column_id c V0 hc⟩
  intro hnone
  unfold StdMap.insert
  rw [hnone]
  exact StdMap.find_assign_self _ _ _

/-- On the fresh row, `update(0, 5)` draws version 1, records `1 -> 0` in the history
of column 0 and writes 5. -/
theorem mv_update_records_old_value_witness :
    mvExtern.get_column mvWorld0.row.toRow 0 = some (Value.I32 0) ∧
    update_i32 mvExtern mvWorld0 0 5 = Res.ok ()
      ⟨1, { toRow := { zeroRow with fixed_part_ := [5, 0, 0, 0] },
            old_values_ := [(0, [(1, Value.I32 0)])], time_segment := [] }⟩ :=
  ⟨rfl,
   ((mv_update_records_old_value mvExtern mvWorld0 0 (Value.I32 0) rfl).2.1 5).trans
     (by decide)⟩

end MultiVersionedRow

namespace StdMap

theorem lower_bound_some {ν : Type} (m : StdMap Int ν) (k : Int) (e : Int × ν)
    (h : lower_bound m k = some e) :
    e ∈ m ∧ k ≤ e.1 ∧ ∀ e' ∈ m, k ≤ e'.1 → e.1 ≤ e'.1 := by
  induction m generalizing e with
  | nil => simp [lower_bound] at h
  | cons x rest ih =>
    simp only [lower_bound] at h
    cases hr : lower_bound rest k with
    | none =>
      rw [hr] at h
      simp only at h
      split at h
      · cases h
        rename_i hk
        refine ⟨List.mem_cons_self _ _, hk, ?_⟩
        intro e' he' hke'
        rcases List.mem_cons.1 he' with h1 | h1
        · rw [h1]
        · exfalso
          have hnone : ∀ m' : StdMap Int ν, lower_bound m' k = none →
              ∀ y ∈ m', y.1 < k := by
            intro m'
            induction m' with
            | nil => intro _ y hy; cases hy
            | cons z zs ihz =>
              intro hz y hy
              simp only [lower_bound] at hz
              cases hzs : lower_bound zs k with
              | none =>
                rw [hzs] at hz
                simp only at hz
                split at hz
                · cases hz
                · rcases List.mem_cons.1 hy with h2 | h2
                  · rw [h2]; omega
                  · exact ihz hzs y h2
              | some b =>
                rw [hzs] at hz
                simp only at hz
                split at hz <;> cases hz
          have := hnone rest hr e' h1
          omega
      · cases h
    | some b =>
      rw [hr] at h
      simp only at h
      obtain ⟨hb1, hb2, hb3⟩ := ih b hr
      split at h
      · cases h
        rename_i hk
        refine ⟨List.mem_cons_self _ _, hk.1, ?_⟩
        intro e' he' hke'
        rcases List.mem_cons.1 he' with h1 | h1
        · rw [h1]
        · have := hb3 e' h1 hke'
          omega
      · cases h
        rename_i hk
        refine ⟨List.mem_cons_of_mem _ hb1, hb2, ?_⟩
        intro e' he' hke'
        rcases List.mem_cons.1 he' with h1 | h1
        · rw [h1] at hke' ⊢
          by_contra hc
          exact hk ⟨hke', by omega⟩
        · exact hb3 e' h1 hke'

theorem lower_bound_none {ν : Type} (m : StdMap Int ν) (k : Int)
    (h : ∀ e ∈ m, e.1 < k) : lower_bound m k = none := by
  induction m with
  | nil => rfl
  | cons x rest ih =>
    have hx := h x (List.mem_cons_self _ _)
    simp only [lower_bound, ih (fun e he => h e (List.mem_cons_of_mem _ he))]
    rw [if_neg (by omega)]

theorem lower_bound_isSome {ν : Type} (m : StdMap Int ν) (k : Int) (e : Int × ν)
    (he : e ∈ m) (hk : k ≤ e.1) : ∃ b, lower_bound m k = some b := by
  cases h : lower_bound m k with
  | some b => exact ⟨b, rfl⟩
  | none =>
    exfalso
    induction m with
    | nil => cases he
    | cons x rest ih =>
      simp only [lower_bound] at h
      cases hr : lower_bound rest k with
      | none =>
        rw [hr] at h
        simp only at h
        split at h
        · cases h
        · rcases List.mem_cons.1 he with h1 | h1
          · rw [h1] at hk; omega
          · exact ih h1 hr
      | some b =>
        rw [hr] at h
        simp only at h
        split at h <;> cases h

theorem value_unique {κ ν : Type} [DecidableEq κ] (m : StdMap κ ν) (hwf : WF m) (e1 e2 : κ × ν)
    (h1 : e1 ∈ m) (h2 : e2 ∈ m) (hk : e1.1 = e2.1) : e1 = e2 :=
  List.inj_on_of_nodup_map hwf h1 h2 hk

end StdMap

namespace MultiVersionedRow

/-- C12: with `V` the current value of the column and `cur` its current version,
`get_column_by_version(col, ver)` returns `V` when `ver >= cur`; otherwise it returns
the value stored under the least key `>= ver` of `old_values_[col]`, and fails with
`StaleVersion` when every key is below `ver`; with the history `{3 -> "x", 7 -> "y"}`
and the current value `"z"` at version 9, the read at version 5 returns `"y"`. -/
theorem mv_read_by_version (E : MVExtern) (r : MultiVersionedRow) (column_id : Int)
    (version_num : Int) (V : Value) (hV : E.get_column r.toRow column_id = some V) :
    ((E.getCurrentVersion r column_id : Int) ≤ version_num →
      get_column_by_version E r column_id version_num = some (VersionRead.value V)) ∧
    (version_num < (E.getCurrentVersion r column_id : Int) →
      StdMap.WF (history r column_id) →
      ∀ k v, (k, v) ∈ history r column_id → version_num ≤ k →
        (∀ e ∈ history r column_id, version_num ≤ e.1 → k ≤ e.1) →
        get_column_by_version E r column_id version_num = some (VersionRead.value v)) ∧
    (version_num < (E.getCurrentVersion r column_id : Int) →
      (∀ e ∈ history r column_id, e.1 < version_num) →
      get_column_by_version E r column_id version_num = some VersionRead.StaleVersion) ∧
    get_column_by_version s3Extern s3Row 0 5 = some (VersionRead.value (Value.STR [121])) := by
  refine ⟨?_, ?_, ?_, by decide⟩
  · intro h
    simp [get_column_by_version, h, hV]
  · intro h hwf k v hkv hk hmin
    have hn : ¬ (E.getCurrentVersion r column_id : Int) ≤ version_num := by omega
    obtain ⟨b, hb⟩ := StdMap.lower_bound_isSome _ version_num (k, v) hkv hk
    obtain ⟨hb1, hb2, hb3⟩ := StdMap.lower_bound_some _ _ _ hb
    have hkey : b.1 = k := by
      have h1 := hb3 (k, v) hkv hk
      have h2 := hmin b hb1 hb2
      simp only at h1
      omega
    have hbe : b = (k, v) := StdMap.value_unique _ hwf b (k, v) hb1 hkv hkey
    simp only [get_column_by_version, hn, if_false, hb, hbe]
  · intro h hall
    have hn : ¬ (E.getCurrentVersion r column_id : Int) ≤ version_num := by omega
    simp only [get_column_by_version, hn, if_false, StdMap.lower_bound_none _ _ hall]

/-- Scenario S3: the read at version 9 returns the current value `"z"`. -/
theorem mv_read_by_version_witness :
    s3Extern.get_column s3Row.toRow 0 = some (Value.STR [122]) ∧
    ((s3Extern.getCurrentVersion s3Row 0 : Int) ≤ 9) ∧
    get_column_by_version s3Extern s3Row 0 9 = some (VersionRead.value (Value.STR [122])) :=
  ⟨rfl, by decide,
   (mv_read_by_version s3Extern s3Row 0 9 (Value.STR [122]) rfl).1 (by decide)⟩

end MultiVersionedRow

/-! ## `Row::set_table` -/

namespace Row

theorem set_table_nonnull_twice (r : Row) (t t' : Nat) (h : r.tbl_ = some t) :
    r.set_table (some t') = Res.fatal r := by
  simp [set_table, h]

theorem set_table_null (r : Row) : r.set_table none = Res.ok () { r with tbl_ := none } := by
  simp [set_table]

theorem set_table_all_cases (ts : List (Option Nat)) (r r1 : Row) (t : Nat)
    (h : r.tbl_ = some t) (hrun : set_table_all r ts = some r1) :
    r1.get_table = some t ∨ none ∈ ts := by
  cases ts with
  | nil =>
    simp only [set_table_all, Option.some.injEq] at hrun
    rw [← hrun]
    exact Or.inl h
  | cons a rest =>
    cases a with
    | none => exact Or.inr (List.mem_cons_self _ _)
    | some t' =>
      simp [set_table_all, set_table_nonnull_twice r t t' h] at hrun

/-- C21 (amended): once `set_table(t)` with a non-null table `t` has succeeded, a
further `set_table` with a non-null table is fatal and leaves the row as it is, while
`set_table(nullptr)` returns and clears the back-reference; so every later sequence of
`set_table` calls that completes without failure and contains no `set_table(nullptr)`
leaves `get_table() == t`, and a sequence that ends with another table has called
`set_table(nullptr)`. -/
theorem set_table_once_until_cleared (r : Row) (t : Nat) (h : r.get_table = some t) :
    (∀ t', r.set_table (some t') = Res.fatal r) ∧
    r.set_table none = Res.ok () { r with tbl_ := none } ∧
    (∀ ts r1, set_table_all r ts = some r1 → (∀ a ∈ ts, a ≠ none) →
      r1.get_table = some t) ∧
    (∀ ts r1, set_table_all r ts = some r1 → r1.get_table = some t ∨ none ∈ ts) := by
  refine ⟨fun t' => set_table_nonnull_twice r t t' h, set_table_null r, ?_,
    fun ts r1 hrun => set_table_all_cases ts r r1 t h hrun⟩
  intro ts r1 hrun hall
  rcases set_table_all_cases ts r r1 t h hrun with h1 | h1
  · exact h1
  · exact absurd rfl (hall none h1)

/-- The row `zeroRow` put into table 1: a second table is refused. -/
theorem set_table_once_until_cleared_witness :
    ({ zeroRow with tbl_ := some 1 } : Row).get_table = some 1 ∧
    ({ zeroRow with tbl_ := some 1 } : Row).set_table (some 2)
      = Res.fatal { zeroRow with tbl_ := some 1 } :=
  ⟨rfl, (set_table_once_until_cleared { zeroRow with tbl_ := some 1 } 1 rfl).1 2⟩

/-- C21 (counterexample): on `zeroRow`, `set_table(1)` succeeds and `get_table()` is
table 1; the later calls `set_table(nullptr)`, `set_table(2)` both complete without
failure and leave `get_table()` at table 2. -/
theorem set_table_replaced_after_null :
    zeroRow.set_table_all [some 1] = some { zeroRow with tbl_ := some 1 } ∧
    ({ zeroRow with tbl_ := some 1 } : Row).get_table = some 1 ∧
    ({ zeroRow with tbl_ := some 1 } : Row).set_table_all [none, some 2]
      = some { zeroRow with tbl_ := some 2 } ∧
    ({ zeroRow with tbl_ := some 2 } : Row).get_table ≠ some 1 := by
  decide

/-! ## The kind check of `Row::update` -/

/-- C22: `update(column_id, i32)` is fatal, with the row as it was, when the type of
the column is not `I32`, and likewise `update(column_id, i64)` for `I64` and
`update(column_id, double)` for `DOUBLE`, so a call that returns was made on a column
of that type; when the type matches the call is `update_fixed`, which is reached only
after the check; and each by-name overload is the by-id overload on
`schema_->get_column_id(col_name)`. -/
theorem update_checks_column_type (r : Row) (column_id : Int) (info : column_info)
    (hinfo : r.schema_.get_column_info column_id = some info) :
    (∀ v, info.type ≠ Kind.I32 → r.update_i32 column_id v = Res.fatal r) ∧
    (∀ v, info.type ≠ Kind.I64 → r.update_i64 column_id v = Res.fatal r) ∧
    (∀ v, info.type ≠ Kind.DOUBLE → r.update_double column_id v = Res.fatal r) ∧
    (∀ v, info.type = Kind.I32 →
      r.update_i32 column_id v = r.update_fixed info (int_bytes 4 v) 4) ∧
    (∀ v, info.type = Kind.I64 →
      r.update_i64 column_id v = r.update_fixed info (int_bytes 8 v) 8) ∧
    (∀ v, info.type = Kind.DOUBLE →
      r.update_double column_id v = r.update_fixed info (le_bytes 8 v) 8) ∧
    (∀ v r1, r.update_i32 column_id v = Res.ok () r1 → info.type = Kind.I32) ∧
    (∀ v r1, r.update_i64 column_id v = Res.ok () r1 → info.type = Kind.I64) ∧
    (∀ v r1, r.update_double column_id v = Res.ok () r1 → info.type = Kind.DOUBLE) ∧
    (∀ n v, r.update_i32_by_name n v = r.update_i32 (r.schema_.get_column_id n) v) ∧
    (∀ n v, r.update_i64_by_name n v = r.update_i64 (r.schema_.get_column_id n) v) ∧
    (∀ n v, r.update_double_by_name n v = r.update_double (r.schema_.get_column_id n) v) ∧
    (∀ n v, r.update_str_by_name n v = r.update_str (r.schema_.get_column_id n) v) ∧
    (∀ n v, r.update_value_by_name n v = r.update_value (r.schema_.get_column_id n) v) := by
  refine ⟨?_, ?_, ?_, ?_, ?_, ?_, ?_, ?_, ?_, fun _ _ => rfl, fun _ _ => rfl, fun _ _ => rfl,
    fun _ _ => rfl, fun _ _ => rfl⟩
  · intro v h
    simp [update_i32, hinfo, h]
  · intro v h
    simp [update_i64, hinfo, h]
  · intro v h
    simp [update_double, hinfo, h]
  · intro v h
    simp [update_i32, hinfo, h]
  · intro v h
    simp [update_i64, hinfo, h]
  · intro v h
    simp [update_double, hinfo, h]
  · intro v r1 h
    by_contra hne
    simp [update_i32, hinfo, hne] at h
  · intro v r1 h
    by_contra hne
    simp [update_i64, hinfo, hne] at h
  · intro v r1 h
    by_contra hne
    simp [update_double, hinfo, hne] at h

/-- On `zeroRow`, whose column 0 is `I32`, an `i64` update of column 0 is fatal. -/
theorem update_checks_column_type_witness :
    zeroRow.schema_.get_column_info 0 = some ⟨"n", Kind.I32, 0, 0⟩ ∧
    zeroRow.update_i64 0 5 = Res.fatal zeroRow :=
  ⟨by decide,
   (update_checks_column_type zeroRow 0 ⟨"n", Kind.I32, 0, 0⟩ (by decide)).2.1 5 (by decide)⟩

end Row

/-! ## `MultiVersionedRow::next_version` -/

namespace MultiVersionedRow

theorem draws_eq (n : Nat) (v : Nat) (h : v + n < version_t_mod) :
    draws v n = List.range' (v + 1) n := by
  induction n generalizing v with
  | zero => rfl
  | succ n ih =>
    have h1 : (v + 1) % version_t_mod = v + 1 := Nat.mod_eq_of_lt (by omega)
    simp only [draws, next_version, h1, List.range'_succ]
    rw [ih (v + 1) (by omega)]

/-- C23: every call of `next_version()` returns the value it stores in `ver_s`, the
successor of the value before the call in the arithmetic of `version_t`, which below
overflow is exactly one more; so the results of `n` successive calls that stay below
overflow are `ver_s + 1, ..., ver_s + n`, strictly increasing and pairwise distinct. -/
theorem next_version_increments (ver_s : Nat) :
    (next_version ver_s).1 = (next_version ver_s).2 ∧
    (next_version ver_s).1 = (ver_s + 1) % version_t_mod ∧
    (ver_s + 1 < version_t_mod → (next_version ver_s).1 = ver_s + 1 ∧
      (next_version ver_s).2 = ver_s + 1) ∧
    (∀ n, ver_s + n < version_t_mod →
      draws ver_s n = List.range' (ver_s + 1) n ∧
      (draws ver_s n).Pairwise (· < ·) ∧ (draws ver_s n).Nodup) := by
  refine ⟨rfl, rfl, ?_, ?_⟩
  · intro h
    simp [next_version, Nat.mod_eq_of_lt h]
  · intro n h
    rw [draws_eq n ver_s h]
    exact ⟨rfl, List.pairwise_lt_range' _ _, List.nodup_range' _ _⟩

/-- Three calls from the counter value 5 return 6, 7 and 8. -/
theorem next_version_increments_witness :
    5 + 3 < version_t_mod ∧ draws 5 3 = [6, 7, 8] :=
  ⟨by decide, ((next_version_increments 5).2.2.2 3 (by decide)).1.trans (by decide)⟩

end MultiVersionedRow

/-! ## `TxnRegistry::execute` -/

namespace TxnRegistry

theorem length_resize_vector (v : List Value) (n : Nat) (dflt : Value) :
    (resize_vector v n dflt).length = n := by
  simp [resize_vector]
  omega

/-- C24: for a header whose `(t_type, p_type)` is registered, the vector form of
`execute` makes exactly one handler call, of the registered handler, with the elements
and the length of the input vector, `output_size` set to `output->size()`, and the four
RCC-only arguments null; when the handler leaves a count that is not negative the call
returns `*res` as the handler left it and an output vector of exactly that length, and
in every case the result is that of the raw-array form followed by the resize. For a
header that is not registered both forms are fatal and make no handler call. -/
theorem execute_vector_calls_handler (dflt : Value) (st : ExecState) (header : RequestHeader)
    (input : List Value) (res : Int) (output : List Value) :
    (vector_call header input res output).input = input ∧
    (vector_call header input res output).input_size = input.length ∧
    (vector_call header input res output).output_size = output.length ∧
    (vector_call header input res output).row_map = none ∧
    (vector_call header input res output).pv = none ∧
    (vector_call header input res output).tv = none ∧
    (vector_call header input res output).ro_conflict_txns = none ∧
    (∀ pair, StdMap.find st.all_ (header.t_type, header.p_type) = some pair →
      (execute_vector dflt st header input res output).state.calls =
        st.calls ++ [vector_call header input res output] ∧
      (execute_vector dflt st header input res output).state.all_ = st.all_ ∧
      (0 ≤ (pair.txn_handler (vector_call header input res output)).output_size →
        ∃ out, execute_vector dflt st header input res output =
            Res.ok ((pair.txn_handler (vector_call header input res output)).res, out)
              { st with calls := st.calls ++ [vector_call header input res output] } ∧
          (out.length : Int) =
            (pair.txn_handler (vector_call header input res output)).output_size)) ∧
    (execute_vector dflt st header input res output =
      match execute_array st header input input.length res output output.length with
      | Res.ok eff st1 => resize_output dflt st1 eff
      | Res.fatal st1 => Res.fatal st1) ∧
    (StdMap.find st.all_ (header.t_type, header.p_type) = none →
      execute_vector dflt st header input res output = Res.fatal st ∧
      execute_array st header input input.length res output output.length = Res.fatal st) := by
  refine ⟨rfl, rfl, rfl, rfl, rfl, rfl, rfl, ?_, ?_, ?_⟩
  · intro pair hpair
    have hget : get_hdr st.all_ header = Res.ok pair st.all_ := by
      simp [get_hdr, get, hpair]
    refine ⟨?_, ?_, ?_⟩
    · simp only [execute_vector, hget, resize_output]
      split <;> rfl
    · simp only [execute_vector, hget, resize_output]
      split <;> rfl
    · intro hnn
      refine ⟨resize_vector (pair.txn_handler (vector_call header input res output)).output
        (pair.txn_handler (vector_call header input res output)).output_size.toNat dflt, ?_, ?_⟩
      · simp only [execute_vector, hget, resize_output, hnn, if_true]
      · rw [length_resize_vector]
        exact Int.toNat_of_nonneg hnn
  · simp only [execute_vector, execute_array, vector_call]
    cases get_hdr st.all_ header <;> rfl
  · intro hnone
    have hget : get_hdr st.all_ header = Res.fatal st.all_ := by
      simp [get_hdr, get, hnone]
    simp [execute_vector, execute_array, hget]

/-- The handler registered under `(1, 2)` is called once on the input `(5)` and an
output vector of two elements, which comes back with one element. -/
theorem execute_vector_calls_handler_witness :
    StdMap.find echoState.all_ (1, 2) = some ⟨echoHandler, defer_t.DF_NO⟩ ∧
    (execute_vector Value.UNKNOWN echoState ⟨1, 2, 0, 0⟩ [Value.I32 5] 0
      [Value.UNKNOWN, Value.UNKNOWN]).state.calls
      = [vector_call ⟨1, 2, 0, 0⟩ [Value.I32 5] 0 [Value.UNKNOWN, Value.UNKNOWN]] ∧
    (execute_vector Value.UNKNOWN echoState ⟨1, 2, 0, 0⟩ [Value.I32 5] 0
      [Value.UNKNOWN, Value.UNKNOWN]).val? = some (7, [Value.I32 5]) :=
  ⟨rfl,
   ((execute_vector_calls_handler Value.UNKNOWN echoState ⟨1, 2, 0, 0⟩ [Value.I32 5] 0
      [Value.UNKNOWN, Value.UNKNOWN]).2.2.2.2.2.2.2.1 ⟨echoHandler, defer_t.DF_NO⟩ rfl).1,
   by decide⟩

end TxnRegistry

/-! ## `Row::to_string` appends -/

theorem to_string_isOk (r : Row) (str : List Nat)
    (hfit : str.length + r.appended < 2 ^ 31) : (r.to_string str).isOk = true := by
  unfold Row.appended at hfit
  unfold Row.to_string
  by_cases hc : r.kind_ = DENSE ∧ r.schema_.var_size_cols_ > 0
  · rw [if_pos hc] at hfit
    simp only [hc, and_self, if_true]
    have b0 : str.length < 2 ^ 31 := by omega
    have b1 : str.length + (4 + r.schema_.fixed_part_size_ + 4) < 2 ^ 31 := by omega
    have b2 : str.length + (4 + r.schema_.fixed_part_size_ + 4) + r.schema_.var_size_cols_
        < 2 ^ 31 := by omega
    have b3 : str.length + (4 + r.schema_.fixed_part_size_ + 4) + r.schema_.var_size_cols_ +
        r.dense_var_idx_.getD (r.schema_.var_size_cols_ - 1) 0 < 2 ^ 31 := by omega
    have c1 : str.length + 4 < 2 ^ 31 := by omega
    have c2 : str.length + 4 + r.schema_.fixed_part_size_ < 2 ^ 31 := by omega
    have c3 : str.length + 4 + r.schema_.fixed_part_size_ + 4 < 2 ^ 31 := by omega
    have c4 : str.length + 4 + r.schema_.fixed_part_size_ + 4 + r.schema_.var_size_cols_
        < 2 ^ 31 := by omega
    have c5 : str.length + 4 + r.schema_.fixed_part_size_ + 4 + r.schema_.var_size_cols_ +
        r.dense_var_idx_.getD (r.schema_.var_size_cols_ - 1) 0 < 2 ^ 31 := by omega
    rw [to_int_cast str.length b0, to_int_cast_add _ _ b1, int_add_cast _ _ b2]
    rw [Option.some_bind]
    rw [int_add_cast _ _ b3]
    rw [Option.some_bind]
    rw [resize_int_cast]
    rw [Option.some_bind]
    rw [memcpy_int_cast _ _ _ _ _ (by omega)]
    rw [Option.some_bind]
    rw [to_int_cast_add_four _ c1, memcpy_int_cast _ _ _ _ _ (by omega)]
    rw [Option.some_bind]
    rw [int_add_cast _ _ c2]
    rw [Option.some_bind]
    rw [memcpy_int_cast _ _ _ _ _ (by omega)]
    rw [Option.some_bind]
    rw [to_int_cast_add_four _ c3, memcpy_int_cast _ _ _ _ _ (by omega)]
    rw [Option.some_bind]
    rw [int_add_cast _ _ c4]
    rw [Option.some_bind]
    rw [memcpy_int_cast _ _ _ _ _ (by omega)]
    rw [Option.some_bind]
    rw [int_add_cast _ _ c5]
    rw [Option.some_bind, Option.getD_some, if_pos (by omega)]
    rfl
  · rw [if_neg hc] at hfit
    simp only [hc, if_false]
    have b0 : str.length < 2 ^ 31 := by omega
    have b1 : str.length + (4 + r.schema_.fixed_part_size_ + 4) < 2 ^ 31 := by omega
    have c1 : str.length + 4 < 2 ^ 31 := by omega
    have c2 : str.length + 4 + r.schema_.fixed_part_size_ < 2 ^ 31 := by omega
    have c3 : str.length + 4 + r.schema_.fixed_part_size_ + 4 < 2 ^ 31 := by omega
    rw [to_int_cast str.length b0, to_int_cast_add _ _ b1, resize_int_cast]
    rw [Option.some_bind]
    rw [memcpy_int_cast _ _ _ _ _ (by omega)]
    rw [Option.some_bind]
    rw [to_int_cast_add_four _ c1, memcpy_int_cast _ _ _ _ _ (by omega)]
    rw [Option.some_bind]
    rw [int_add_cast _ _ c2]
    rw [Option.some_bind]
    rw [memcpy_int_cast _ _ _ _ _ (by omega)]
    rw [Option.some_bind]
    rw [to_int_cast_add_four _ c3]
    rw [Option.getD_some, if_pos (by omega)]
    rfl

/-- On a string of `2 ^ 32` bytes `int len = s` and `int i = s` are 0: `to_string` of
`zeroRow` resizes the string to its twelve bytes and writes them from offset 0. -/
theorem to_string_zeroRow_wraps (str : List Nat) (hlen : str.length = 2 ^ 32) :
    zeroRow.to_string str = Res.ok () [4, 0, 0, 0, 0, 0, 0, 0, 0, 0, 0, 0] := by
  have hc : ¬ (zeroRow.kind_ = DENSE ∧ zeroRow.schema_.var_size_cols_ > 0) := by decide
  have hf : zeroRow.schema_.fixed_part_size_ = 4 := rfl
  have hk : zeroRow.kind_ = 0 := rfl
  have hp : zeroRow.fixed_part_ = [0, 0, 0, 0] := rfl
  have e0 : to_int ((2 ^ 32 : Nat) : Int) = ((0 : Nat) : Int) := by
    unfold to_int
    omega
  have e1 : to_int (((0 : Nat) : Int) + ((4 + 4 + 4 : Nat) : Int)) = ((12 : Nat) : Int) :=
    to_int_cast_add 0 (4 + 4 + 4) (by omega)
  have e2 : to_int (((0 : Nat) : Int) + 4) = ((4 : Nat) : Int) :=
    to_int_cast_add_four 0 (by omega)
  have e3 : to_int (((8 : Nat) : Int) + 4) = ((12 : Nat) : Int) :=
    to_int_cast_add_four 8 (by omega)
  have hb : ∃ q : List Nat, resize str 12 = q ∧ q.length = 12 := by
    refine ⟨_, rfl, ?_⟩
    simp only [resize, List.length_append, List.length_take, List.length_replicate, hlen]
    omega
  obtain ⟨q, hq, hql⟩ := hb
  unfold Row.to_string
  simp only [hc, if_false]
  rw [hlen, hf, hk, hp, e0, e1, resize_int_cast, Option.some_bind,
    memcpy_int_cast 12 0 4 _ _ (by omega), Option.some_bind, e2,
    memcpy_int_cast 12 4 4 _ _ (by omega), Option.some_bind,
    int_add_cast 4 4 (by omega), Option.some_bind,
    memcpy_int_cast 12 (4 + 4) 4 _ _ (by omega), Option.some_bind, e3, Option.getD_some,
    if_pos rfl, hq]
  match q, hql with
  | [q0, q1, q2, q3, q4, q5, q6, q7, q8, q9, q10, q11], _ => rfl

theorem length_payload (r : Row) (hwf : r.WF) :
    r.payload.length = 4 + r.schema_.fixed_part_size_ + 4 +
      (if r.kind_ = DENSE ∧ r.schema_.var_size_cols_ > 0 then
        r.schema_.var_size_cols_ + r.dense_var_idx_.getD (r.schema_.var_size_cols_ - 1) 0
       else 0) := by
  obtain ⟨hfix, hvar⟩ := hwf
  unfold Row.payload
  by_cases hc : r.kind_ = DENSE ∧ r.schema_.var_size_cols_ > 0
  · have hidx : r.schema_.var_size_cols_ ≤ r.dense_var_idx_bytes.length := by
      rw [length_dense_var_idx_bytes]
      unfold Row.dense_var_idx_
      cases hv : r.var with
      | dense part idx => rw [hv] at hvar; simp only; omega
      | sparse sv => simp [Row.kind_, hv, DENSE, SPARSE] at hc
    have hpart : r.dense_var_idx_.getD (r.schema_.var_size_cols_ - 1) 0
        ≤ r.dense_var_part_.length := by
      unfold Row.dense_var_idx_ Row.dense_var_part_
      cases hv : r.var with
      | dense part idx => rw [hv] at hvar; simp only; omega
      | sparse sv => simp [Row.kind_, hv, DENSE, SPARSE] at hc
    simp only [hc, and_self, if_true, List.length_append, length_le_bytes, List.length_take,
      hfix]
    omega
  · simp only [hc, if_false, List.length_append, length_le_bytes, List.length_take, hfix,
      List.length_nil]
    omega

/-- C30 (amended): for every row and every string `str` of length `s` such that `s`
plus the sum of the widths of the fields written is below `2 ^ 31`, so that the `int`s
`len` and `i` hold them, `to_string` passes its `verify(i == len)`, in the dense branch
with variable-size columns and in the other branch; for such a row that satisfies the
storage invariant the first `s` bytes of `str` are unchanged afterwards, the appended
suffix is the same for every such `str` (it is what `to_string` gives on the empty
string), and the new length is `s` plus the widths of the fields written: 4,
`fixed_part_size_`, 4, and in the dense branch with variable-size columns
`var_size_cols_` and the length of the var part. -/
theorem to_string_appends (r : Row) (str : List Nat)
    (hfit : str.length + r.appended < 2 ^ 31) :
    (r.to_string str).isOk = true ∧
    (r.WF →
      r.to_string str = Res.ok () (str ++ r.payload) ∧
      (r.to_string str).state.take str.length = str ∧
      (r.to_string str).state.drop str.length = (r.to_string []).state ∧
      (r.to_string str).state.length = str.length +
        (4 + r.schema_.fixed_part_size_ + 4 +
          (if r.kind_ = DENSE ∧ r.schema_.var_size_cols_ > 0 then
            r.schema_.var_size_cols_ +
              r.dense_var_idx_.getD (r.schema_.var_size_cols_ - 1) 0
           else 0))) := by
  refine ⟨to_string_isOk r str hfit, ?_⟩
  intro hwf
  have hfit0 : ([] : List Nat).length + r.appended < 2 ^ 31 := by
    simp only [List.length_nil]
    omega
  rw [to_string_layout r str hwf hfit, to_string_layout r [] hwf hfit0]
  refine ⟨rfl, ?_, ?_, ?_⟩
  · simp [Res.state]
  · simp [Res.state]
  · simp only [Res.state, List.length_append, length_payload r hwf]

/-- The row `denseA_B` appended to `[7, 7]`: the two bytes stay and twelve follow. -/
theorem to_string_appends_witness :
    [7, 7].length + denseA_B.appended < 2 ^ 31 ∧ denseA_B.WF ∧
    denseA_B.to_string [7, 7] = Res.ok () [7, 7, 0, 0, 0, 0, 0, 0, 0, 0, 1, 0, 97, 98] :=
  ⟨by decide, by decide,
    ((to_string_appends denseA_B [7, 7] (by decide)).2 (by decide)).1.trans (by decide)⟩

/-- C30 (counterexample): a string of `2 ^ 32` bytes `7` and the row `zeroRow`: the call
returns, the string is twelve bytes long afterwards, not `2 ^ 32 + 12`, and it is not
an extension of the string passed. -/
theorem to_string_overwrites_long_string :
    (List.replicate (2 ^ 32) 7).length = 2 ^ 32 ∧ zeroRow.WF ∧
    zeroRow.to_string (List.replicate (2 ^ 32) 7)
      = Res.ok () [4, 0, 0, 0, 0, 0, 0, 0, 0, 0, 0, 0] ∧
    (zeroRow.to_string (List.replicate (2 ^ 32) 7)).state.length = 12 ∧
    (zeroRow.to_string (List.replicate (2 ^ 32) 7)).state.take
      (List.replicate (2 ^ 32) 7).length ≠ List.replicate (2 ^ 32) 7 := by
  have h := to_string_zeroRow_wraps (List.replicate (2 ^ 32) 7) (List.length_replicate _ _)
  refine ⟨List.length_replicate _ _, by decide, h, by rw [h]; rfl, ?_⟩
  intro heq
  have hl := congrArg List.length heq
  rw [h] at hl
  simp only [Res.state, List.length_take, List.length_replicate, List.length_cons,
    List.length_nil] at hl
  omega

/-! ## The invariant of `DTxnMgr` -/

namespace DTxnMgr

theorem deref_lt (h : Heap) (a : Nat) (d : DTxn) (hd : Heap.deref h a = some d) :
    a < h.length := by
  by_contra hc
  have : h[a]? = none := List.getElem?_eq_none (by omega)
  simp [Heap.deref, this] at hd

theorem deref_append_old (h : Heap) (x : Option DTxn) (a : Nat) (d : DTxn)
    (hd : Heap.deref h a = some d) : Heap.deref (h ++ [x]) a = some d := by
  have hlt := deref_lt h a d hd
  simp only [Heap.deref, List.get?_eq_getElem?] at hd ⊢
  rw [List.getElem?_append_left hlt]
  exact hd

theorem deref_free_ne (h : Heap) (a a' : Nat) (hne : a' ≠ a) :
    Heap.deref (Heap.free h (some a)) a' = Heap.deref h a' := by
  simp only [Heap.deref, Heap.free, List.get?_eq_getElem?]
  rw [List.getElem?_set_ne (Ne.symm hne)]

theorem create_ok_entry (R T : Int) (m m1 : DTxnMgr) (tid : Int) (p : DTxnPtr)
    (h : create R T m tid = Res.ok p m1) :
    p = some m.heap.length ∧ StdMap.find m1.dtxns_ tid = some (some m.heap.length) := by
  unfold create at h
  simp only [Heap.alloc] at h
  split at h
  · cases h
  · split at h
    · simp only [Res.ok.injEq] at h
      obtain ⟨h1, h2⟩ := h
      rw [← h1, ← h2]
      exact ⟨rfl, StdMap.find_assign_self _ _ _⟩
    · cases h

theorem create_present_fatal (R T : Int) (m : DTxnMgr) (tid : Int) (a : Nat)
    (hp : StdMap.find m.dtxns_ tid = some (some a)) :
    (create R T m tid).isOk = false := by
  unfold create
  simp only [Heap.alloc, StdMap.subscript, hp]
  split
  · rfl
  · simp [Res.isOk]

theorem Inv_created (m : DTxnMgr) (tid : Int) (cls : DTxnClass) (hinv : Inv m) :
    Inv (created m tid cls) := by
  intro k p hk
  by_cases hkt : k = tid
  · subst hkt
    rw [find_created_self] at hk
    cases hk
    exact ⟨_, _, rfl, deref_created m k cls, rfl, rfl⟩
  · rw [find_created_ne m tid k cls hkt] at hk
    obtain ⟨a, d, hp, hd, h1, h2⟩ := hinv k p hk
    exact ⟨a, d, hp, deref_append_old _ _ _ _ hd, h1, h2⟩

theorem create_ok_Inv (R T : Int) (m m1 : DTxnMgr) (tid : Int) (p : DTxnPtr)
    (hinv : Inv m) (h : create R T m tid = Res.ok p m1) : Inv m1 ∧ m1.this = m.this := by
  cases hf : StdMap.find m.dtxns_ tid with
  | some q =>
    obtain ⟨a, d, hq, _⟩ := hinv tid q hf
    rw [hq] at hf
    have := create_present_fatal R T m tid a hf
    rw [h] at this
    cases this
  | none =>
    rcases create_absent_cases R T m tid hf with hc | ⟨cls, hc⟩
    · rw [hc] at h
      cases h
    · rw [hc] at h
      cases h
      exact ⟨Inv_created m tid cls hinv, rfl⟩

theorem destroy_ok_Inv (m m1 : DTxnMgr) (tid : Int) (hinv : Inv m)
    (h : destroy m tid = Res.ok () m1) : Inv m1 ∧ m1.this = m.this := by
  cases hf : StdMap.find m.dtxns_ tid with
  | none => simp [destroy, hf] at h
  | some q =>
    rw [destroy_present m tid q hf] at h
    cases h
    refine ⟨?_, rfl⟩
    obtain ⟨a, d, hq, hd, hd1, _⟩ := hinv tid q hf
    subst hq
    intro k p hk
    by_cases hkt : k = tid
    · subst hkt
      simp only [StdMap.find_erase_self] at hk
      cases hk
    · simp only [StdMap.find_erase_ne _ _ _ hkt] at hk
      obtain ⟨a', d', hp, hd', h1, h2⟩ := hinv k p hk
      refine ⟨a', d', hp, ?_, h1, h2⟩
      have hne : a' ≠ a := by
        intro he
        rw [he, hd] at hd'
        cases hd'
        exact hkt (h1.symm.trans hd1)
      simp only
      rw [deref_free_ne _ _ _ hne]
      exact hd'

theorem step_ok_Inv (R T : Int) (m m1 : DTxnMgr) (op : DTxnOp) (hinv : Inv m)
    (h : step R T m op = Res.ok () m1) : Inv m1 ∧ m1.this = m.this := by
  cases op with
  | create tid =>
    simp only [step] at h
    cases hc : create R T m tid with
    | fatal s => simp [hc, Res.map] at h
    | ok p s =>
      simp only [hc, Res.map, Res.ok.injEq, true_and] at h
      subst h
      exact create_ok_Inv R T m s tid p hinv hc
  | get_or_create tid =>
    simp only [step] at h
    cases hf : StdMap.find m.dtxns_ tid with
    | some q =>
      rw [get_or_create_present R T m tid q hf] at h
      simp only [Res.map, Res.ok.injEq, true_and] at h
      subst h
      exact ⟨hinv, rfl⟩
    | none =>
      rw [get_or_create_absent R T m tid hf] at h
      cases hc : create R T m tid with
      | fatal s => simp [hc, Res.map] at h
      | ok p s =>
        simp only [hc, Res.map, Res.ok.injEq, true_and] at h
        subst h
        exact create_ok_Inv R T m s tid p hinv hc
  | get tid =>
    simp only [step, get] at h
    cases hf : StdMap.find m.dtxns_ tid with
    | none => simp [hf, Res.map] at h
    | some q =>
      simp only [hf, Res.map, Res.ok.injEq, true_and] at h
      subst h
      exact ⟨hinv, rfl⟩
  | destroy tid => exact destroy_ok_Inv m m1 tid hinv h
  | init mode =>
    simp only [step, Res.ok.injEq, true_and] at h
    subst h
    exact ⟨hinv, rfl⟩

theorem runAll_Inv (R T : Int) (ops : List DTxnOp) (m m1 : DTxnMgr) (hinv : Inv m)
    (h : runAll R T m ops = some m1) : Inv m1 ∧ m1.this = m.this := by
  induction ops generalizing m with
  | nil =>
    simp only [runAll, Option.some.injEq] at h
    subst h
    exact ⟨hinv, rfl⟩
  | cons op ops ih =>
    simp only [runAll] at h
    cases hs : step R T m op with
    | fatal s => simp [hs] at h
    | ok u s =>
      rw [hs] at h
      obtain ⟨h1, h2⟩ := step_ok_Inv R T m s op hinv hs
      obtain ⟨h3, h4⟩ := ih s h1 h
      exact ⟨h3, h4.trans h2⟩

/-- C28: in every state reached from a manager with an empty map by `create`,
`get_or_create`, `get` and `destroy` calls that all complete (under running modes that
may change in between), every entry `(tid, d)` of `dtxns_` has `d` non-null and
pointing at a live object with `tid_ == tid` and `mgr_` the manager; a `create` that
returns has overwritten the null placeholder with the pointer it returns, which is not
null; and in such a state `create(tid)` for a `tid` that has an entry is fatal. -/
theorem dtxns_invariant (MODE_RCC MODE_ROT : Int) (mode : Int) (heap0 : Heap) (this_ : Nat)
    (ops : List DTxnOp) (m : DTxnMgr)
    (hrun : runAll MODE_RCC MODE_ROT ⟨mode, heap0, this_, []⟩ ops = some m) :
    Inv m ∧ m.this = this_ ∧
    (∀ (m0 m1 : DTxnMgr) tid p, create MODE_RCC MODE_ROT m0 tid = Res.ok p m1 →
      ∃ a, p = some a ∧ StdMap.find m1.dtxns_ tid = some (some a)) ∧
    (∀ tid p, StdMap.find m.dtxns_ tid = some p →
      (create MODE_RCC MODE_ROT m tid).isOk = false) := by
  have hinv0 : Inv ⟨mode, heap0, this_, []⟩ := by
    intro tid p hp
    simp [StdMap.find] at hp
  obtain ⟨hinv, hthis⟩ := runAll_Inv MODE_RCC MODE_ROT ops _ m hinv0 hrun
  refine ⟨hinv, hthis, ?_, ?_⟩
  · intro m0 m1 tid p hc
    exact ⟨_, create_ok_entry _ _ m0 m1 tid p hc⟩
  · intro tid p hp
    obtain ⟨a, d, hq, _⟩ := hinv tid p hp
    rw [hq] at hp
    exact create_present_fatal _ _ m tid a hp

/-- From the empty manager at address 100 in mode 4: create 7, create 9, destroy 7. -/
theorem dtxns_invariant_witness :
    runAll 4 8 ⟨4, [], 100, []⟩ [DTxnOp.create 7, DTxnOp.get_or_create 9, DTxnOp.destroy 7]
      = some ⟨4, [none, some ⟨9, 100, DTxnClass.RCCDTxn⟩], 100, [(9, some 1)]⟩ ∧
    Inv ⟨4, [none, some ⟨9, 100, DTxnClass.RCCDTxn⟩], 100, [(9, some 1)]⟩ :=
  ⟨by decide,
   (dtxns_invariant 4 8 4 [] 100
      [DTxnOp.create 7, DTxnOp.get_or_create 9, DTxnOp.destroy 7] _ (by decide)).1⟩

end DTxnMgr

/-! ## `cell_locator_t_hash` -/

/-- For two `cell_locator_t` values that are equal by `operator==`, the hashes agree
exactly when `std::hash<char *>` agrees on the two table-name pointers. -/
theorem cell_locator_t_hash_eq_iff (h : PtrHash) (cstr : Nat → List Nat)
    (a b : cell_locator_t) (hab : cell_locator_t.eq cstr a b = true) :
    cell_locator_t_hash h a = cell_locator_t_hash h b ↔
      h.hash_char_ptr a.tbl_name = h.hash_char_ptr b.tbl_name := by
  simp only [cell_locator_t.eq, Bool.and_eq_true, decide_eq_true_eq] at hab
  obtain ⟨⟨_, hp⟩, hc⟩ := hab
  simp only [cell_locator_t_hash, hp, hc, Nat.zero_xor]
  constructor
  · intro he
    exact Nat.xor_left_inj.1 (Nat.xor_left_inj.1 he)
  · intro he
    rw [he]

/-- C29 (the code at the failing input): in a memory where the addresses 100 and 200
both hold the C string `"t"`, the locators `(100, (), 0)` and `(200, (), 0)` are equal
by `operator==` through `strcmp`, and `cell_locator_t_hash`, with the pointer hash that
returns the address, gives them the hashes 100 and 200. -/
theorem cell_locator_t_hash_differs :
    (100 : Nat) ≠ 200 ∧ strcmp tMemory 100 200 = 0 ∧
    cell_locator_t.eq tMemory ⟨100, [], 0⟩ ⟨200, [], 0⟩ = true ∧
    cell_locator_t_hash addrHash ⟨100, [], 0⟩ = 100 ∧
    cell_locator_t_hash addrHash ⟨200, [], 0⟩ = 200 ∧
    cell_locator_t_hash addrHash ⟨100, [], 0⟩ ≠ cell_locator_t_hash addrHash ⟨200, [], 0⟩ := by
  decide

/-! ## Copies of rows -/

/-- A `VersionedRow` whose array `ver_` has one entry per column: the copy has the
same version in every column and the same state of the coarse lock. -/
theorem versioned_copy_keeps_versions {L : Type} (Row_copy_into : Row → Row → Row) (l0 : L)
    (r : VersionedRow L) (hlen : r.ver_.length = r.schema_.columns_count) :
    (∀ c, (VersionedRow.copy Row_copy_into l0 r).get_column_ver c = r.get_column_ver c) ∧
    (VersionedRow.copy Row_copy_into l0 r).lock_ = r.lock_ := by
  have hv : (VersionedRow.copy Row_copy_into l0 r).ver_ = r.ver_ := by
    simp only [VersionedRow.copy, VersionedRow.copy_into, memcpy, VersionedRow.init_ver,
      ← hlen]
    simp
  exact ⟨fun c => by simp only [VersionedRow.get_column_ver, hv], rfl⟩

/-- The copy of a `MultiVersionedRow` has an empty history in every column, whatever
the histories of the source are. -/
theorem mv_copy_history_empty (Row_copy_into : Row → Row → Row) (m : MultiVersionedRow)
    (c : Int) : MultiVersionedRow.history (MultiVersionedRow.copy Row_copy_into m) c = [] := by
  rfl

/-- C27 (the code at the failing input): the row of scenario S3 holds the history
`{3 -> "x", 7 -> "y"}` for column 0; its `copy()` has the `Row` part of the source and
an empty history for column 0. The copy of a `VersionedRow` at version 3 is at
version 3. -/
theorem mv_copy_drops_history :
    MultiVersionedRow.history s3Row 0 = [(3, Value.STR [120]), (7, Value.STR [121])] ∧
    (MultiVersionedRow.copy copyAll s3Row).toRow = s3Row.toRow ∧
    MultiVersionedRow.history (MultiVersionedRow.copy copyAll s3Row) 0 = [] ∧
    MultiVersionedRow.history (MultiVersionedRow.copy copyAll s3Row) 0
      ≠ MultiVersionedRow.history s3Row 0 ∧
    (VersionedRow.copy copyAll () versioned3).get_column_ver 0
      = versioned3.get_column_ver 0 := by
  decide

/-! ## Histories of a `MultiVersionedRow` along a run -/

namespace StdMap

variable {κ ν : Type} [DecidableEq κ]

theorem keys_insert_sub (m : StdMap κ ν) (k : κ) (v : ν) (x : κ)
    (hx : x ∈ keys (insert m k v)) : x ∈ keys m ∨ x = k := by
  unfold insert at hx
  cases hf : find m k with
  | some v0 =>
    rw [hf] at hx
    exact Or.inl hx
  | none =>
    rw [hf] at hx
    simp only [keys_assign] at hx
    split at hx
    · exact Or.inl hx
    · simpa using hx

theorem size_insert_fresh (m : StdMap κ ν) (k : κ) (v : ν) (hf : find m k = none) :
    size (insert m k v) = size m + 1 := by
  have hk : k ∉ keys m := (find_eq_none_iff m k).1 hf
  have h1 : (keys (assign m k v)).length = (keys m).length + 1 := by
    rw [keys_assign, if_neg hk]
    simp
  unfold insert
  rw [hf]
  simpa [keys, size] using h1

theorem find_insert_fresh (m : StdMap κ ν) (k : κ) (v : ν) (hf : find m k = none) :
    find (insert m k v) k = some v := by
  unfold insert
  rw [hf]
  exact find_assign_self m k v

theorem find_insert_keep (m : StdMap κ ν) (k k' : κ) (v v' : ν) (hf : find m k' = some v') :
    find (insert m k v) k' = some v' := by
  unfold insert
  cases hk : find m k with
  | some v0 => exact hf
  | none =>
    have hne : k' ≠ k := by
      intro he
      rw [he, hk] at hf
      cases hf
    simp only [find_assign_ne m k k' v hne, hf]

end StdMap

namespace MVWorld

/-- The world `w1` with the `Row` part replaced. -/
theorem history_apply_row (w1 : MVWorld) (res : Res Row Unit) (c : Int) :
    (MultiVersionedRow.apply_row w1 res).state.ver_s = w1.ver_s ∧
    MultiVersionedRow.history (MultiVersionedRow.apply_row w1 res).state.row c
      = MultiVersionedRow.history w1.row c := by
  cases res <;> exact ⟨rfl, rfl⟩

/-- The three shapes of one call: a draw elsewhere, an abort while reading the current
value, or the recording of the current value followed by `Row::update`. -/
theorem step_shape (E : MVExtern) (w : MVWorld) (op : MVOp) :
    (op.column = none ∧
      step E w op = Res.ok () { w with ver_s := (w.ver_s + 1) % version_t_mod }) ∨
    (∃ c, op.column = some c ∧ E.get_column w.row.toRow c = none ∧
      step E w op = Res.fatal w) ∨
    (∃ c V0 res, op.column = some c ∧ E.get_column w.row.toRow c = some V0 ∧
      step E w op = MultiVersionedRow.apply_row (MultiVersionedRow.record E w c V0) res) := by
  cases op with
  | elsewhere => exact Or.inl ⟨rfl, rfl⟩
  | update_i64 c v =>
    right
    cases hg : E.get_column w.row.toRow c with
    | none =>
      exact Or.inl ⟨c, rfl, hg, by
        simp [step, MultiVersionedRow.update_i64, MultiVersionedRow.update_internal, hg]⟩
    | some V0 =>
      exact Or.inr ⟨c, V0, _, rfl, hg, by
        simpa [step, MultiVersionedRow.update_i64] using
          MultiVersionedRow.update_internal_eq E _ w c V0 hg⟩
  | update_i32 c v =>
    right
    cases hg : E.get_column w.row.toRow c with
    | none =>
      exact Or.inl ⟨c, rfl, hg, by
        simp [step, MultiVersionedRow.update_i32, MultiVersionedRow.update_internal, hg]⟩
    | some V0 =>
      exact Or.inr ⟨c, V0, _, rfl, hg, by
        simpa [step, MultiVersionedRow.update_i32] using
          MultiVersionedRow.update_internal_eq E _ w c V0 hg⟩
  | update_double c v =>
    right
    cases hg : E.get_column w.row.toRow c with
    | none =>
      exact Or.inl ⟨c, rfl, hg, by
        simp [step, MultiVersionedRow.update_double, MultiVersionedRow.update_internal, hg]⟩
    | some V0 =>
      exact Or.inr ⟨c, V0, _, rfl, hg, by
        simpa [step, MultiVersionedRow.update_double] using
          MultiVersionedRow.update_internal_eq E _ w c V0 hg⟩
  | update_str c v =>
    right
    cases hg : E.get_column w.row.toRow c with
    | none =>
      exact Or.inl ⟨c, rfl, hg, by
        simp [step, MultiVersionedRow.update_str, MultiVersionedRow.update_internal, hg]⟩
    | some V0 =>
      exact Or.inr ⟨c, V0, _, rfl, hg, by
        simpa [step, MultiVersionedRow.update_str] using
          MultiVersionedRow.update_internal_eq E _ w c V0 hg⟩
  | update_value c v =>
    right
    cases hg : E.get_column w.row.toRow c with
    | none =>
      exact Or.inl ⟨c, rfl, hg, by
        simp [step, MultiVersionedRow.update_value, MultiVersionedRow.update_internal, hg]⟩
    | some V0 =>
      exact Or.inr ⟨c, V0, _, rfl, hg, by
        simpa [step, MultiVersionedRow.update_value] using
          MultiVersionedRow.update_internal_eq E _ w c V0 hg⟩

end MVWorld

namespace MVWorld

theorem next_key_eq (w : MVWorld) (hw : w.ver_s + 1 < i64_lim) :
    next_key w = ((w.ver_s + 1 : Nat) : Int) ∧
    (w.ver_s + 1) % version_t_mod = w.ver_s + 1 := by
  have hlt : w.ver_s + 1 < version_t_mod :=
    lt_trans hw (by unfold i64_lim version_t_mod; decide)
  have hm : (w.ver_s + 1) % version_t_mod = w.ver_s + 1 := Nat.mod_eq_of_lt hlt
  exact ⟨by simp only [next_key, MultiVersionedRow.next_version, hm], hm⟩

/-- Under the invariant the id drawn next is above every key of every history. -/
theorem next_key_fresh (w : MVWorld) (c : Int) (hw : w.ver_s + 1 < i64_lim)
    (hk : KeysBelow w) :
    (∀ k ∈ StdMap.keys (MultiVersionedRow.history w.row c), k < next_key w) ∧
    StdMap.find (MultiVersionedRow.history w.row c) (next_key w) = none := by
  have h1 : ∀ k ∈ StdMap.keys (MultiVersionedRow.history w.row c), k < next_key w := by
    intro k hmem
    have := hk c k hmem
    rw [(next_key_eq w hw).1]
    push_cast
    omega
  refine ⟨h1, (StdMap.find_eq_none_iff _ _).2 ?_⟩
  intro hmem
  exact lt_irrefl _ (h1 _ hmem)

theorem history_record_eq (E : MVExtern) (w : MVWorld) (c : Int) (V0 : Value) :
    MultiVersionedRow.history (MultiVersionedRow.record E w c V0).row c =
      if runs_gc w c V0 = true then
        (E.garbageCollection c (next_key w)
          (StdMap.insert (MultiVersionedRow.history w.row c) (next_key w) V0)
          ((StdMap.find w.row.time_segment c).getD [])).1
      else StdMap.insert (MultiVersionedRow.history w.row c) (next_key w) V0 := by
  rw [MultiVersionedRow.history_record]
  simp only [runs_gc, next_key, MultiVersionedRow.next_version, decide_eq_true_eq]

theorem history_record_other (E : MVExtern) (w : MVWorld) (c c' : Int) (V0 : Value)
    (h : c' ≠ c) :
    MultiVersionedRow.history (MultiVersionedRow.record E w c V0).row c'
      = MultiVersionedRow.history w.row c' := by
  simp only [MultiVersionedRow.history, MultiVersionedRow.find_record_other E w c c' V0 h]

/-- One call keeps the invariant when the garbage collection only removes entries or
does not run. -/
theorem KeysBelow_step (E : MVExtern) (w : MVWorld) (op : MVOp) (hw : w.ver_s + 1 < i64_lim)
    (hk : KeysBelow w) (hg : E.Shrinks ∨ ∀ e ∈ event E w op, e.gc = false) :
    KeysBelow (step E w op).state := by
  obtain ⟨hkey, hmod⟩ := next_key_eq w hw
  rcases step_shape E w op with ⟨_, hs⟩ | ⟨c, _, _, hs⟩ | ⟨c, V0, res, hc, hget, hs⟩
  · rw [hs]
    intro c k hmem
    have := hk c k hmem
    simp only [Res.state, hmod]
    push_cast
    omega
  · rw [hs]
    exact hk
  · rw [hs]
    intro c' k hmem
    obtain ⟨hv, hh⟩ := history_apply_row (MultiVersionedRow.record E w c V0) res c'
    rw [hh] at hmem
    rw [hv, MultiVersionedRow.record_ver_s, hmod]
    have hins : ∀ x ∈ StdMap.keys
        (StdMap.insert (MultiVersionedRow.history w.row c) (next_key w) V0),
        x ≤ ((w.ver_s + 1 : Nat) : Int) := by
      intro x hx
      rcases StdMap.keys_insert_sub _ _ _ _ hx with h1 | h1
      · have := hk c x h1
        push_cast
        omega
      · rw [h1, hkey]
    by_cases hcc : c' = c
    · subst hcc
      rw [history_record_eq] at hmem
      split at hmem
      · rename_i hgc
        rcases hg with hsh | hno
        · exact hins k (hsh _ _ _ _ k hmem)
        · have := hno ⟨c', next_key w, V0, runs_gc w c' V0⟩ (by simp [event, hc, hget])
          simp only [hgc] at this
          cases this
      · exact hins k hmem
    · rw [history_record_other E w c c' V0 hcc] at hmem
      have := hk c' k hmem
      push_cast
      omega

theorem KeysBelow_run (E : MVExtern) (ops : List MVOp) :
    ∀ w, KeysBelow w → NoWrap E w ops →
      (E.Shrinks ∨ ∀ e ∈ trace E w ops, e.gc = false) → KeysBelow (run E w ops) := by
  induction ops with
  | nil => intro w hk _ _; exact hk
  | cons op ops ih =>
    intro w hk hn hg
    obtain ⟨hw, hn1⟩ := hn
    have hg0 : E.Shrinks ∨ ∀ e ∈ event E w op, e.gc = false := by
      rcases hg with h | h
      · exact Or.inl h
      · right
        intro e he
        apply h
        simp only [trace]
        cases step E w op <;> simp [he]
    have hs := KeysBelow_step E w op hw hk hg0
    simp only [run]
    cases hst : step E w op with
    | ok u w1 =>
      rw [hst] at hs hn1
      apply ih w1 hs hn1
      rcases hg with h | h
      · exact Or.inl h
      · right
        intro e he
        apply h
        simp only [trace, hst]
        exact List.mem_append_right _ he
    | fatal w1 =>
      rw [hst] at hs
      exact hs

/-- Without garbage collection a run keeps every entry of every history. -/
theorem find_run_keep (E : MVExtern) (ops : List MVOp) :
    ∀ w, (∀ e ∈ trace E w ops, e.gc = false) →
      ∀ c k v, StdMap.find (MultiVersionedRow.history w.row c) k = some v →
        StdMap.find (MultiVersionedRow.history (run E w ops).row c) k = some v := by
  induction ops with
  | nil => intro w _ c k v h; exact h
  | cons op ops ih =>
    intro w hg c' k v hf
    have hstep : StdMap.find (MultiVersionedRow.history (step E w op).state.row c') k
        = some v := by
      rcases step_shape E w op with ⟨_, hs⟩ | ⟨c, _, _, hs⟩ | ⟨c, V0, res, hc, hget, hs⟩
      · rw [hs]; exact hf
      · rw [hs]; exact hf
      · rw [hs, (history_apply_row _ res c').2]
        by_cases hcc : c' = c
        · subst hcc
          have hno : runs_gc w c' V0 = false := by
            have := hg ⟨c', next_key w, V0, runs_gc w c' V0⟩ (by
              simp only [trace]
              cases step E w op <;> simp [event, hc, hget])
            exact this
          rw [history_record_eq, hno]
          simp only [Bool.false_eq_true, if_false]
          exact StdMap.find_insert_keep _ _ _ _ _ hf
        · rw [history_record_other E w c c' V0 hcc]
          exact hf
    simp only [run]
    cases hst : step E w op with
    | ok u w1 =>
      rw [hst] at hstep
      apply ih w1 _ c' k v hstep
      intro e he
      apply hg
      simp only [trace, hst]
      exact List.mem_append_right _ he
    | fatal w1 =>
      rw [hst] at hstep
      exact hstep

/-- Without garbage collection every pair recorded in a run is in the history of its
column at the end of the run. -/
theorem trace_recorded (E : MVExtern) (ops : List MVOp) :
    ∀ w, KeysBelow w → NoWrap E w ops → (∀ e ∈ trace E w ops, e.gc = false) →
      ∀ e ∈ trace E w ops,
        StdMap.find (MultiVersionedRow.history (run E w ops).row e.column) e.ver
          = some e.old := by
  induction ops with
  | nil => intro w _ _ _ e he; simp [trace] at he
  | cons op ops ih =>
    intro w hk hn hg e he
    obtain ⟨hw, hn1⟩ := hn
    have hg0 : ∀ e ∈ event E w op, e.gc = false := by
      intro e he
      apply hg
      simp only [trace]
      cases step E w op <;> simp [he]
    have hs := KeysBelow_step E w op hw hk (Or.inr hg0)
    have hev : ∀ e ∈ event E w op,
        StdMap.find (MultiVersionedRow.history (step E w op).state.row e.column) e.ver
          = some e.old := by
      intro e he
      rcases step_shape E w op with ⟨hc, _⟩ | ⟨c, hc, hget, _⟩ | ⟨c, V0, res, hc, hget, hs⟩
      · simp [event, hc] at he
      · simp [event, hc, hget] at he
      · simp only [event, hc, hget, List.mem_singleton] at he
        have hno : runs_gc w c V0 = false := by
          have := hg0 ⟨c, next_key w, V0, runs_gc w c V0⟩ (by simp [event, hc, hget])
          exact this
        subst he
        rw [hs, (history_apply_row _ res c).2, history_record_eq, hno]
        simp only [Bool.false_eq_true, if_false]
        exact StdMap.find_insert_fresh _ _ _ (next_key_fresh w c hw hk).2
    simp only [run]
    cases hst : step E w op with
    | ok u w1 =>
      rw [hst] at hs hn1 hev
      simp only [trace, hst, List.mem_append] at he
      have hg1 : ∀ e ∈ trace E w1 ops, e.gc = false := by
        intro e he
        apply hg
        simp only [trace, hst]
        exact List.mem_append_right _ he
      rcases he with he | he
      · exact find_run_keep E ops w1 hg1 _ _ _ (hev e he)
      · exact ih w1 hs hn1 hg1 e he
    | fatal w1 =>
      rw [hst] at hev
      simp only [trace, hst] at he
      exact hev e he

end MVWorld

namespace MVWorld

theorem KeysBelow_fresh (w : MVWorld) (h : w.row.old_values_ = []) : KeysBelow w := by
  intro c k hmem
  simp [MultiVersionedRow.history, h, StdMap.find, StdMap.keys] at hmem

theorem gc_flags_from (E : MVExtern) (c : Int) (ops : List MVOp) :
    ∀ (w : MVWorld) (n : Nat),
      (∀ k ∈ StdMap.keys (MultiVersionedRow.history w.row c), k ≤ (w.ver_s : Int)) →
      StdMap.size (MultiVersionedRow.history w.row c) = n → NoWrap E w ops →
      ∀ j b, (gc_flags E w ops c)[j]? = some b →
        (n + j + 1 < GC_THRESHOLD → b = false) ∧ (n + j + 1 = GC_THRESHOLD → b = true) := by
  induction ops with
  | nil => intro w n _ _ _ j b h; simp [gc_flags, trace] at h
  | cons op ops ih =>
    intro w n hk hsz hn j b hj
    obtain ⟨hw, hn1⟩ := hn
    obtain ⟨hkey, hmod⟩ := next_key_eq w hw
    rcases step_shape E w op with ⟨hc, hs⟩ | ⟨c1, hc, hget, hs⟩ | ⟨c1, V0, res, hc, hget, hs⟩
    · have hev : event E w op = [] := by simp [event, hc]
      rw [hs] at hn1
      simp only [gc_flags, trace, hs, hev, List.nil_append] at hj
      refine ih { w with ver_s := (w.ver_s + 1) % version_t_mod } n ?_ hsz hn1 j b hj
      intro k hmem
      have := hk k hmem
      simp only [hmod]
      push_cast
      omega
    · have hev : event E w op = [] := by simp [event, hc, hget]
      simp [gc_flags, trace, hs, hev] at hj
    · have hev : event E w op = [⟨c1, next_key w, V0, runs_gc w c1 V0⟩] := by
        simp [event, hc, hget]
      by_cases hcc : c1 = c
      · subst hcc
        have hfresh : StdMap.find (MultiVersionedRow.history w.row c1) (next_key w) = none := by
          refine (StdMap.find_eq_none_iff _ _).2 ?_
          intro hmem
          have := hk _ hmem
          rw [hkey] at this
          push_cast at this
          omega
        have hsize := StdMap.size_insert_fresh _ _ V0 hfresh
        have hflag : runs_gc w c1 V0 = decide ((n + 1) % GC_THRESHOLD = 0) := by
          simp only [runs_gc, hsize, hsz]
        have htr : ∃ rest, gc_flags E w (op :: ops) c1 = runs_gc w c1 V0 :: rest ∧
            (∀ j b, rest[j]? = some b → runs_gc w c1 V0 = false →
              (n + 1 + j + 1 < GC_THRESHOLD → b = false) ∧
              (n + 1 + j + 1 = GC_THRESHOLD → b = true)) := by
          cases hst : step E w op with
          | fatal w1 =>
            exact ⟨[], by simp [gc_flags, trace, hst, hev], by intro j b h; simp at h⟩
          | ok u w1 =>
            refine ⟨gc_flags E w1 ops c1, by simp [gc_flags, trace, hst, hev], ?_⟩
            intro j b h hno
            rw [hst] at hn1
            have hw1 : w1 = (MultiVersionedRow.apply_row
                (MultiVersionedRow.record E w c1 V0) res).state := by
              rw [← hs, hst]
              rfl
            obtain ⟨hv, hh⟩ := history_apply_row (MultiVersionedRow.record E w c1 V0) res c1
            rw [← hw1, history_record_eq, hno] at hh
            simp only [Bool.false_eq_true, if_false] at hh
            rw [← hw1, MultiVersionedRow.record_ver_s, hmod] at hv
            refine ih w1 (n + 1) ?_ ?_ hn1 j b h
            · intro k hmem
              rw [hh] at hmem
              rw [hv]
              rcases StdMap.keys_insert_sub _ _ _ _ hmem with h1 | h1
              · have := hk k h1
                push_cast
                omega
              · rw [h1, hkey]
            · rw [hh, hsize, hsz]
        obtain ⟨rest, hrest, hih⟩ := htr
        rw [hrest] at hj
        simp only [GC_THRESHOLD] at hflag hih ⊢
        cases j with
        | zero =>
          simp only [List.getElem?_cons_zero, Option.some.injEq] at hj
          rw [← hj, hflag]
          constructor
          · intro hlt
            have : (n + 1) % 100 = n + 1 := Nat.mod_eq_of_lt (by omega)
            simp [this]
          · intro heq
            have : n + 1 = 100 := by omega
            simp [this]
        | succ j =>
          simp only [List.getElem?_cons_succ] at hj
          by_cases hlt : n + 1 < 100
          · have hno : runs_gc w c1 V0 = false := by
              rw [hflag]
              have : (n + 1) % 100 = n + 1 := Nat.mod_eq_of_lt hlt
              simp [this]
            have := hih j b hj hno
            constructor
            · intro h1
              exact this.1 (by omega)
            · intro h1
              exact this.2 (by omega)
          · constructor
            · intro h1
              omega
            · intro h1
              omega
      · have hne : c ≠ c1 := fun h => hcc h.symm
        cases hst : step E w op with
        | fatal w1 =>
          simp [gc_flags, trace, hst, hev, hcc] at hj
        | ok u w1 =>
          rw [hst] at hn1
          have hw1 : w1 = (MultiVersionedRow.apply_row
              (MultiVersionedRow.record E w c1 V0) res).state := by
            rw [← hs, hst]
            rfl
          obtain ⟨hv, hh⟩ := history_apply_row (MultiVersionedRow.record E w c1 V0) res c
          rw [← hw1, history_record_other E w c1 c V0 hne] at hh
          rw [← hw1, MultiVersionedRow.record_ver_s, hmod] at hv
          have hj1 : (gc_flags E w1 ops c)[j]? = some b := by
            simpa [gc_flags, trace, hst, hev, hcc] using hj
          refine ih w1 n ?_ ?_ hn1 j b hj1
          · intro k hmem
            rw [hh] at hmem
            rw [hv]
            have := hk k hmem
            push_cast
            omega
          · rw [hh, hsz]

end MVWorld

/-- C25: in every state reached from a freshly created `MultiVersionedRow` by updates
of the row and draws of version ids by other rows, as long as the ids drawn are
non-negative `i64` values and `garbageCollection` only removes entries, every key of
every column history `old_values_[c]` is at most `ver_s`. In any state with that
property the id that the next update draws is strictly greater than every key of every
history and is not yet a key, so an update of column `c` that reads the value `V0`
passes to the size test, and to the garbage collection when that runs, the history of
`c` extended by the one new entry `ver -> V0`, every older entry kept. Hence, in a run
in which `garbageCollection` has not run, every version id issued against a column is a
key of the history of that column at the end of the run, mapped to the value that the
update replaced. -/
theorem mv_history_complete (E : MVExtern) (w0 : MVWorld) (ops : List MVOp)
    (hfresh : w0.row.old_values_ = []) (hn : MVWorld.NoWrap E w0 ops) :
    (E.Shrinks → MVWorld.KeysBelow (MVWorld.run E w0 ops)) ∧
    (∀ w : MVWorld, MVWorld.KeysBelow w → w.ver_s + 1 < i64_lim →
      ∀ op c V0, op.column = some c → E.get_column w.row.toRow c = some V0 →
        (∀ k ∈ StdMap.keys (MultiVersionedRow.history w.row c), k < MVWorld.next_key w) ∧
        StdMap.find (MultiVersionedRow.history w.row c) (MVWorld.next_key w) = none ∧
        StdMap.size (StdMap.insert (MultiVersionedRow.history w.row c) (MVWorld.next_key w) V0)
          = StdMap.size (MultiVersionedRow.history w.row c) + 1 ∧
        StdMap.find (StdMap.insert (MultiVersionedRow.history w.row c) (MVWorld.next_key w) V0)
          (MVWorld.next_key w) = some V0 ∧
        (∀ k v, StdMap.find (MultiVersionedRow.history w.row c) k = some v →
          StdMap.find (StdMap.insert (MultiVersionedRow.history w.row c)
            (MVWorld.next_key w) V0) k = some v) ∧
        MultiVersionedRow.history (MVWorld.step E w op).state.row c =
          (if MVWorld.runs_gc w c V0 = true then
            (E.garbageCollection c (MVWorld.next_key w)
              (StdMap.insert (MultiVersionedRow.history w.row c) (MVWorld.next_key w) V0)
              ((StdMap.find w.row.time_segment c).getD [])).1
          else StdMap.insert (MultiVersionedRow.history w.row c) (MVWorld.next_key w) V0)) ∧
    ((∀ e ∈ MVWorld.trace E w0 ops, e.gc = false) →
      MVWorld.KeysBelow (MVWorld.run E w0 ops) ∧
      ∀ e ∈ MVWorld.trace E w0 ops,
        StdMap.find (MultiVersionedRow.history (MVWorld.run E w0 ops).row e.column) e.ver
          = some e.old) := by
  have hk0 := MVWorld.KeysBelow_fresh w0 hfresh
  refine ⟨fun hsh => MVWorld.KeysBelow_run E ops w0 hk0 hn (Or.inl hsh), ?_, ?_⟩
  · intro w hk hw op c V0 hc hget
    obtain ⟨h1, h2⟩ := MVWorld.next_key_fresh w c hw hk
    refine ⟨h1, h2, StdMap.size_insert_fresh _ _ _ h2, StdMap.find_insert_fresh _ _ _ h2,
      fun k v hf => StdMap.find_insert_keep _ _ _ _ _ hf, ?_⟩
    rcases MVWorld.step_shape E w op with ⟨hc1, _⟩ | ⟨c1, hc1, hg1, _⟩ | ⟨c1, V1, res, hc1, hg1, hs⟩
    · rw [hc] at hc1
      cases hc1
    · rw [hc] at hc1
      cases hc1
      rw [hget] at hg1
      cases hg1
    · rw [hc] at hc1
      cases hc1
      rw [hget] at hg1
      cases hg1
      rw [hs, (MVWorld.history_apply_row _ res c).2, MVWorld.history_record_eq]
  · intro hg
    exact ⟨MVWorld.KeysBelow_run E ops w0 hk0 hn (Or.inr hg),
      MVWorld.trace_recorded E ops w0 hk0 hn hg⟩

/-- C25 at a fresh row over `zeroRow`: two updates of column 0 with a draw by another
row between them. -/
theorem mv_history_complete_witness :
    mvWorld0.row.old_values_ = [] ∧
    MVWorld.NoWrap mvExtern mvWorld0
      [MVOp.update_i32 0 5, MVOp.elsewhere, MVOp.update_i32 0 7] ∧
    MVWorld.trace mvExtern mvWorld0 [MVOp.update_i32 0 5, MVOp.elsewhere, MVOp.update_i32 0 7]
      = [⟨0, 1, Value.I32 0, false⟩, ⟨0, 3, Value.I32 0, false⟩] ∧
    MVWorld.KeysBelow (MVWorld.run mvExtern mvWorld0
      [MVOp.update_i32 0 5, MVOp.elsewhere, MVOp.update_i32 0 7]) ∧
    ∀ e ∈ MVWorld.trace mvExtern mvWorld0
        [MVOp.update_i32 0 5, MVOp.elsewhere, MVOp.update_i32 0 7],
      StdMap.find (MultiVersionedRow.history (MVWorld.run mvExtern mvWorld0
        [MVOp.update_i32 0 5, MVOp.elsewhere, MVOp.update_i32 0 7]).row e.column) e.ver
        = some e.old :=
  ⟨rfl, by decide, by decide,
    (mv_history_complete mvExtern mvWorld0
      [MVOp.update_i32 0 5, MVOp.elsewhere, MVOp.update_i32 0 7] rfl (by decide)).2.2
      (by decide)⟩

/-- C26: `update_internal(col, v)` calls `garbageCollection(col, it)`, `it` at the key
of the entry just inserted, exactly when the number of entries of `old_values_[col]`
after the insertion is divisible by `GC_THRESHOLD = 100`: then the history and the time
index of the column are what `garbageCollection` leaves of them, otherwise the result
does not depend on `garbageCollection`. Hence on a freshly created `MultiVersionedRow`,
in any run of updates of any columns and draws of version ids by other rows in which
the ids drawn are non-negative `i64` values, each of the first 99 updates of a column
runs no garbage collection and the 100th update of that column runs it. -/
theorem mv_gc_at_threshold (E : MVExtern) (w0 : MVWorld) (ops : List MVOp) (c : Int)
    (hfresh : w0.row.old_values_ = []) (hn : MVWorld.NoWrap E w0 ops) :
    GC_THRESHOLD = 100 ∧
    (∀ (w : MVWorld) (col : Int) (V0 : Value),
      (MVWorld.runs_gc w col V0 = true ↔
        StdMap.size (StdMap.insert (MultiVersionedRow.history w.row col)
          (MVWorld.next_key w) V0) % 100 = 0) ∧
      (MVWorld.runs_gc w col V0 = true →
        MultiVersionedRow.history (MultiVersionedRow.record E w col V0).row col =
          (E.garbageCollection col (MVWorld.next_key w)
            (StdMap.insert (MultiVersionedRow.history w.row col) (MVWorld.next_key w) V0)
            ((StdMap.find w.row.time_segment col).getD [])).1 ∧
        StdMap.find (MultiVersionedRow.record E w col V0).row.time_segment col = some
          (E.garbageCollection col (MVWorld.next_key w)
            (StdMap.insert (MultiVersionedRow.history w.row col) (MVWorld.next_key w) V0)
            ((StdMap.find w.row.time_segment col).getD [])).2) ∧
      (MVWorld.runs_gc w col V0 = false →
        MultiVersionedRow.history (MultiVersionedRow.record E w col V0).row col =
          StdMap.insert (MultiVersionedRow.history w.row col) (MVWorld.next_key w) V0 ∧
        (MultiVersionedRow.record E w col V0).row.time_segment = w.row.time_segment ∧
        ∀ E2 : MVExtern,
          MultiVersionedRow.record E2 w col V0 = MultiVersionedRow.record E w col V0)) ∧
    (∀ j b, (MVWorld.gc_flags E w0 ops c)[j]? = some b →
      (j < 99 → b = false) ∧ (j = 99 → b = true)) := by
  refine ⟨rfl, ?_, ?_⟩
  · intro w col V0
    have hcond : MVWorld.runs_gc w col V0 = true ↔
        StdMap.size (StdMap.insert (MultiVersionedRow.history w.row col)
          (MVWorld.next_key w) V0) % 100 = 0 := by
      simp only [MVWorld.runs_gc, GC_THRESHOLD, decide_eq_true_eq]
    refine ⟨hcond, ?_, ?_⟩
    · intro hgc
      refine ⟨by rw [MVWorld.history_record_eq, if_pos hgc], ?_⟩
      have h0 := hcond.1 hgc
      simp only [MultiVersionedRow.history, MVWorld.next_key] at h0
      simp only [MultiVersionedRow.record, GC_THRESHOLD, MultiVersionedRow.subscript_fst, h0,
        if_true, StdMap.find_assign_self, MultiVersionedRow.history, MVWorld.next_key]
    · intro hno
      have h0 : ¬ StdMap.size (StdMap.insert (MultiVersionedRow.history w.row col)
          (MVWorld.next_key w) V0) % 100 = 0 := by
        intro h
        rw [hcond.2 h] at hno
        cases hno
      simp only [MultiVersionedRow.history, MVWorld.next_key] at h0
      refine ⟨by rw [MVWorld.history_record_eq, hno]; simp, ?_, ?_⟩
      · simp only [MultiVersionedRow.record, GC_THRESHOLD, MultiVersionedRow.subscript_fst, h0,
          if_false]
      · intro E2
        simp only [MultiVersionedRow.record, GC_THRESHOLD, MultiVersionedRow.subscript_fst, h0,
          if_false]
  · intro j b hj
    have h := MVWorld.gc_flags_from E c ops w0 0
      (fun k hmem => MVWorld.KeysBelow_fresh w0 hfresh c k hmem)
      (by simp [MultiVersionedRow.history, hfresh, StdMap.find, StdMap.size]) hn j b hj
    simp only [GC_THRESHOLD] at h
    exact ⟨fun h1 => h.1 (by omega), fun h1 => h.2 (by omega)⟩

set_option maxRecDepth 100000

/-- C26 at a fresh row over `zeroRow`: of 100 updates of column 0 the first 99 run no
garbage collection and the 100th runs it. -/
theorem mv_gc_at_threshold_witness :
    mvWorld0.row.old_values_ = [] ∧
    MVWorld.NoWrap mvExtern mvWorld0 (List.replicate 100 (MVOp.update_i32 0 5)) ∧
    MVWorld.gc_flags mvExtern mvWorld0 (List.replicate 100 (MVOp.update_i32 0 5)) 0
      = List.replicate 99 false ++ [true] ∧
    (∀ j b,
      (MVWorld.gc_flags mvExtern mvWorld0 (List.replicate 100 (MVOp.update_i32 0 5)) 0)[j]?
        = some b → (j < 99 → b = false) ∧ (j = 99 → b = true)) :=
  ⟨rfl, by decide, by decide,
    (mv_gc_at_threshold mvExtern mvWorld0 (List.replicate 100 (MVOp.update_i32 0 5)) 0 rfl
      (by decide)).2.2⟩

end Rococo
